import Mathlib

/-!
Verification development for the geologic-periods student assignment
repository (gsvance/geologic_periods).

The embedding models the two Python scripts:
* `AssignStudentsNew.py` — the staged recursive search engine (namespace `ASN`),
* `AlgorithmUtilities.py` / `AssignStudents.py` — the older brute-force
  matching machinery (namespace `AU`).

Modelling conventions:
* Python `dict`s are association lists `List (String × β)`; key order models
  dict insertion order; value update (`d[k] = v`) preserves key order.
* Python `set`s of strings are strictly sorted lists (a canonical,
  order-insensitive representation of a finite set of strings).
* Python exceptions (`assert` failures, `KeyError`, `IndexError`,
  `AttributeError`, `ValueError`, `TypeError`) are modelled with
  `Except String`; a raised exception aborts the whole run, as in Python.
* `random.shuffle` is modelled by an oracle `shuffle : Nat → List String →
  List String`: an arbitrary stream of reorderings, one per call site
  executed, indexed by a counter threaded through the computation.
* Scores are `List Int`, compared by `tupleLt`, the standard Python
  tuple comparison.
-/

namespace GeoPeriods

/-- Python dict lookup `d[k]` on an association list (first matching key). -/
def alookup (k : String) : List (String × β) → Option β
  | [] => none
  | p :: ps => if p.1 = k then some p.2 else alookup k ps

/-- Python dict value update `d[k] = v`: replaces the value at key `k`,
keeping key order; a no-op if the key is absent. -/
def aupdate (k : String) (v : β) : List (String × β) → List (String × β)
  | [] => []
  | p :: ps => if p.1 = k then (p.1, v) :: aupdate k v ps else p :: aupdate k v ps

/-- The key list of an association list, in order. -/
def keysOf (l : List (String × β)) : List String := l.map Prod.fst

/-- Python `set.add`: insert into a strictly sorted list, a no-op if present. -/
def insertSorted (s : String) : List String → List String
  | [] => [s]
  | t :: ts =>
    if s < t then s :: t :: ts
    else if s = t then t :: ts
    else t :: insertSorted s ts

/-- Python `set.remove` payload: drop every occurrence of `s`. -/
def removeStr (s : String) (l : List String) : List String :=
  l.filter (fun t => !(t == s))

/-- Python tuple/list comparison `a < b`, lexicographic left to right. -/
def tupleLt : List Int → List Int → Bool
  | [], [] => false
  | [], _ :: _ => true
  | _ :: _, [] => false
  | a :: as, b :: bs => if a < b then true else if b < a then false else tupleLt as bs

/-- `score[i] += 1` on a Python list of integers. -/
def bump (l : List Int) (i : Nat) : List Int := l.set i (l.getD i 0 + 1)

/-- `score[i] -= 1` on a Python list of integers. -/
def bumpDown (l : List Int) (i : Nat) : List Int := l.set i (l.getD i 0 - 1)

/-- `itertools.combinations(l, k)`, in itertools order. -/
def combinations : List α → Nat → List (List α)
  | _, 0 => [[]]
  | [], _ + 1 => []
  | a :: l, k + 1 => (combinations l k).map (fun c => a :: c) ++ combinations l (k + 1)

/-- `itertools.product(*ls)`: Cartesian product, rightmost factor varying fastest. -/
def productList : List (List α) → List (List α)
  | [] => [[]]
  | xs :: rest => (xs.map (fun x => (productList rest).map (fun t => x :: t))).flatten

/-- The list `[1, 2, ..., K]` of one-based choice ranks (`range(1, K + 1)`). -/
def rankList (K : Nat) : List Nat := (List.range K).map (· + 1)

/-- `list.index(x)` in Python: the first index of `x`, if any. -/
def firstIdx (x : String) : List String → Option Nat
  | [] => none
  | y :: ys => if y = x then some 0 else (firstIdx x ys).map (· + 1)

namespace ASN

/-- A student of `AssignStudentsNew.py`: a name, a high-priority flag, and an
ordered tuple of choices. -/
structure Student where
  name : String
  high_priority : Bool
  choices : List String
deriving DecidableEq, Repr

/-- `Student.get_choice(rank)`: the student's rank-th choice, one-based.
Out-of-range access is an `IndexError`, surfaced as `none` and turned into an
error by callers. (Python's negative indexing at `rank = 0` is never
exercised: every call site uses `1 ≤ rank`.) -/
def Student.get_choice (st : Student) (rank : Nat) : Option String :=
  st.choices[rank - 1]?

/-- The mutable matching of `AssignStudentsNew.py`: dict from student name to
assigned option (or `None`), dict from option to its set of students, and the
dict of per-student lock flags. -/
structure Matching where
  by_student : List (String × Option String)
  by_option : List (String × List String)
  student_locked : List (String × Bool)
deriving DecidableEq, Repr

/-- `Matching.__init__`: every student unmatched, every option empty, every
student unlocked.  The constructor's `assert len(...) == len(...)` checks
(which fail on duplicate names or options) are the `Except` guards. -/
def Matching.init (students : List Student) (options : List String) :
    Except String Matching :=
  if (students.map Student.name).Nodup then
    if options.Nodup then
      .ok { by_student := students.map (fun st => (st.name, (none : Option String))),
            by_option := options.map (fun o => (o, ([] : List String))),
            student_locked := students.map (fun st => (st.name, false)) }
    else .error "AssertionError: duplicate options"
  else .error "AssertionError: duplicate student names"

/-- `Matching.is_matched(student)`: `by_student[student] is not None`. -/
def Matching.is_matched (m : Matching) (s : String) : Except String Bool :=
  match alookup s m.by_student with
  | none => .error "KeyError: by_student"
  | some v => .ok v.isSome

/-- `Matching.is_locked(student)`: `student_locked[student]`. -/
def Matching.is_locked (m : Matching) (s : String) : Except String Bool :=
  match alookup s m.student_locked with
  | none => .error "KeyError: student_locked"
  | some b => .ok b

/-- `Matching.get_match(student)`: `by_student[student]`. -/
def Matching.get_match (m : Matching) (s : String) : Except String (Option String) :=
  match alookup s m.by_student with
  | none => .error "KeyError: by_student"
  | some v => .ok v

/-- `Matching.assign(student, option)`: asserts the student is unmatched and
unlocked, then adds the student to the option's set and records the match. -/
def Matching.assign (m : Matching) (s o : String) : Except String Matching :=
  match alookup s m.by_student with
  | none => .error "KeyError: by_student"
  | some (some _) => .error "AssertionError: assign: already matched"
  | some none =>
    match alookup s m.student_locked with
    | none => .error "KeyError: student_locked"
    | some true => .error "AssertionError: assign: locked"
    | some false =>
      match alookup o m.by_option with
      | none => .error "KeyError: by_option"
      | some l =>
        .ok { m with
              by_option := aupdate o (insertSorted s l) m.by_option,
              by_student := aupdate s (some o) m.by_student }

/-- `Matching.erase(student)`: asserts the student is matched and unlocked,
then removes them from their option's set and clears the match. -/
def Matching.erase (m : Matching) (s : String) : Except String Matching :=
  match alookup s m.by_student with
  | none => .error "KeyError: by_student"
  | some none => .error "AssertionError: erase: not matched"
  | some (some o) =>
    match alookup s m.student_locked with
    | none => .error "KeyError: student_locked"
    | some true => .error "AssertionError: erase: locked"
    | some false =>
      match alookup o m.by_option with
      | none => .error "KeyError: by_option"
      | some l =>
        if s ∈ l then
          .ok { m with
                by_option := aupdate o (removeStr s l) m.by_option,
                by_student := aupdate s none m.by_student }
        else .error "KeyError: set.remove"

/-- `Matching.lock(student)`: asserts the student is unlocked, then locks. -/
def Matching.lock (m : Matching) (s : String) : Except String Matching :=
  match alookup s m.student_locked with
  | none => .error "KeyError: student_locked"
  | some true => .error "AssertionError: lock"
  | some false => .ok { m with student_locked := aupdate s true m.student_locked }

/-- `Matching.unlock(student)`: asserts the student is locked, then unlocks. -/
def Matching.unlock (m : Matching) (s : String) : Except String Matching :=
  match alookup s m.student_locked with
  | none => .error "KeyError: student_locked"
  | some false => .error "AssertionError: unlock"
  | some true => .ok { m with student_locked := aupdate s false m.student_locked }

/-- `Matching.get_n_unmatched()`: count of unmatched students. -/
def Matching.get_n_unmatched (m : Matching) : Nat :=
  (m.by_student.filter (fun p => p.2.isNone)).length

/-- `Matching.list_unmatched_students()`: unmatched students in dict order. -/
def Matching.list_unmatched_students (m : Matching) : List String :=
  (m.by_student.filter (fun p => p.2.isNone)).map Prod.fst

/-- Auxiliary loop of `Matching.reduce_to_pairs`. -/
def reduce_pairs_aux : List (String × Option String) →
    Except String (List (String × String))
  | [] => .ok []
  | (_, none) :: _ => .error "AssertionError: reduce_to_pairs: unmatched"
  | (s, some o) :: rest =>
    match reduce_pairs_aux rest with
    | .error e => .error e
    | .ok ps => .ok ((s, o) :: ps)

/-- `Matching.reduce_to_pairs()`: snapshot the matching as student–option
pairs; asserts every student is matched. -/
def Matching.reduce_to_pairs (m : Matching) : Except String (List (String × String)) :=
  reduce_pairs_aux m.by_student

/-- `Matching.assign(student, option)` as invoked with a saved value that may
be `None` (as `assign_pairs` does with pairs saved by `get_match`): the
asserts fire first, then `by_option[None]` raises `KeyError`. -/
def Matching.assign_opt (m : Matching) (s : String) : Option String → Except String Matching
  | some o => m.assign s o
  | none =>
    match alookup s m.by_student with
    | none => .error "KeyError: by_student"
    | some (some _) => .error "AssertionError: assign: already matched"
    | some none =>
      match alookup s m.student_locked with
      | none => .error "KeyError: student_locked"
      | some true => .error "AssertionError: assign: locked"
      | some false => .error "KeyError: by_option[None]"

/-- `Matching.assign_pairs(pairs)`: assign each saved pair in order. -/
def Matching.assign_pairs : Matching → List (String × Option String) → Except String Matching
  | m, [] => .ok m
  | m, (s, vo) :: rest =>
    match m.assign_opt s vo with
    | .error e => .error e
    | .ok m1 => m1.assign_pairs rest

/-- `Matching.erase_many(students)`: erase each named student in order. -/
def Matching.erase_many : Matching → List String → Except String Matching
  | m, [] => .ok m
  | m, s :: rest =>
    match m.erase s with
    | .error e => .error e
    | .ok m1 => m1.erase_many rest

/-- Loop of `Matching.lock_all_matched`, over a snapshot of the student keys. -/
def lock_all_aux : Matching → List (String × Option String) → List String →
    Except String (Matching × List String)
  | m, [], acc => .ok (m, acc)
  | m, p :: rest, acc =>
    match m.is_matched p.1 with
    | .error e => .error e
    | .ok false => lock_all_aux m rest acc
    | .ok true =>
      match m.is_locked p.1 with
      | .error e => .error e
      | .ok true => lock_all_aux m rest acc
      | .ok false =>
        match m.lock p.1 with
        | .error e => .error e
        | .ok m1 => lock_all_aux m1 rest (acc ++ [p.1])

/-- `Matching.lock_all_matched()`: lock every matched, unlocked student and
return the list of students locked by this call. -/
def Matching.lock_all_matched (m : Matching) : Except String (Matching × List String) :=
  lock_all_aux m m.by_student []

/-- `Matching.unlock_many(students)`: unlock each named student in order. -/
def Matching.unlock_many : Matching → List String → Except String Matching
  | m, [] => .ok m
  | m, s :: rest =>
    match m.unlock s with
    | .error e => .error e
    | .ok m1 => m1.unlock_many rest

/-- `Matching.list_overfilled_options(threshold)`: options with more than
`threshold` students. -/
def Matching.list_overfilled_options (m : Matching) (threshold : Nat) : List String :=
  (m.by_option.filter (fun p => threshold < p.2.length)).map Prod.fst

/-- `Matching.list_underfilled_options(threshold)`: each option with fewer
than `threshold` students, repeated once per student still needed. -/
def Matching.list_underfilled_options (m : Matching) (threshold : Nat) : List String :=
  (m.by_option.map (fun p =>
    if p.2.length < threshold then List.replicate (threshold - p.2.length) p.1
    else [])).flatten

/-- `Matching.list_empty_spots(low, high)`: each option with between `low`
(inclusive) and `high` (exclusive) students, repeated once per remaining
space below `high`. -/
def Matching.list_empty_spots (m : Matching) (low high : Nat) : List String :=
  (m.by_option.map (fun p =>
    if low ≤ p.2.length ∧ p.2.length < high then List.replicate (high - p.2.length) p.1
    else [])).flatten

/-- Filter of `Matching.make_trim_iterable`: the unlocked students of a set. -/
def removable_aux (m : Matching) : List String → Except String (List String)
  | [] => .ok []
  | s :: rest =>
    match m.is_locked s with
    | .error e => .error e
    | .ok true => removable_aux m rest
    | .ok false =>
      match removable_aux m rest with
      | .error e => .error e
      | .ok r => .ok (s :: r)

/-- `Matching.make_trim_iterable(option, threshold)`: asserts the option is
overfilled, then enumerates the combinations of unlocked students whose
removal brings it down to `threshold`. -/
def Matching.make_trim_iterable (m : Matching) (o : String) (threshold : Nat) :
    Except String (List (List String)) :=
  match alookup o m.by_option with
  | none => .error "KeyError: by_option"
  | some l =>
    if l.length ≤ threshold then .error "AssertionError: make_trim_iterable"
    else
      match removable_aux m l with
      | .error e => .error e
      | .ok removable => .ok (combinations removable (l.length - threshold))

/-- `Matching.list_students_for_option(option)` (note the `for`): the set of
students matched to the option, as a list. -/
def Matching.list_students_for_option (m : Matching) (o : String) :
    Except String (List String) :=
  match alookup o m.by_option with
  | none => .error "KeyError: by_option"
  | some l => .ok l

/-- The inner loop `for i in range(1, n_choices + 1): if student.get_choice(i)
== assigned: ... break` shared by `score_assignment`,
`find_more_unhappy_students` and `pretty_print_in_order`: the first rank whose
choice equals `assigned` (`none` when `assigned` is `None` or unlisted). -/
def choice_rank (st : Student) (assigned : Option String) :
    List Nat → Except String (Option Nat)
  | [] => .ok none
  | i :: rest =>
    match st.get_choice i with
    | none => .error "IndexError: choices"
    | some c => if some c = assigned then .ok (some i) else choice_rank st assigned rest

/-- Per-student update of `score_assignment`: on a matched rank `i`, increment
`score[0]`, `score[i]`, and (for a high-priority student) `score[K + i]`. -/
def score_step (K : Nat) (st : Student) (assigned : Option String)
    (score : List Int) : Except String (List Int) :=
  match choice_rank st assigned (rankList K) with
  | .error e => .error e
  | .ok none => .ok score
  | .ok (some i) =>
    let score1 := bump (bump score 0) i
    .ok (if st.high_priority then bump score1 (K + i) else score1)

/-- The student loop of `score_assignment`. -/
def score_aux (m : Matching) (K : Nat) : List Student → List Int →
    Except String (List Int)
  | [], score => .ok score
  | st :: rest, score =>
    match m.get_match st.name with
    | .error e => .error e
    | .ok assigned =>
      match score_step K st assigned score with
      | .error e => .error e
      | .ok score1 => score_aux m K rest score1

/-- `score_assignment(match, students, options, n_choices, min_per_option,
max_per_option)`: the lexicographic score vector
`[happy, choice_1, ..., choice_K, hp_choice_1, ..., hp_choice_K]`. -/
def score_assignment (m : Matching) (students : List Student)
    (options : List String) (K minpo maxpo : Nat) : Except String (List Int) :=
  score_aux m K students (List.replicate (2 * K + 1) 0)

/-- The happiness loop of `find_more_unhappy_students`: for every student, `0`
if unhappy, else `n_choices - i + 1` for their matched rank `i`. -/
def happiness_aux (m : Matching) (K : Nat) : List Student →
    Except String (List (String × Nat))
  | [] => .ok []
  | st :: rest =>
    match m.get_match st.name with
    | .error e => .error e
    | .ok assigned =>
      match choice_rank st assigned (rankList K) with
      | .error e => .error e
      | .ok r =>
        match happiness_aux m K rest with
        | .error e => .error e
        | .ok hs =>
          .ok ((st.name, match r with | some i => K - i + 1 | none => 0) :: hs)

/-- `find_more_unhappy_students(match, students, options, n_choices,
min_per_option, max_per_option)`.  After the happiness/priority loop, the
tier loop's very first iteration evaluates
`match.list_students_by_option(option)` — an attribute the `Matching` class
does not define (it defines `list_students_for_option`), so with a non-empty
option list the call raises `AttributeError`.  With an empty option list the
tier dict stays empty and the final `queue.sort(key=lambda x: tiers[x])`
raises `KeyError` unless the queue is empty. -/
def find_more_unhappy_students (m : Matching) (students : List Student)
    (options : List String) (K minpo maxpo : Nat) : Except String (List String) :=
  match happiness_aux m K students with
  | .error e => .error e
  | .ok happiness =>
    match options with
    | _ :: _ =>
      .error "AttributeError: Matching object has no attribute list_students_by_option"
    | [] =>
      let queue := (happiness.filter (fun p => decide (0 < p.2))).map Prod.fst
      if queue.isEmpty then .ok [] else .error "KeyError: tiers"

/-- The eviction loop of `assignment_algorithm_base_case` (executed when extra
unhappy students must be manufactured): for `i` in `range(k)`, unlock
`queue[i]`, save `(queue[i], get_match(queue[i]))`, and erase `queue[i]`. -/
def manufacture_aux : Matching → List String → Nat → Nat →
    Except String (Matching × List (String × Option String))
  | m, _, _, 0 => .ok (m, [])
  | m, queue, i, k + 1 =>
    match queue[i]? with
    | none => .error "IndexError: unhappy_queue"
    | some s =>
      match m.unlock s with
      | .error e => .error e
      | .ok m1 =>
        match m1.get_match s with
        | .error e => .error e
        | .ok saved =>
          match m1.erase s with
          | .error e => .error e
          | .ok m2 =>
            match manufacture_aux m2 queue (i + 1) k with
            | .error e => .error e
            | .ok (m3, rest) => .ok (m3, (s, saved) :: rest)

/-- The restoration loop at the end of `assignment_algorithm_base_case`:
re-assign each manufactured unhappy student to their saved option and
re-lock them. -/
def restore_manufactured : Matching → List (String × Option String) →
    Except String Matching
  | m, [] => .ok m
  | m, (s, vo) :: rest =>
    match m.assign_opt s vo with
    | .error e => .error e
    | .ok m1 =>
      match m1.lock s with
      | .error e => .error e
      | .ok m2 => restore_manufactured m2 rest

/-- The fill loop `for i, option in enumerate(underfilled):
match.assign(unhappy[i], option)` (an `IndexError` if `unhappy` is too short). -/
def assign_indexed : Matching → List String → List String → Nat →
    Except String Matching
  | m, _, [], _ => .ok m
  | m, unhappy, o :: os, i =>
    match unhappy[i]? with
    | none => .error "IndexError: unhappy"
    | some s =>
      match m.assign s o with
      | .error e => .error e
      | .ok m1 => assign_indexed m1 unhappy os (i + 1)

/-- The excess loop `for i in range(len(underfilled), len(unhappy)):
match.assign(unhappy[i], empty_spots[i - len(underfilled)])`, running over the
remaining unhappy students and the shuffled spot list in step. -/
def assign_excess : Matching → List String → List String → Except String Matching
  | m, [], _ => .ok m
  | _, _ :: _, [] => .error "IndexError: empty_spots"
  | m, s :: ss, o :: os =>
    match m.assign s o with
    | .error e => .error e
    | .ok m1 => assign_excess m1 ss os

/-- `assignment_algorithm_base_case(match, students, options, n_choices,
min_per_option, max_per_option)`: manufacture extra unhappy students if the
under-minimum slots outnumber them, fill every under-minimum slot, scatter
any remaining unhappy students over remaining spots, score, snapshot the
pairs, then undo everything done here. -/
def assignment_algorithm_base_case (shuffle : Nat → List String → List String)
    (ctr : Nat) (m : Matching) (students : List Student) (options : List String)
    (K minpo maxpo : Nat) :
    Except String (Matching × Nat × (List (String × String) × List Int)) :=
  let n_unhappy := m.get_n_unmatched
  let underfilled := m.list_underfilled_options minpo
  match (if n_unhappy < underfilled.length then
           match find_more_unhappy_students m students options K minpo maxpo with
           | .error e => .error e
           | .ok queue => manufacture_aux m queue 0 (underfilled.length - n_unhappy)
         else .ok (m, []) :
         Except String (Matching × List (String × Option String))) with
  | .error e => .error e
  | .ok (m1, restore) =>
    let unhappy := shuffle ctr m1.list_unmatched_students
    let ctr1 := ctr + 1
    match assign_indexed m1 unhappy underfilled 0 with
    | .error e => .error e
    | .ok m2 =>
      match (if underfilled.length < unhappy.length then
               match assign_excess m2 (unhappy.drop underfilled.length)
                   (shuffle ctr1 (m2.list_empty_spots minpo maxpo)) with
               | .error e => .error e
               | .ok mm => .ok (mm, ctr1 + 1)
             else .ok (m2, ctr1) :
             Except String (Matching × Nat)) with
      | .error e => .error e
      | .ok (m3, ctr2) =>
        match score_assignment m3 students options K minpo maxpo with
        | .error e => .error e
        | .ok score =>
          match m3.reduce_to_pairs with
          | .error e => .error e
          | .ok pairs =>
            match m3.erase_many unhappy with
            | .error e => .error e
            | .ok m4 =>
              match (if n_unhappy < underfilled.length then
                       restore_manufactured m4 restore
                     else .ok m4) with
              | .error e => .error e
              | .ok m5 => .ok (m5, ctr2, (pairs, score))

/-- The trim saving loop for one overfilled option's chosen group: save
`(student, get_match(student))` and erase the student, in group order. -/
def erase_group : Matching → List String →
    Except String (Matching × List (String × Option String))
  | m, [] => .ok (m, [])
  | m, s :: rest =>
    match m.get_match s with
    | .error e => .error e
    | .ok v =>
      match m.erase s with
      | .error e => .error e
      | .ok m1 =>
        match erase_group m1 rest with
        | .error e => .error e
        | .ok (m2, saved) => .ok (m2, (s, v) :: saved)

/-- The trim saving loop over all groups of one Cartesian-product element. -/
def erase_trim : Matching → List (List String) →
    Except String (Matching × List (String × Option String))
  | m, [] => .ok (m, [])
  | m, g :: gs =>
    match erase_group m g with
    | .error e => .error e
    | .ok (m1, saved1) =>
      match erase_trim m1 gs with
      | .error e => .error e
      | .ok (m2, saved2) => .ok (m2, saved1 ++ saved2)

/-- The comparison `if best_score is None or new_score > best_score` of the
stage loop.  Comparing an actual best score against a `(None, None)` result
from a deeper stage is a Python `TypeError`. -/
def update_best (best new : Option (List (String × String) × List Int)) :
    Except String (Option (List (String × String) × List Int)) :=
  match best with
  | none => .ok new
  | some b =>
    match new with
    | none => .error "TypeError: NoneType comparison"
    | some n => .ok (if tupleLt b.2 n.2 then some n else some b)

/-- The `for trim in trim_product` loop of `recursive_assignment_algorithm`:
erase the chosen students (saving the removed pairs), lock all current work,
recurse via `next`, unlock, keep the better score, restore the pairs. -/
def trim_loop
    (next : Matching → Nat →
      Except String (Matching × Nat × Option (List (String × String) × List Int))) :
    Matching → Nat → List (List (List String)) →
    Option (List (String × String) × List Int) →
    Except String (Matching × Nat × Option (List (String × String) × List Int))
  | m, ctr, [], best => .ok (m, ctr, best)
  | m, ctr, trim :: rest, best =>
    match erase_trim m trim with
    | .error e => .error e
    | .ok (m1, saved) =>
      match m1.lock_all_matched with
      | .error e => .error e
      | .ok (m2, locked) =>
        match next m2 ctr with
        | .error e => .error e
        | .ok (m3, ctr', res) =>
          match m3.unlock_many locked with
          | .error e => .error e
          | .ok m4 =>
            match update_best best res with
            | .error e => .error e
            | .ok best' =>
              match m4.assign_pairs saved with
              | .error e => .error e
              | .ok m5 => trim_loop next m5 ctr' rest best'

/-- The stage-entry loop: assign every unmatched student to their
`stage`-th choice, collecting the names assigned here. -/
def stage_assign_aux : Matching → List Student → Nat → List String →
    Except String (Matching × List String)
  | m, [], _, acc => .ok (m, acc)
  | m, st :: rest, stage, acc =>
    match m.is_matched st.name with
    | .error e => .error e
    | .ok true => stage_assign_aux m rest stage acc
    | .ok false =>
      match st.get_choice stage with
      | none => .error "IndexError: choices"
      | some c =>
        match m.assign st.name c with
        | .error e => .error e
        | .ok m1 => stage_assign_aux m1 rest stage (acc ++ [st.name])

/-- Stage entry of `recursive_assignment_algorithm` (lines 236–240). -/
def stage_assign (m : Matching) (students : List Student) (stage : Nat) :
    Except String (Matching × List String) :=
  stage_assign_aux m students stage []

/-- The loop building one trim iterable per overfilled option. -/
def trim_iterables (m : Matching) : List String → Nat →
    Except String (List (List (List String)))
  | [], _ => .ok []
  | o :: os, thr =>
    match m.make_trim_iterable o thr with
    | .error e => .error e
    | .ok ti =>
      match trim_iterables m os thr with
      | .error e => .error e
      | .ok tis => .ok (ti :: tis)

/-- `recursive_assignment_algorithm(match, students, options, n_choices,
min_per_option, max_per_option, stage)`.  The recursion depth is bounded
structurally by `fuel`; the driver supplies `fuel = n_choices + 1`, which the
`stage > n_choices` test never exhausts.  When a stage has no overfilled
options, line 256 evaluates `it.repeat(tuple(), n=1)`, and `repeat` takes no
keyword named `n` (the keyword is `times`): the call raises `TypeError`
before the trim loop starts, so that branch is an error path, with the
stage-entry assignments left in place. -/
def recursive_assignment_algorithm (shuffle : Nat → List String → List String)
    (students : List Student) (options : List String) (K minpo maxpo : Nat) :
    Nat → Nat → Matching → Nat →
    Except String (Matching × Nat × Option (List (String × String) × List Int))
  | 0, _, _, _ => .error "RecursionError"
  | fuel + 1, stage, m, ctr =>
    if K < stage then
      match assignment_algorithm_base_case shuffle ctr m students options K minpo maxpo with
      | .error e => .error e
      | .ok (m', ctr', r) => .ok (m', ctr', some r)
    else
      match stage_assign m students stage with
      | .error e => .error e
      | .ok (m1, assigned_students) =>
        match trim_iterables m1 (m1.list_overfilled_options maxpo) maxpo with
        | .error e => .error e
        | .ok tis =>
          if 0 < tis.length then
            match trim_loop
                (fun mm cc => recursive_assignment_algorithm shuffle students options
                  K minpo maxpo fuel (stage + 1) mm cc)
                m1 ctr (productList tis) none with
            | .error e => .error e
            | .ok (m2, ctr2, best) =>
              match m2.erase_many assigned_students with
              | .error e => .error e
              | .ok m3 => .ok (m3, ctr2, best)
          else .error "TypeError: invalid keyword argument for repeat"

/-- A full run of the staged engine as `main` performs it: build the initial
matching and call the recursive algorithm at stage 1. -/
def run_staged (shuffle : Nat → List String → List String)
    (students : List Student) (options : List String) (K minpo maxpo : Nat) :
    Except String (Matching × Nat × Option (List (String × String) × List Int)) :=
  match Matching.init students options with
  | .error e => .error e
  | .ok m0 => recursive_assignment_algorithm shuffle students options K minpo maxpo
      (K + 1) 1 m0 0

/-- Entry state of one branch of the stage loop over `trims` from state `m`
and counter `ctr`: run an earlier prefix of trims (with an empty best
accumulator, which follows the same state and counter trajectory as the real
loop), then erase the chosen trim and lock all current work; `m2`/`ctrD` are
the state and counter handed to the recursive call for that branch. -/
def branch_entry
    (next : Matching → Nat →
      Except String (Matching × Nat × Option (List (String × String) × List Int)))
    (m : Matching) (ctr : Nat) (trims : List (List (List String)))
    (m2 : Matching) (ctrD : Nat) : Prop :=
  ∃ done trim rest mD bestD m1' saved locked,
    trims = done ++ trim :: rest ∧
    trim_loop next m ctr done none = .ok (mD, ctrD, bestD) ∧
    erase_trim mD trim = .ok (m1', saved) ∧
    m1'.lock_all_matched = .ok (m2, locked)

/-- The complete scored assignments explored by the staged search from a call
state: the base case's own result when the stage is past the last choice,
and, otherwise, any result explored below one branch of the trim product.
A stage with no overfilled options has no branches at all: there the source
raises `TypeError` at the `it.repeat(tuple(), n=1)` line, so the `step`
constructor requires at least one trim iterable. -/
inductive Reach (shuffle : Nat → List String → List String)
    (students : List Student) (options : List String) (K minpo maxpo : Nat) :
    Nat → Nat → Matching → Nat → List (String × String) × List Int → Prop
  | base (fuel stage : Nat) (m : Matching) (ctr : Nat) (m' : Matching)
      (ctr' : Nat) (r : List (String × String) × List Int) :
      K < stage →
      assignment_algorithm_base_case shuffle ctr m students options K minpo
        maxpo = .ok (m', ctr', r) →
      Reach shuffle students options K minpo maxpo (fuel + 1) stage m ctr r
  | step (fuel stage : Nat) (m : Matching) (ctr : Nat) (m1 : Matching)
      (assigned : List String) (tis : List (List (List String)))
      (m2 : Matching) (ctrD : Nat)
      (r : List (String × String) × List Int) :
      ¬ K < stage →
      stage_assign m students stage = .ok (m1, assigned) →
      trim_iterables m1 (m1.list_overfilled_options maxpo) maxpo = .ok tis →
      0 < tis.length →
      branch_entry
        (fun mm cc => recursive_assignment_algorithm shuffle students options
          K minpo maxpo fuel (stage + 1) mm cc)
        m1 ctr (productList tis) m2 ctrD →
      Reach shuffle students options K minpo maxpo fuel (stage + 1) m2 ctrD r →
      Reach shuffle students options K minpo maxpo (fuel + 1) stage m ctr r

end ASN

namespace AU

/-- The matching of `AlgorithmUtilities.py`: option-to-student-set and
student-to-option dicts. -/
structure Matching where
  by_option : List (String × List String)
  by_student : List (String × Option String)
deriving DecidableEq, Repr

/-- `Matching.add_pair(u, v)`: work out which argument is the option and which
the student, then record the pair unless the student is already matched. -/
def Matching.add_pair (m : Matching) (u v : String) : Except String Matching :=
  match (if (alookup u m.by_option).isSome && (alookup v m.by_student).isSome then
           some (u, v)
         else if (alookup v m.by_option).isSome && (alookup u m.by_student).isSome then
           some (v, u)
         else none) with
  | none => .error "KeyError: add_pair"
  | some (opt, stu) =>
    match alookup stu m.by_student with
    | some none =>
      match alookup opt m.by_option with
      | some l =>
        .ok { m with by_option := aupdate opt (insertSorted stu l) m.by_option,
                     by_student := aupdate stu (some opt) m.by_student }
      | none => .error "KeyError: by_option"
    | some (some _) => .error "ValueError: student has already been matched"
    | none => .error "KeyError: by_student"

/-- `Matching.delete_pair(u, v)`: work out the direction, then delete the pair
if it exists. -/
def Matching.delete_pair (m : Matching) (u v : String) : Except String Matching :=
  match (if (alookup u m.by_option).isSome && (alookup v m.by_student).isSome then
           some (u, v)
         else if (alookup v m.by_option).isSome && (alookup u m.by_student).isSome then
           some (v, u)
         else none) with
  | none => .error "KeyError: delete_pair"
  | some (opt, stu) =>
    if alookup stu m.by_student = some (some opt) then
      match alookup opt m.by_option with
      | some l =>
        if stu ∈ l then
          .ok { m with by_option := aupdate opt (removeStr stu l) m.by_option,
                       by_student := aupdate stu none m.by_student }
        else .error "KeyError: set.remove"
      | none => .error "KeyError: by_option"
    else .error "ValueError: student is not matched to option"

/-- `Matching.underfilled(limit)`: the set of options with fewer than `limit`
matched students (each such option appears exactly once). -/
def Matching.underfilled (m : Matching) (limit : Nat) : List String :=
  (m.by_option.filter (fun p => p.2.length < limit)).map Prod.fst

/-- `Matching.lookup(u)`: the matched option of a student (`inl`), or the
student set of an option (`inr`). -/
def Matching.lookup (m : Matching) (u : String) :
    Except String (Sum (Option String) (List String)) :=
  match alookup u m.by_student with
  | some v => .ok (.inl v)
  | none =>
    match alookup u m.by_option with
    | some l => .ok (.inr l)
    | none => .error "KeyError: lookup"

/-- The scorer of `AlgorithmUtilities.py`: the students' choice dict, the
high-priority dict, and the common choice-list length. -/
structure ScoreCalculator where
  choices : List (String × List String)
  high_priority : List (String × Bool)
  n_choices : Nat
deriving DecidableEq, Repr

/-- The student loop of `ScoreCalculator.calculate_score`: starting from
`[len(choices), 0, ..., 0]`, each happy student bumps their rank bucket (and
the high-priority bucket if flagged); each unhappy student decrements
`score[0]`. -/
def calc_aux (m : Matching) (hp : List (String × Bool)) (K : Nat) :
    List (String × List String) → List Int → Except String (List Int)
  | [], score => .ok score
  | (name, picks) :: rest, score =>
    match m.lookup name with
    | .error e => .error e
    | .ok assigned =>
      match alookup name hp with
      | none => .error "KeyError: high_priority"
      | some hpf =>
        match assigned with
        | .inl none => .error "ValueError: scoring an incomplete match"
        | .inl (some o) =>
          match firstIdx o picks with
          | some rank =>
            calc_aux m hp K rest
              (if hpf then bump (bump score (1 + rank)) (1 + K + rank)
               else bump score (1 + rank))
          | none => calc_aux m hp K rest (bumpDown score 0)
        | .inr _ => calc_aux m hp K rest (bumpDown score 0)

/-- `ScoreCalculator.calculate_score(match)`. -/
def ScoreCalculator.calculate_score (sc : ScoreCalculator) (m : Matching) :
    Except String (List Int) :=
  calc_aux m sc.high_priority sc.n_choices sc.choices
    ((sc.choices.length : Int) :: List.replicate (2 * sc.n_choices) 0)

/-- Line 145 of `AssignStudents.py`: the driver's initial target number of
unhappy students, hardcoded to `1` (next to the comment
"calculate minimum limit"). -/
def n_unhappy_students_init : Nat := 1

/-- Lines 128–133 of `AssignStudents.py`: the tally of how many votes each
option received across all students' choice lists (`all_choices`). -/
def all_choices_tally (options : List String)
    (choices : List (String × List String)) : List (String × Nat) :=
  choices.foldl
    (fun t p => p.2.foldl (fun t c => t.map (fun q => if q.1 = c then (q.1, q.2 + 1) else q)) t)
    (options.map (fun o => (o, 0)))

/-- The number of options with zero total votes: the documented lower bound on
the number of unhappy students ("Geologic periods that recieved no votes at
all ... This provides a nice lower bound on the number of unhappy students",
`AssignStudents.py` lines 33–36), from which the search is supposed to start. -/
def n_zero_vote_options (options : List String)
    (choices : List (String × List String)) : Nat :=
  ((all_choices_tally options choices).filter (fun p => p.2 = 0)).length

end AU

/-! ### State predicates used by the verification -/

/-- The fundamental consistency invariant shared by both `Matching` classes:
every matched student is a member of exactly the set of their option, and
every set member is matched to that option. -/
def consistentMaps (bs : List (String × Option String))
    (bo : List (String × List String)) : Prop :=
  (∀ p ∈ bs, ∀ o ∈ p.2.toList, ∃ l ∈ (alookup o bo).toList, p.1 ∈ l) ∧
  (∀ q ∈ bo, ∀ s ∈ q.2, alookup s bs = some (some q.1))

/-- The option a student is matched to, if any (`None`-aware lookup). -/
def matchedTo (bs : List (String × Option String)) (s : String) : Option String :=
  match alookup s bs with
  | some (some o) => some o
  | _ => none

/-- The invariant of claim C4, stated in the claim's own terms: a student
appears in at most one option's set, and `by_student[s] == o` holds iff
`s ∈ by_option[o]`. -/
def StudentOptionInvariant (bs : List (String × Option String))
    (bo : List (String × List String)) : Prop :=
  (∀ q1 ∈ bo, ∀ q2 ∈ bo, ∀ s : String, s ∈ q1.2 → s ∈ q2.2 → q1.1 = q2.1) ∧
  (∀ s ∈ keysOf bs, ∀ q ∈ bo, (alookup s bs = some (some q.1) ↔ s ∈ q.2))

namespace ASN

/-- Consistency of the two maps of the new script's `Matching`. -/
def Consistent (m : Matching) : Prop := consistentMaps m.by_student m.by_option

/-- Every locked student is matched to some option. -/
def LockedMatched (m : Matching) : Prop :=
  ∀ p ∈ m.student_locked, p.2 = true → (matchedTo m.by_student p.1).isSome = true

/-- Structural well-formedness tying a `Matching` to the run's inputs:
the dict key structure produced by `Matching.__init__`, uniqueness of names
and options, uniform choice-list lengths, choices drawn from the options,
canonical (sorted) option sets, consistency, and the lock invariant. -/
def Valid (students : List Student) (options : List String) (K : Nat)
    (m : Matching) : Prop :=
  keysOf m.by_student = students.map Student.name ∧
  keysOf m.by_option = options ∧
  keysOf m.student_locked = students.map Student.name ∧
  (students.map Student.name).Nodup ∧
  options.Nodup ∧
  (∀ st ∈ students, st.choices.length = K) ∧
  (∀ st ∈ students, ∀ c ∈ st.choices, c ∈ options) ∧
  (∀ q ∈ m.by_option, List.Sorted (· < ·) q.2) ∧
  Consistent m ∧
  LockedMatched m

/-- Every option currently holds at most `n` students. -/
def CountsLe (m : Matching) (n : Nat) : Prop :=
  ∀ q ∈ m.by_option, q.2.length ≤ n

end ASN

/-! ### Concrete instances used to exercise the definitions -/

/-- An old-script matching with options `A` (empty) and `B` (one student). -/
def cexOld : AU.Matching :=
  { by_option := [("A", []), ("B", ["x"])], by_student := [("x", some "B")] }

/-- A new-script matching in which student `y` is unassigned. -/
def cexIncomplete : ASN.Matching :=
  { by_student := [("x", some "A"), ("y", none)],
    by_option := [("A", ["x"]), ("B", [])],
    student_locked := [("x", false), ("y", false)] }

/-- A new-script matching state as the base case sees it: `x` assigned to `A`
and locked by the enclosing stage. -/
def fmMatching : ASN.Matching :=
  { by_student := [("x", some "A")],
    by_option := [("A", ["x"]), ("B", [])],
    student_locked := [("x", true)] }

/-- The single student of `fmMatching`. -/
def fmStudents : List ASN.Student := [{ name := "x", high_priority := false, choices := ["A"] }]

/-- Two students with disjoint first choices, for exercising a full staged run
with `min_per_option = max_per_option = 1`. -/
def w2students : List ASN.Student :=
  [{ name := "x", high_priority := false, choices := ["A"] },
   { name := "y", high_priority := true, choices := ["B"] }]

/-- The two options of the `w2students` run. -/
def w2options : List String := ["A", "B"]

/-- The initial matching of the `w2students` run, as `Matching.__init__`
builds it. -/
def w2m0 : ASN.Matching :=
  { by_student := [("x", none), ("y", none)],
    by_option := [("A", []), ("B", [])],
    student_locked := [("x", false), ("y", false)] }

/-- Two students who both want option `A` first: stage 1 overfills `A`, so
the trim product is nonempty and the staged run completes. -/
def w3students : List ASN.Student :=
  [{ name := "x", high_priority := false, choices := ["A"] },
   { name := "y", high_priority := false, choices := ["A"] }]

/-- The two options of the `w3students` run. -/
def w3options : List String := ["A", "B"]

/-- The initial matching of the `w3students` run, as `Matching.__init__`
builds it. -/
def w3m0 : ASN.Matching :=
  { by_student := [("x", none), ("y", none)],
    by_option := [("A", []), ("B", [])],
    student_locked := [("x", false), ("y", false)] }

/-- The `w3students` state after stage 1, with the set of option `A`
abstracted: the run is evaluated stepwise around the two sorted-set
insertions. -/
def w3mid (l : List String) : ASN.Matching :=
  { by_student := [("x", some "A"), ("y", some "A")],
    by_option := [("A", l), ("B", [])],
    student_locked := [("x", false), ("y", false)] }

/-- The stage-1 state of the `w3students` run. -/
def w3m1 : ASN.Matching :=
  { by_student := [("x", some "A"), ("y", some "A")],
    by_option := [("A", ["x", "y"]), ("B", [])],
    student_locked := [("x", false), ("y", false)] }

/-- The `w3students` state inside the first trim branch, after erasing `x`. -/
def w3m1x : ASN.Matching :=
  { by_student := [("x", none), ("y", some "A")],
    by_option := [("A", ["y"]), ("B", [])],
    student_locked := [("x", false), ("y", false)] }

/-- The `w3students` state handed to the first recursive call: `x` erased and
the remaining work locked. -/
def w3m2 : ASN.Matching :=
  { by_student := [("x", none), ("y", some "A")],
    by_option := [("A", ["y"]), ("B", [])],
    student_locked := [("x", false), ("y", true)] }

/-- The stage-2 recursive call of the `w3students` run. -/
def w3next : ASN.Matching → Nat →
    Except String (ASN.Matching × Nat ×
      Option (List (String × String) × List Int)) :=
  fun mm cc => ASN.recursive_assignment_algorithm (fun _ l => l) w3students
    w3options 1 1 1 1 2 mm cc

/-- The stage-exit continuation of the `w3students` run: undo the two
stage-entry assignments and return. -/
def w3tail (t : Except String (ASN.Matching × Nat ×
    Option (List (String × String) × List Int))) :
    Except String (ASN.Matching × Nat ×
      Option (List (String × String) × List Int)) :=
  match t with
  | .error e => .error e
  | .ok (m2, ctr2, best) =>
    match m2.erase_many ["x", "y"] with
    | .error e => .error e
    | .ok m3 => .ok (m3, ctr2, best)

/-- The `w3students` run right after its stage-1 assignments. -/
def w3F (l : List String) :
    Except String (ASN.Matching × Nat ×
      Option (List (String × String) × List Int)) :=
  match ASN.trim_iterables (w3mid l) ((w3mid l).list_overfilled_options 1) 1 with
  | .error e => .error e
  | .ok tis =>
    if 0 < tis.length then
      w3tail (ASN.trim_loop w3next (w3mid l) 0 (productList tis) none)
    else .error "TypeError: invalid keyword argument for repeat"

/-- The `w3students` run right after restoring the first trim branch. -/
def w3G (l : List String) :
    Except String (ASN.Matching × Nat ×
      Option (List (String × String) × List Int)) :=
  w3tail (ASN.trim_loop w3next (w3mid l) 1 [[["y"]]]
    (some ([("x", "B"), ("y", "A")], [1, 1, 0])))

/-- The `w3students` run right after restoring the second trim branch. -/
def w3H (l : List String) :
    Except String (ASN.Matching × Nat ×
      Option (List (String × String) × List Int)) :=
  w3tail (ASN.trim_loop w3next (w3mid l) 2 []
    (some ([("x", "B"), ("y", "A")], [1, 1, 0])))

/-- Proof device: perform a sequence of `assign` calls, one per pair.  The
loops of the engine that assign students (`stage_assign`, `assign_indexed`,
`assign_excess`, `assign_pairs`) are all instances of this canonical form. -/
def assign_seq : ASN.Matching → List (String × String) → Except String ASN.Matching
  | m, [] => .ok m
  | m, (s, o) :: rest =>
    match m.assign s o with
    | .error e => .error e
    | .ok m1 => assign_seq m1 rest

/-! ### Reference scorer (specification section 4.3) -/

/-- The spec's rank of a student under an assignment: the 1-based rank `i` at
which their assigned option equals `choice[i]`, if any (first match). -/
def ref_rank (st : ASN.Student) (asg : String → Option String) : Option Nat :=
  match asg st.name with
  | none => none
  | some o => (firstIdx o st.choices).map (· + 1)

/-- The scoring loop of the spec, per student: an unhappy student contributes
nothing; a student with rank `i` increments `happy_count` (index 0),
`count_choice_i` (index `i`), and for a priority-flagged student also
`hp_count_choice_i` (index `K + i`). -/
def ref_fold (K : Nat) (asg : String → Option String) :
    List ASN.Student → List Int → List Int
  | [], score => score
  | st :: rest, score =>
    ref_fold K asg rest
      (match ref_rank st asg with
       | none => score
       | some i =>
         if st.high_priority then bump (bump (bump score 0) i) (K + i)
         else bump (bump score 0) i)

/-- The reference score of the spec:
`[happy_count, count_choice_1..K, hp_count_choice_1..K]`. -/
def ref_score (students : List ASN.Student) (K : Nat)
    (asg : String → Option String) : List Int :=
  ref_fold K asg students (List.replicate (2 * K + 1) 0)

/-- The pure shape of the old scorer's loop: starts from
`[len(choices), 0, ...]`; each unhappy student decrements index 0; each happy
student bumps the same rank buckets as the reference. -/
def old_fold (K : Nat) (asg : String → Option String) :
    List ASN.Student → List Int → List Int
  | [], score => score
  | st :: rest, score =>
    old_fold K asg rest
      (match ref_rank st asg with
       | none => bumpDown score 0
       | some i =>
         if st.high_priority then bump (bump score i) (K + i)
         else bump score i)

/-- Number of students happy under an assignment. -/
def happyCnt (studs : List ASN.Student) (asg : String → Option String) : Nat :=
  (studs.filter (fun st => (ref_rank st asg).isSome)).length

/-- Number of students unhappy under an assignment. -/
def unhappyCnt (studs : List ASN.Student) (asg : String → Option String) : Nat :=
  (studs.filter (fun st => (ref_rank st asg).isNone)).length

/-! ### Decidability instances for the state predicates -/

instance {α : Type} [DecidableEq α] (x y : Except String α) :
    Decidable (x = y) :=
  match x, y with
  | .ok a, .ok b =>
    if h : a = b then isTrue (by rw [h])
    else isFalse (fun hc => h (Except.ok.inj hc))
  | .ok _, .error _ => isFalse (fun hc => Except.noConfusion hc)
  | .error _, .ok _ => isFalse (fun hc => Except.noConfusion hc)
  | .error e, .error f =>
    if h : e = f then isTrue (by rw [h])
    else isFalse (fun hc => h (Except.error.inj hc))

instance : DecidableEq (Option (List (String × String) × List Int)) :=
  inferInstance

instance : DecidableEq (Nat × Option (List (String × String) × List Int)) :=
  inferInstance

instance : DecidableEq
    (ASN.Matching × Nat × Option (List (String × String) × List Int)) :=
  inferInstance

instance (x y : Except String ASN.Matching) : Decidable (x = y) :=
  match x, y with
  | .ok a, .ok b =>
    if h : a = b then isTrue (by rw [h])
    else isFalse (fun hc => h (Except.ok.inj hc))
  | .ok _, .error _ => isFalse (fun hc => Except.noConfusion hc)
  | .error _, .ok _ => isFalse (fun hc => Except.noConfusion hc)
  | .error e, .error f =>
    if h : e = f then isTrue (by rw [h])
    else isFalse (fun hc => h (Except.error.inj hc))

instance (bs : List (String × Option String)) (bo : List (String × List String)) :
    Decidable (consistentMaps bs bo) := by
  unfold consistentMaps
  infer_instance

instance (m : ASN.Matching) : Decidable (ASN.Consistent m) := by
  unfold ASN.Consistent
  infer_instance

instance (m : ASN.Matching) : Decidable (ASN.LockedMatched m) := by
  unfold ASN.LockedMatched
  infer_instance

instance (students : List ASN.Student) (options : List String) (K : Nat)
    (m : ASN.Matching) : Decidable (ASN.Valid students options K m) := by
  unfold ASN.Valid
  infer_instance

instance (m : ASN.Matching) (n : Nat) : Decidable (ASN.CountsLe m n) := by
  unfold ASN.CountsLe
  infer_instance

instance (bs : List (String × Option String)) (bo : List (String × List String)) :
    Decidable (StudentOptionInvariant bs bo) := by
  unfold StudentOptionInvariant
  infer_instance

/-- Two students (one high-priority) for exercising the scorers. -/
def w5students : List ASN.Student :=
  [{ name := "x", high_priority := false, choices := ["A"] },
   { name := "y", high_priority := true, choices := ["A"] }]

/-- A complete new-script matching for `w5students`: `x → A`, `y → B`. -/
def w5mN : ASN.Matching :=
  { by_student := [("x", some "A"), ("y", some "B")],
    by_option := [("A", ["x"]), ("B", ["y"])],
    student_locked := [("x", false), ("y", false)] }

/-- The same assignment as an old-script matching. -/
def w5mO : AU.Matching :=
  { by_option := [("A", ["x"]), ("B", ["y"])],
    by_student := [("x", some "A"), ("y", some "B")] }

/-- The assignment of `w5mN`/`w5mO` as a function. -/
def w5asg : String → Option String :=
  fun s => if s = "x" then some "A" else if s = "y" then some "B" else none

/-- The old-script version of `cexIncomplete` (student `y` unassigned). -/
def w6mO : AU.Matching :=
  { by_option := [("A", ["x"]), ("B", [])],
    by_student := [("x", some "A"), ("y", none)] }

/-- The students of the incomplete-scoring scenario. -/
def w6students : List ASN.Student :=
  [{ name := "x", high_priority := false, choices := ["A"] },
   { name := "y", high_priority := false, choices := ["A"] }]

/-- The partial assignment of `cexIncomplete`/`w6mO` as a function. -/
def w6asg : String → Option String :=
  fun s => if s = "x" then some "A" else none

/-- A one-student, one-option matching before an `assign`. -/
def w4m : ASN.Matching :=
  { by_student := [("x", none)], by_option := [("A", [])],
    student_locked := [("x", false)] }

/-- The matching `w4m` after `assign("x", "A")`. -/
def w4m' : ASN.Matching :=
  { by_student := [("x", some "A")], by_option := [("A", ["x"])],
    student_locked := [("x", false)] }

/-! ### Association-list lemmas -/

theorem keysOf_nil : keysOf ([] : List (String × β)) = [] := rfl

theorem keysOf_cons (p : String × β) (ps : List (String × β)) :
    keysOf (p :: ps) = p.1 :: keysOf ps := rfl

theorem mem_keysOf (k : String) (l : List (String × β)) :
    k ∈ keysOf l ↔ ∃ v, (k, v) ∈ l := by
  induction l with
  | nil => simp [keysOf]
  | cons p ps ih =>
    rw [keysOf_cons, List.mem_cons, ih]
    constructor
    · rintro (rfl | ⟨v, hv⟩)
      · exact ⟨p.2, List.mem_cons_self _ _⟩
      · exact ⟨v, List.mem_cons_of_mem _ hv⟩
    · rintro ⟨v, hv⟩
      rcases List.mem_cons.1 hv with h | h
      · left; rw [← h]
      · right; exact ⟨v, h⟩

theorem alookup_eq_none (k : String) (l : List (String × β)) :
    alookup k l = none ↔ k ∉ keysOf l := by
  induction l with
  | nil => simp [alookup, keysOf]
  | cons p ps ih =>
    rw [keysOf_cons, List.mem_cons]
    by_cases h : p.1 = k
    · simp [alookup, h]
    · rw [alookup, if_neg h, ih]
      constructor
      · rintro hn (he | hm)
        · exact h he.symm
        · exact hn hm
      · intro hn hm
        exact hn (Or.inr hm)

theorem alookup_isSome (k : String) (l : List (String × β)) :
    (alookup k l).isSome = true ↔ k ∈ keysOf l := by
  rw [Option.isSome_iff_ne_none, ne_eq, alookup_eq_none, not_not]

theorem alookup_mem (k : String) (l : List (String × β)) (v : β)
    (h : alookup k l = some v) : (k, v) ∈ l := by
  induction l with
  | nil => simp [alookup] at h
  | cons p ps ih =>
    obtain ⟨a, b⟩ := p
    by_cases hp : a = k
    · subst hp
      simp [alookup] at h
      subst h
      exact List.mem_cons_self _ _
    · simp [alookup, hp] at h
      exact List.mem_cons_of_mem _ (ih h)

theorem mem_alookup (k : String) (l : List (String × β)) (v : β)
    (hnd : (keysOf l).Nodup) (h : (k, v) ∈ l) : alookup k l = some v := by
  induction l with
  | nil => simp at h
  | cons p ps ih =>
    rw [keysOf_cons, List.nodup_cons] at hnd
    rcases List.mem_cons.1 h with h1 | h1
    · rw [← h1]
      simp [alookup]
    · have hk : p.1 ≠ k := fun he =>
        hnd.1 ((mem_keysOf _ _).2 ⟨v, by rw [he]; exact h1⟩)
      rw [alookup, if_neg hk]
      exact ih hnd.2 h1

theorem keysOf_aupdate (k : String) (v : β) (l : List (String × β)) :
    keysOf (aupdate k v l) = keysOf l := by
  induction l with
  | nil => rfl
  | cons p ps ih =>
    by_cases h : p.1 = k
    · rw [aupdate, if_pos h, keysOf_cons, keysOf_cons, ih]
    · rw [aupdate, if_neg h, keysOf_cons, keysOf_cons, ih]

theorem alookup_aupdate_self (k : String) (v : β) (l : List (String × β))
    (h : k ∈ keysOf l) : alookup k (aupdate k v l) = some v := by
  induction l with
  | nil => simp [keysOf] at h
  | cons p ps ih =>
    by_cases hp : p.1 = k
    · rw [aupdate, if_pos hp, alookup, if_pos hp]
    · rw [keysOf_cons, List.mem_cons] at h
      rcases h with h | h
      · exact absurd h.symm hp
      · rw [aupdate, if_neg hp, alookup, if_neg hp]
        exact ih h

theorem alookup_aupdate_of_ne (k k' : String) (v : β) (l : List (String × β))
    (h : k' ≠ k) : alookup k (aupdate k' v l) = alookup k l := by
  induction l with
  | nil => rfl
  | cons p ps ih =>
    by_cases hp : p.1 = k'
    · have hpk : ¬ p.1 = k := by rw [hp]; exact h
      rw [aupdate, if_pos hp]
      show (if p.1 = k then _ else _) = _
      rw [if_neg hpk, alookup, if_neg hpk]
      exact ih
    · rw [aupdate, if_neg hp]
      by_cases hk : p.1 = k
      · rw [alookup, if_pos hk, alookup, if_pos hk]
      · rw [alookup, if_neg hk, alookup, if_neg hk]
        exact ih

theorem aupdate_of_not_mem (k : String) (v : β) (l : List (String × β))
    (h : k ∉ keysOf l) : aupdate k v l = l := by
  induction l with
  | nil => rfl
  | cons p ps ih =>
    rw [keysOf_cons, List.mem_cons] at h
    push_neg at h
    rw [aupdate, if_neg (fun he => h.1 he.symm), ih h.2]

theorem aupdate_self_eq (k : String) (v : β) (l : List (String × β))
    (hnd : (keysOf l).Nodup) (h : alookup k l = some v) : aupdate k v l = l := by
  induction l with
  | nil => rfl
  | cons p ps ih =>
    rw [keysOf_cons, List.nodup_cons] at hnd
    by_cases hp : p.1 = k
    · rw [alookup, if_pos hp] at h
      injection h with h
      rw [aupdate, if_pos hp, aupdate_of_not_mem k v ps (hp ▸ hnd.1), ← h]
    · rw [alookup, if_neg hp] at h
      rw [aupdate, if_neg hp, ih hnd.2 h]

theorem aupdate_aupdate (k : String) (v w : β) (l : List (String × β)) :
    aupdate k v (aupdate k w l) = aupdate k v l := by
  induction l with
  | nil => rfl
  | cons p ps ih =>
    by_cases hp : p.1 = k
    · rw [aupdate, if_pos hp]
      show (if p.1 = k then _ else _) = _
      rw [if_pos hp, aupdate, if_pos hp, ih]
    · rw [aupdate, if_neg hp]
      show (if p.1 = k then _ else _) = _
      rw [if_neg hp, aupdate, if_neg hp, ih]

/-- Extensionality for association lists: same key sequence (without
duplicates) and same lookups force equality. -/
theorem assoc_ext (l₁ : List (String × β)) : ∀ l₂ : List (String × β),
    keysOf l₁ = keysOf l₂ → (keysOf l₁).Nodup →
    (∀ k, alookup k l₁ = alookup k l₂) → l₁ = l₂ := by
  induction l₁ with
  | nil =>
    intro l₂ hk _ _
    cases l₂ with
    | nil => rfl
    | cons q qs => exact absurd hk (by simp [keysOf])
  | cons p ps ih =>
    intro l₂ hk hnd h
    cases l₂ with
    | nil => exact absurd hk (by simp [keysOf])
    | cons q qs =>
      rw [keysOf_cons, keysOf_cons] at hk
      injection hk with hk1 hk2
      rw [keysOf_cons, List.nodup_cons] at hnd
      have hv : p.2 = q.2 := by
        have hh := h p.1
        rw [alookup, if_pos rfl, alookup, if_pos hk1.symm] at hh
        injection hh
      have hpq : p = q := Prod.ext hk1 hv
      refine List.cons_eq_cons.2 ⟨hpq, ih qs hk2 hnd.2 fun k => ?_⟩
      by_cases hkp : p.1 = k
      · rw [(alookup_eq_none k ps).2 (hkp ▸ hnd.1),
          (alookup_eq_none k qs).2 (by rw [← hk2]; exact hkp ▸ hnd.1)]
      · have hh := h k
        rw [alookup, if_neg hkp, alookup, if_neg (hk1 ▸ hkp)] at hh
        exact hh

/-! ### Sorted-set lemmas -/

theorem mem_insertSorted (s t : String) (l : List String) :
    t ∈ insertSorted s l ↔ t = s ∨ t ∈ l := by
  induction l with
  | nil => simp [insertSorted]
  | cons a as ih =>
    by_cases h1 : s < a
    · simp [insertSorted, h1]
    · by_cases h2 : s = a
      · subst h2; simp [insertSorted, h1]
      · simp [insertSorted, h1, h2, ih]; tauto

theorem sorted_insertSorted (s : String) (l : List String)
    (h : List.Sorted (· < ·) l) : List.Sorted (· < ·) (insertSorted s l) := by
  induction l with
  | nil => simp [insertSorted]
  | cons a as ih =>
    rw [List.sorted_cons] at h
    by_cases h1 : s < a
    · rw [insertSorted, if_pos h1, List.sorted_cons]
      refine ⟨fun b hb => ?_, List.sorted_cons.2 h⟩
      rcases List.mem_cons.1 hb with hb | hb
      · exact hb ▸ h1
      · exact lt_trans h1 (h.1 b hb)
    · by_cases h2 : s = a
      · rw [insertSorted, if_neg h1, if_pos h2, List.sorted_cons]; exact h
      · rw [insertSorted, if_neg h1, if_neg h2, List.sorted_cons]
        have has : a < s := lt_of_le_of_ne (not_lt.1 h1) (Ne.symm h2)
        refine ⟨fun b hb => ?_, ih h.2⟩
        rcases (mem_insertSorted s b as).1 hb with hb | hb
        · exact hb ▸ has
        · exact h.1 b hb

theorem insertSorted_of_mem (s : String) (l : List String)
    (h : List.Sorted (· < ·) l) (hm : s ∈ l) : insertSorted s l = l := by
  induction l with
  | nil => simp at hm
  | cons a as ih =>
    rw [List.sorted_cons] at h
    rcases List.mem_cons.1 hm with hm | hm
    · subst hm; simp [insertSorted, lt_irrefl]
    · have has : a < s := h.1 s hm
      have h1 : ¬ s < a := not_lt.2 (le_of_lt has)
      have h2 : s ≠ a := fun he => absurd (he ▸ has) (lt_irrefl _)
      rw [insertSorted, if_neg h1, if_neg h2, ih h.2 hm]

theorem length_insertSorted_of_not_mem (s : String) (l : List String)
    (hm : s ∉ l) : (insertSorted s l).length = l.length + 1 := by
  induction l with
  | nil => simp [insertSorted]
  | cons a as ih =>
    simp only [List.mem_cons, not_or] at hm
    by_cases h1 : s < a
    · simp [insertSorted, h1]
    · simp [insertSorted, h1, hm.1, ih hm.2]

theorem mem_removeStr (s t : String) (l : List String) :
    t ∈ removeStr s l ↔ t ∈ l ∧ t ≠ s := by
  simp [removeStr]

theorem sorted_removeStr (s : String) (l : List String)
    (h : List.Sorted (· < ·) l) : List.Sorted (· < ·) (removeStr s l) :=
  List.Pairwise.filter _ h

theorem removeStr_of_not_mem (s : String) (l : List String) (hm : s ∉ l) :
    removeStr s l = l := by
  induction l with
  | nil => rfl
  | cons a as ih =>
    simp only [List.mem_cons, not_or] at hm
    simp [removeStr, Ne.symm hm.1] at *
    exact ih hm.2

theorem length_removeStr_of_mem (s : String) (l : List String)
    (hnd : l.Nodup) (hm : s ∈ l) : (removeStr s l).length + 1 = l.length := by
  induction l with
  | nil => simp at hm
  | cons a as ih =>
    rw [List.nodup_cons] at hnd
    rcases List.mem_cons.1 hm with hm | hm
    · subst hm
      rw [removeStr, List.filter_cons_of_neg (by simp), ← removeStr,
        removeStr_of_not_mem s as hnd.1, List.length_cons]
    · have hne : a ≠ s := fun he => hnd.1 (he ▸ hm)
      rw [removeStr, List.filter_cons_of_pos (by simp [hne]), ← removeStr,
        List.length_cons, List.length_cons, ← ih hnd.2 hm]

/-- Canonical-form principle: two strictly sorted lists with the same members
are equal. -/
theorem sorted_eq_of_mem (l₁ : List String) : ∀ l₂ : List String,
    List.Sorted (· < ·) l₁ → List.Sorted (· < ·) l₂ →
    (∀ x, x ∈ l₁ ↔ x ∈ l₂) → l₁ = l₂ := by
  induction l₁ with
  | nil =>
    intro l₂ _ _ h
    cases l₂ with
    | nil => rfl
    | cons b bs => exact absurd ((h b).2 (List.mem_cons_self _ _)) (List.not_mem_nil b)
  | cons a as ih =>
    intro l₂ h₁ h₂ h
    cases l₂ with
    | nil => exact absurd ((h a).1 (List.mem_cons_self _ _)) (List.not_mem_nil a)
    | cons b bs =>
      rw [List.sorted_cons] at h₁ h₂
      have hab : a = b := by
        rcases List.mem_cons.1 ((h a).1 (List.mem_cons_self _ _)) with h' | h'
        · exact h'
        · rcases List.mem_cons.1 ((h b).2 (List.mem_cons_self _ _)) with h'' | h''
          · exact h''.symm
          · exact absurd (lt_trans (h₁.1 b h'') (h₂.1 a h')) (lt_irrefl _)
      subst hab
      refine List.cons_eq_cons.2 ⟨rfl, ih bs h₁.2 h₂.2 fun x => ⟨fun hx => ?_, fun hx => ?_⟩⟩
      · rcases List.mem_cons.1 ((h x).1 (List.mem_cons_of_mem _ hx)) with h' | h'
        · exact absurd (h' ▸ h₁.1 x hx) (lt_irrefl _)
        · exact h'
      · rcases List.mem_cons.1 ((h x).2 (List.mem_cons_of_mem _ hx)) with h' | h'
        · exact absurd (h' ▸ h₂.1 x hx) (lt_irrefl _)
        · exact h'

theorem insertSorted_removeStr (s : String) (l : List String)
    (h : List.Sorted (· < ·) l) (hm : s ∈ l) :
    insertSorted s (removeStr s l) = l := by
  refine sorted_eq_of_mem _ _ (sorted_insertSorted s _ (sorted_removeStr s l h)) h
    fun x => ?_
  rw [mem_insertSorted, mem_removeStr]
  constructor
  · rintro (rfl | ⟨hx, _⟩) <;> assumption
  · intro hx
    by_cases hxs : x = s
    · exact Or.inl hxs
    · exact Or.inr ⟨hx, hxs⟩

theorem removeStr_insertSorted (s : String) (l : List String)
    (h : List.Sorted (· < ·) l) (hm : s ∉ l) :
    removeStr s (insertSorted s l) = l := by
  refine sorted_eq_of_mem _ _ (sorted_removeStr s _ (sorted_insertSorted s l h)) h
    fun x => ?_
  rw [mem_removeStr, mem_insertSorted]
  constructor
  · rintro ⟨rfl | hx, hxs⟩
    · exact absurd rfl hxs
    · exact hx
  · intro hx
    exact ⟨Or.inr hx, fun he => hm (he ▸ hx)⟩

/-! ### Characterizations of the primitive state operations -/

theorem assign_ok (m m' : ASN.Matching) (s o : String)
    (h : m.assign s o = .ok m') :
    alookup s m.by_student = some none ∧
    alookup s m.student_locked = some false ∧
    ∃ l, alookup o m.by_option = some l ∧
      m' = { m with by_option := aupdate o (insertSorted s l) m.by_option,
                    by_student := aupdate s (some o) m.by_student } := by
  unfold ASN.Matching.assign at h
  split at h
  · exact Except.noConfusion h
  · exact Except.noConfusion h
  · rename_i hbs
    split at h
    · exact Except.noConfusion h
    · exact Except.noConfusion h
    · rename_i hlk
      split at h
      · exact Except.noConfusion h
      · rename_i l hbo
        exact ⟨hbs, hlk, l, hbo, (Except.ok.inj h).symm⟩

theorem erase_ok (m m' : ASN.Matching) (s : String)
    (h : m.erase s = .ok m') :
    ∃ o, alookup s m.by_student = some (some o) ∧
    alookup s m.student_locked = some false ∧
    ∃ l, alookup o m.by_option = some l ∧ s ∈ l ∧
      m' = { m with by_option := aupdate o (removeStr s l) m.by_option,
                    by_student := aupdate s none m.by_student } := by
  unfold ASN.Matching.erase at h
  split at h
  · exact Except.noConfusion h
  · exact Except.noConfusion h
  · rename_i o hbs
    split at h
    · exact Except.noConfusion h
    · exact Except.noConfusion h
    · rename_i hlk
      split at h
      · exact Except.noConfusion h
      · rename_i l hbo
        split at h
        · rename_i hmem
          exact ⟨o, hbs, hlk, l, hbo, hmem, (Except.ok.inj h).symm⟩
        · exact Except.noConfusion h

theorem lock_ok (m m' : ASN.Matching) (s : String) (h : m.lock s = .ok m') :
    alookup s m.student_locked = some false ∧
    m' = { m with student_locked := aupdate s true m.student_locked } := by
  unfold ASN.Matching.lock at h
  split at h
  · exact Except.noConfusion h
  · exact Except.noConfusion h
  · rename_i hlk
    exact ⟨hlk, (Except.ok.inj h).symm⟩

theorem unlock_ok (m m' : ASN.Matching) (s : String) (h : m.unlock s = .ok m') :
    alookup s m.student_locked = some true ∧
    m' = { m with student_locked := aupdate s false m.student_locked } := by
  unfold ASN.Matching.unlock at h
  split at h
  · exact Except.noConfusion h
  · exact Except.noConfusion h
  · rename_i hlk
    exact ⟨hlk, (Except.ok.inj h).symm⟩

theorem add_pair_ok (m m' : AU.Matching) (u v : String)
    (h : m.add_pair u v = .ok m') :
    ∃ opt stu, alookup stu m.by_student = some none ∧
      ∃ l, alookup opt m.by_option = some l ∧
      m' = { m with by_option := aupdate opt (insertSorted stu l) m.by_option,
                    by_student := aupdate stu (some opt) m.by_student } := by
  unfold AU.Matching.add_pair at h
  split at h
  · exact Except.noConfusion h
  · rename_i opt stu _
    split at h
    · rename_i hbs
      split at h
      · rename_i l hbo
        exact ⟨opt, stu, hbs, l, hbo, (Except.ok.inj h).symm⟩
      · exact Except.noConfusion h
    · exact Except.noConfusion h
    · exact Except.noConfusion h

theorem delete_pair_ok (m m' : AU.Matching) (u v : String)
    (h : m.delete_pair u v = .ok m') :
    ∃ opt stu, alookup stu m.by_student = some (some opt) ∧
      ∃ l, alookup opt m.by_option = some l ∧ stu ∈ l ∧
      m' = { m with by_option := aupdate opt (removeStr stu l) m.by_option,
                    by_student := aupdate stu none m.by_student } := by
  unfold AU.Matching.delete_pair at h
  split at h
  · exact Except.noConfusion h
  · rename_i opt stu _
    split at h
    · rename_i hbs
      split at h
      · rename_i l hbo
        split at h
        · rename_i hmem
          exact ⟨opt, stu, hbs, l, hbo, hmem, (Except.ok.inj h).symm⟩
        · exact Except.noConfusion h
      · exact Except.noConfusion h
    · exact Except.noConfusion h

/-! ### Consistency preservation for the shared map updates -/

theorem consistent_alookup_fwd (bs : List (String × Option String))
    (bo : List (String × List String)) (hc : consistentMaps bs bo)
    (s o : String) (h : alookup s bs = some (some o)) :
    ∃ l, alookup o bo = some l ∧ s ∈ l := by
  rcases hc.1 _ (alookup_mem _ _ _ h) o (by simp) with ⟨l, hl, hm⟩
  exact ⟨l, by simpa using hl, hm⟩

theorem consistent_set_mem (bs : List (String × Option String))
    (bo : List (String × List String)) (hc : consistentMaps bs bo)
    (o : String) (l : List String) (h : alookup o bo = some l)
    (s : String) (hs : s ∈ l) : alookup s bs = some (some o) :=
  hc.2 _ (alookup_mem _ _ _ h) s hs

/-- Adding a fresh pair (unmatched student `s`, option `o`) preserves map
consistency. -/
theorem consistentMaps_add (bs : List (String × Option String))
    (bo : List (String × List String)) (s o : String) (l : List String)
    (hnd1 : (keysOf bs).Nodup) (hnd2 : (keysOf bo).Nodup)
    (hc : consistentMaps bs bo)
    (hbs : alookup s bs = some none) (hbo : alookup o bo = some l) :
    consistentMaps (aupdate s (some o) bs) (aupdate o (insertSorted s l) bo) := by
  have hskey : s ∈ keysOf bs := (mem_keysOf _ _).2 ⟨_, alookup_mem _ _ _ hbs⟩
  have hokey : o ∈ keysOf bo := (mem_keysOf _ _).2 ⟨_, alookup_mem _ _ _ hbo⟩
  constructor
  · intro p hp o' ho'
    have hlp : alookup p.1 (aupdate s (some o) bs) = some p.2 :=
      mem_alookup _ _ _ (by rw [keysOf_aupdate]; exact hnd1) hp
    have hp2 : p.2 = some o' := by
      cases hv : p.2 with
      | none => rw [hv] at ho'; simp at ho'
      | some x => rw [hv] at ho'; simp at ho'; rw [ho']
    by_cases hps : p.1 = s
    · rw [hps, alookup_aupdate_self s _ bs hskey] at hlp
      rw [hp2] at hlp
      injection hlp with hlp
      injection hlp with hlp
      refine ⟨insertSorted s l, ?_, ?_⟩
      · rw [← hlp, alookup_aupdate_self o _ bo hokey]
        simp
      · rw [mem_insertSorted]
        left
        exact hps
    · rw [alookup_aupdate_of_ne _ _ _ _ (fun he => hps he.symm), hp2] at hlp
      rcases consistent_alookup_fwd bs bo hc p.1 o' hlp with ⟨l', hl', hm⟩
      by_cases hoo : o' = o
      · subst hoo
        have hll : l' = l := by
          rw [hl'] at hbo
          injection hbo
        subst hll
        refine ⟨insertSorted s l', ?_, ?_⟩
        · rw [alookup_aupdate_self o' _ bo hokey]
          simp
        · rw [mem_insertSorted]
          right
          exact hm
      · refine ⟨l', ?_, hm⟩
        rw [alookup_aupdate_of_ne _ _ _ _ (fun he => hoo he.symm), hl']
        simp
  · intro q hq s' hs'
    have hlq : alookup q.1 (aupdate o (insertSorted s l) bo) = some q.2 :=
      mem_alookup _ _ _ (by rw [keysOf_aupdate]; exact hnd2) hq
    by_cases hqo : q.1 = o
    · rw [hqo, alookup_aupdate_self o _ bo hokey] at hlq
      injection hlq with hlq
      rw [← hlq, mem_insertSorted] at hs'
      rcases hs' with rfl | hs'
      · rw [alookup_aupdate_self s' _ bs hskey, hqo]
      · have hbs' := consistent_set_mem bs bo hc o l hbo s' hs'
        have hsne : s' ≠ s := by
          intro he
          rw [he] at hbs'
          rw [hbs] at hbs'
          simp at hbs'
        rw [alookup_aupdate_of_ne _ _ _ _ (fun he => hsne he.symm), hbs', hqo]
    · rw [alookup_aupdate_of_ne _ _ _ _ (fun he => hqo he.symm)] at hlq
      have hbs' := consistent_set_mem bs bo hc q.1 q.2 hlq s' hs'
      have hsne : s' ≠ s := by
        intro he
        rw [he] at hbs'
        rw [hbs] at hbs'
        simp at hbs'
      rw [alookup_aupdate_of_ne _ _ _ _ (fun he => hsne he.symm), hbs']

/-- Deleting an existing pair (student `s` matched to option `o`) preserves
map consistency. -/
theorem consistentMaps_del (bs : List (String × Option String))
    (bo : List (String × List String)) (s o : String) (l : List String)
    (hnd1 : (keysOf bs).Nodup) (hnd2 : (keysOf bo).Nodup)
    (hc : consistentMaps bs bo)
    (hbs : alookup s bs = some (some o)) (hbo : alookup o bo = some l) :
    consistentMaps (aupdate s none bs) (aupdate o (removeStr s l) bo) := by
  have hskey : s ∈ keysOf bs := (mem_keysOf _ _).2 ⟨_, alookup_mem _ _ _ hbs⟩
  have hokey : o ∈ keysOf bo := (mem_keysOf _ _).2 ⟨_, alookup_mem _ _ _ hbo⟩
  constructor
  · intro p hp o' ho'
    have hlp : alookup p.1 (aupdate s none bs) = some p.2 :=
      mem_alookup _ _ _ (by rw [keysOf_aupdate]; exact hnd1) hp
    have hp2 : p.2 = some o' := by
      cases hv : p.2 with
      | none => rw [hv] at ho'; simp at ho'
      | some x => rw [hv] at ho'; simp at ho'; rw [ho']
    by_cases hps : p.1 = s
    · rw [hps, alookup_aupdate_self s _ bs hskey, hp2] at hlp
      injection hlp with hlp
      exact Option.noConfusion hlp
    · rw [alookup_aupdate_of_ne _ _ _ _ (fun he => hps he.symm), hp2] at hlp
      rcases consistent_alookup_fwd bs bo hc p.1 o' hlp with ⟨l', hl', hm⟩
      by_cases hoo : o' = o
      · subst hoo
        have hll : l' = l := by
          rw [hl'] at hbo
          injection hbo
        subst hll
        refine ⟨removeStr s l', ?_, ?_⟩
        · rw [alookup_aupdate_self o' _ bo hokey]
          simp
        · rw [mem_removeStr]
          exact ⟨hm, hps⟩
      · refine ⟨l', ?_, hm⟩
        rw [alookup_aupdate_of_ne _ _ _ _ (fun he => hoo he.symm), hl']
        simp
  · intro q hq s' hs'
    have hlq : alookup q.1 (aupdate o (removeStr s l) bo) = some q.2 :=
      mem_alookup _ _ _ (by rw [keysOf_aupdate]; exact hnd2) hq
    by_cases hqo : q.1 = o
    · rw [hqo, alookup_aupdate_self o _ bo hokey] at hlq
      injection hlq with hlq
      rw [← hlq, mem_removeStr] at hs'
      have hbs' := consistent_set_mem bs bo hc o l hbo s' hs'.1
      rw [alookup_aupdate_of_ne _ _ _ _ (fun he => hs'.2 he.symm), hbs', hqo]
    · rw [alookup_aupdate_of_ne _ _ _ _ (fun he => hqo he.symm)] at hlq
      have hbs' := consistent_set_mem bs bo hc q.1 q.2 hlq s' hs'
      have hsne : s' ≠ s := by
        intro he
        rw [he] at hbs'
        rw [hbs] at hbs'
        injection hbs' with hbs'
        injection hbs' with hbs'
        exact hqo hbs'.symm
      rw [alookup_aupdate_of_ne _ _ _ _ (fun he => hsne he.symm), hbs']

/-! ### Counting lemmas for the capacity queries -/

theorem count_flatten_zero_of_not_key (bo : List (String × List String))
    (f : String × List String → Nat) (o : String) (h : o ∉ keysOf bo) :
    ((bo.map (fun p => List.replicate (f p) p.1)).flatten).count o = 0 := by
  induction bo with
  | nil => rfl
  | cons p ps ih =>
    rw [keysOf_cons, List.mem_cons] at h
    push_neg at h
    rw [List.map_cons, List.flatten_cons, List.count_append, List.count_replicate,
      if_neg (by simp only [beq_iff_eq]; exact fun he => h.1 he.symm), ih h.2]

theorem count_flatten_replicate (bo : List (String × List String))
    (f : String × List String → Nat) (o : String) (l : List String)
    (hnd : (keysOf bo).Nodup) (h : alookup o bo = some l) :
    ((bo.map (fun p => List.replicate (f p) p.1)).flatten).count o = f (o, l) := by
  induction bo with
  | nil => simp [alookup] at h
  | cons p ps ih =>
    rw [keysOf_cons, List.nodup_cons] at hnd
    rw [List.map_cons, List.flatten_cons, List.count_append, List.count_replicate]
    by_cases hp : p.1 = o
    · rw [alookup, if_pos hp] at h
      injection h with h
      have hpol : p = (o, l) := Prod.ext hp h
      rw [if_pos (by simp only [beq_iff_eq]; exact hp),
        count_flatten_zero_of_not_key ps f o (hp ▸ hnd.1), hpol, Nat.add_zero]
    · rw [alookup, if_neg hp] at h
      rw [if_neg (by simp only [beq_iff_eq]; exact hp), ih hnd.2 h, Nat.zero_add]

/-- Counting the new script's underfilled-options query: each option appears
`threshold - count` times (zero for options at or above the threshold). -/
theorem count_list_underfilled (m : ASN.Matching) (t : Nat) (o : String)
    (l : List String) (hnd : (keysOf m.by_option).Nodup)
    (h : alookup o m.by_option = some l) :
    (m.list_underfilled_options t).count o = t - l.length := by
  have key := count_flatten_replicate m.by_option
    (fun p => if p.2.length < t then t - p.2.length else 0) o l hnd h
  have heq : (m.by_option.map (fun p =>
      List.replicate (if p.2.length < t then t - p.2.length else 0) p.1)) =
      (m.by_option.map (fun p =>
      if p.2.length < t then List.replicate (t - p.2.length) p.1 else [])) := by
    refine List.map_congr_left fun p _ => ?_
    by_cases hc : p.2.length < t <;> simp [hc]
  rw [heq] at key
  rw [ASN.Matching.list_underfilled_options, key]
  by_cases hc : l.length < t
  · simp [hc]
  · simp [hc, Nat.sub_eq_zero_of_le (not_lt.1 hc)]

theorem count_filter_map_fst (bo : List (String × List String))
    (pbool : String × List String → Bool) (o : String) (l : List String)
    (hnd : (keysOf bo).Nodup) (h : alookup o bo = some l) :
    ((bo.filter pbool).map Prod.fst).count o = if pbool (o, l) then 1 else 0 := by
  induction bo with
  | nil => simp [alookup] at h
  | cons p ps ih =>
    rw [keysOf_cons, List.nodup_cons] at hnd
    by_cases hp : p.1 = o
    · rw [alookup, if_pos hp] at h
      injection h with h
      have hpol : p = (o, l) := Prod.ext hp h
      have hzero : ((ps.filter pbool).map Prod.fst).count o = 0 := by
        rw [List.count_eq_zero]
        intro hmem
        rcases List.mem_map.1 hmem with ⟨q, hq, hq1⟩
        refine (hp ▸ hnd.1) ((mem_keysOf _ _).2 ⟨q.2, ?_⟩)
        have hq' := List.mem_of_mem_filter hq
        rwa [show ((o : String), q.2) = q from Prod.ext hq1.symm rfl]
      by_cases hb : pbool p = true
      · rw [List.filter_cons_of_pos hb, List.map_cons, if_pos (hpol ▸ hb)]
        simp [List.count_cons, hzero, hp]
      · rw [List.filter_cons_of_neg hb, if_neg (hpol ▸ hb)]
        exact hzero
    · rw [alookup, if_neg hp] at h
      by_cases hb : pbool p = true
      · rw [List.filter_cons_of_pos hb, List.map_cons, List.count_cons, ih hnd.2 h]
        simp [hp]
      · rw [List.filter_cons_of_neg hb]
        exact ih hnd.2 h

/-- Counting the old script's underfilled query: each deficient option appears
exactly once, regardless of how many students it still needs. -/
theorem count_AU_underfilled (m : AU.Matching) (t : Nat) (o : String)
    (l : List String) (hnd : (keysOf m.by_option).Nodup)
    (h : alookup o m.by_option = some l) :
    (m.underfilled t).count o = if l.length < t then 1 else 0 := by
  have key := count_filter_map_fst m.by_option
    (fun p => decide (p.2.length < t)) o l hnd h
  rw [AU.Matching.underfilled]
  simpa using key

/-! ### Claim C7 — the underfilled-options multiset -/

/-- C7 counterexample: the old implementation's `underfilled` is a set, not a
multiset.  Option `A` of `cexOld` holds 0 students; with `min_per_option = 2`
the claim requires it to appear `2 − 0 = 2` times, but it appears once. -/
theorem claim_C7_counterexample :
    alookup "A" cexOld.by_option = some [] ∧
    (cexOld.underfilled 2).count "A" = 1 ∧
    ¬ (cexOld.underfilled 2).count "A" = 2 - ([] : List String).length := by
  decide

/-- C7 (amended): the new script's `list_underfilled_options` returns each
option with count < threshold repeated `threshold − count` times (and options
at or above the threshold not at all), while the old script's `underfilled`
returns each deficient option exactly once regardless of its deficit. -/
theorem claim_C7_underfilled_queries :
    (∀ (m : ASN.Matching) (t : Nat) (o : String) (l : List String),
        (keysOf m.by_option).Nodup → alookup o m.by_option = some l →
        (m.list_underfilled_options t).count o = t - l.length) ∧
    (∀ (m : AU.Matching) (t : Nat) (o : String) (l : List String),
        (keysOf m.by_option).Nodup → alookup o m.by_option = some l →
        (m.underfilled t).count o = if l.length < t then 1 else 0) :=
  ⟨count_list_underfilled, count_AU_underfilled⟩

/-- C7 witness: the amended statement evaluated on `cexOld` at threshold 2. -/
theorem claim_C7_witness :
    (keysOf cexOld.by_option).Nodup ∧ alookup "A" cexOld.by_option = some [] ∧
    (cexOld.underfilled 2).count "A" = if ([] : List String).length < 2 then 1 else 0 :=
  ⟨by decide, by decide,
    claim_C7_underfilled_queries.2 cexOld 2 "A" [] (by decide) (by decide)⟩

/-! ### Claim C8 — the brute-force driver's initial unhappy count -/

/-- C8: `AssignStudents.py` initializes `n_unhappy_students` to the constant 1
(line 145, next to the comment "calculate minimum limit") instead of the
documented minimum (the number of options with zero total votes).  With three
options of which two receive no votes, the two values differ. -/
theorem claim_C8_bug :
    AU.n_unhappy_students_init = 1 ∧
    AU.n_zero_vote_options ["A", "B", "C"] [("s1", ["A"]), ("s2", ["A"])] = 2 ∧
    ¬ AU.n_unhappy_students_init =
      AU.n_zero_vote_options ["A", "B", "C"] [("s1", ["A"]), ("s2", ["A"])] := by
  decide

/-! ### Claim C9 — the unhappy-student resolver crashes -/

/-- C9: `find_more_unhappy_students` never builds its eviction queue: its tier
loop calls `match.list_students_by_option`, an attribute the `Matching` class
does not define (the class defines `list_students_for_option`), so on every
state with a non-empty option list — in particular whenever the base case
invokes it — the call raises `AttributeError` instead of returning a queue. -/
theorem claim_C9_bug :
    ASN.find_more_unhappy_students fmMatching fmStudents ["A", "B"] 1 1 1 =
      .error "AttributeError: Matching object has no attribute list_students_by_option" :=
  rfl

/-! ### Claim C6 — scoring an incomplete assignment -/

/-- C6 counterexample: the new scorer does not fail on an incomplete
assignment.  Student `y` of `cexIncomplete` is unassigned, yet
`score_assignment` returns a score (treating `y` as unhappy) instead of
raising a state-consistency error. -/
theorem claim_C6_counterexample :
    alookup "y" cexIncomplete.by_student = some none ∧
    ASN.score_assignment cexIncomplete
      [{ name := "x", high_priority := false, choices := ["A"] },
       { name := "y", high_priority := false, choices := ["A"] }] ["A", "B"] 1 1 1 =
      .ok [1, 1, 0] :=
  ⟨rfl, rfl⟩

/-! ### Claim C4 — the student/option map invariant -/

/-- The consistency invariant implies the claim's formulation: each student is
in at most one option's set, and `by_student[s] == o` iff `s ∈ by_option[o]`. -/
theorem consistent_implies_invariant (bs : List (String × Option String))
    (bo : List (String × List String)) (hnd1 : (keysOf bs).Nodup)
    (hnd2 : (keysOf bo).Nodup) (hc : consistentMaps bs bo) :
    StudentOptionInvariant bs bo := by
  constructor
  · intro q1 hq1 q2 hq2 s hs1 hs2
    have h1 := consistent_set_mem bs bo hc q1.1 q1.2 (mem_alookup _ _ _ hnd2 hq1) s hs1
    have h2 := consistent_set_mem bs bo hc q2.1 q2.2 (mem_alookup _ _ _ hnd2 hq2) s hs2
    rw [h1] at h2
    injection h2 with h2
    injection h2
  · intro s _ q hq
    constructor
    · intro h
      rcases consistent_alookup_fwd bs bo hc s q.1 h with ⟨l, hl, hm⟩
      rw [mem_alookup _ _ _ hnd2 hq] at hl
      injection hl with hl
      rw [hl]
      exact hm
    · intro h
      exact consistent_set_mem bs bo hc q.1 q.2 (mem_alookup _ _ _ hnd2 hq) s h

/-- C4: `assign`/`erase` (new script) and `add_pair`/`delete_pair` (old
script) each preserve map consistency, which (final conjunct) is exactly the
claimed invariant: every student is in at most one option's set and
`by_student[s] == o` iff `s ∈ by_option[o]`. -/
theorem claim_C4_invariant_preservation :
    (∀ (m m' : ASN.Matching) (s o : String),
        (keysOf m.by_student).Nodup → (keysOf m.by_option).Nodup →
        ASN.Consistent m → m.assign s o = .ok m' → ASN.Consistent m') ∧
    (∀ (m m' : ASN.Matching) (s : String),
        (keysOf m.by_student).Nodup → (keysOf m.by_option).Nodup →
        ASN.Consistent m → m.erase s = .ok m' → ASN.Consistent m') ∧
    (∀ (m m' : AU.Matching) (u v : String),
        (keysOf m.by_student).Nodup → (keysOf m.by_option).Nodup →
        consistentMaps m.by_student m.by_option → m.add_pair u v = .ok m' →
        consistentMaps m'.by_student m'.by_option) ∧
    (∀ (m m' : AU.Matching) (u v : String),
        (keysOf m.by_student).Nodup → (keysOf m.by_option).Nodup →
        consistentMaps m.by_student m.by_option → m.delete_pair u v = .ok m' →
        consistentMaps m'.by_student m'.by_option) ∧
    (∀ (bs : List (String × Option String)) (bo : List (String × List String)),
        (keysOf bs).Nodup → (keysOf bo).Nodup → consistentMaps bs bo →
        StudentOptionInvariant bs bo) := by
  refine ⟨?_, ?_, ?_, ?_, consistent_implies_invariant⟩
  · intro m m' s o hnd1 hnd2 hc h
    rcases assign_ok m m' s o h with ⟨hbs, _, l, hbo, rfl⟩
    exact consistentMaps_add m.by_student m.by_option s o l hnd1 hnd2 hc hbs hbo
  · intro m m' s hnd1 hnd2 hc h
    rcases erase_ok m m' s h with ⟨o, hbs, _, l, hbo, _, rfl⟩
    exact consistentMaps_del m.by_student m.by_option s o l hnd1 hnd2 hc hbs hbo
  · intro m m' u v hnd1 hnd2 hc h
    rcases add_pair_ok m m' u v h with ⟨opt, stu, hbs, l, hbo, rfl⟩
    exact consistentMaps_add m.by_student m.by_option stu opt l hnd1 hnd2 hc hbs hbo
  · intro m m' u v hnd1 hnd2 hc h
    rcases delete_pair_ok m m' u v h with ⟨opt, stu, hbs, l, hbo, _, rfl⟩
    exact consistentMaps_del m.by_student m.by_option stu opt l hnd1 hnd2 hc hbs hbo

/-- C4 witness: the `assign` conjunct evaluated on the concrete matching
`w4m`, whose successor under `assign("x", "A")` is `w4m'`. -/
theorem claim_C4_witness :
    (keysOf w4m.by_student).Nodup ∧ (keysOf w4m.by_option).Nodup ∧
    ASN.Consistent w4m ∧ w4m.assign "x" "A" = .ok w4m' ∧ ASN.Consistent w4m' :=
  ⟨by decide, by decide, by decide, by decide,
    claim_C4_invariant_preservation.1 w4m w4m' "x" "A" (by decide) (by decide)
      (by decide) (by decide)⟩

/-! ### The rank computations of the two scorers agree -/

theorem find_congr_mem (l : List Nat) (p q : Nat → Bool)
    (h : ∀ x ∈ l, p x = q x) : l.find? p = l.find? q := by
  induction l with
  | nil => rfl
  | cons a as ih =>
    have ha := h a (List.mem_cons_self _ _)
    rw [List.find?_cons, List.find?_cons, ha,
      ih fun x hx => h x (List.mem_cons_of_mem _ hx)]

/-- The inner rank loop, on in-range rank lists, is the first rank whose
choice equals the assigned value. -/
theorem choice_rank_pure (st : ASN.Student) (v : Option String) :
    ∀ ranks : List Nat, (∀ i ∈ ranks, i - 1 < st.choices.length) →
    ASN.choice_rank st v ranks = .ok (ranks.find? (fun i => st.choices[i - 1]? == v)) := by
  intro ranks
  induction ranks with
  | nil => intro _; rfl
  | cons i rest ih =>
    intro hv
    have hi : i - 1 < st.choices.length := hv i (List.mem_cons_self _ _)
    have hc : st.choices[i - 1]? = some st.choices[i - 1] :=
      List.getElem?_eq_getElem hi
    rw [ASN.choice_rank, ASN.Student.get_choice, hc, List.find?_cons]
    by_cases he : some st.choices[i - 1] = v
    · have hb : (st.choices[i - 1]? == v) = true := by
        rw [hc, he]
        exact beq_self_eq_true v
      rw [hb]
      show (if some st.choices[i - 1] = v then Except.ok (some i)
            else ASN.choice_rank st v rest) = Except.ok (some i)
      rw [if_pos he]
    · have hb : (st.choices[i - 1]? == v) = false := by
        rw [hc]
        exact beq_eq_false_iff_ne.2 he
      rw [hb]
      show (if some st.choices[i - 1] = v then Except.ok (some i)
            else ASN.choice_rank st v rest) =
        Except.ok (rest.find? (fun i => st.choices[i - 1]? == v))
      rw [if_neg he]
      exact ih fun j hj => hv j (List.mem_cons_of_mem _ hj)

theorem rankList_succ (n : Nat) : rankList (n + 1) = 1 :: (rankList n).map (· + 1) := by
  simp only [rankList, List.range_succ_eq_map, List.map_cons, List.map_map]

theorem find_rankList_none (cs : List String) :
    (rankList cs.length).find? (fun i => cs[i - 1]? == (none : Option String)) = none := by
  rw [List.find?_eq_none]
  intro i hi
  rcases List.mem_map.1 hi with ⟨j, hj, rfl⟩
  rw [List.mem_range] at hj
  rw [show j + 1 - 1 = j from rfl, List.getElem?_eq_getElem hj]
  simp

theorem find_rankList_some (o : String) : ∀ cs : List String,
    (rankList cs.length).find? (fun i => cs[i - 1]? == some o) =
      (firstIdx o cs).map (· + 1) := by
  intro cs
  induction cs with
  | nil => rfl
  | cons c cs ih =>
    rw [show (c :: cs).length = cs.length + 1 from rfl, rankList_succ, List.find?_cons]
    by_cases hc : c = o
    · have hb : ((c :: cs)[1 - 1]? == some o) = true := by
        rw [show (1 : Nat) - 1 = 0 from rfl]
        simp [hc]
      rw [hb, firstIdx, if_pos hc]
      rfl
    · have hb : ((c :: cs)[1 - 1]? == some o) = false := by
        rw [show (1 : Nat) - 1 = 0 from rfl]
        simp [hc]
      rw [hb, List.find?_map, firstIdx, if_neg hc]
      have hcongr : (rankList cs.length).find?
          ((fun i => (c :: cs)[i - 1]? == some o) ∘ (· + 1)) =
          (rankList cs.length).find? (fun j => cs[j - 1]? == some o) := by
        refine find_congr_mem _ _ _ fun j hj => ?_
        rcases List.mem_map.1 hj with ⟨jj, _, rfl⟩
        show ((c :: cs)[jj + 1 + 1 - 1]? == some o) = (cs[jj + 1 - 1]? == some o)
        rw [show jj + 1 + 1 - 1 = jj + 1 from rfl, show jj + 1 - 1 = jj from rfl,
          List.getElem?_cons_succ]
      rw [hcongr, ih, Option.map_map]

/-- The new scorer's monadic rank loop computes the reference rank. -/
theorem choice_rank_eq (st : ASN.Student) (asg : String → Option String)
    (K : Nat) (hlen : st.choices.length = K) :
    ASN.choice_rank st (asg st.name) (rankList K) = .ok (ref_rank st asg) := by
  subst hlen
  rw [choice_rank_pure st _ _ ?valid]
  case valid =>
    intro i hi
    rcases List.mem_map.1 hi with ⟨j, hj, rfl⟩
    rw [List.mem_range] at hj
    exact (show j + 1 - 1 = j from rfl) ▸ hj
  rw [ref_rank]
  cases asg st.name with
  | none => rw [find_rankList_none]
  | some o => rw [find_rankList_some]

/-- The old scorer's `picks.index(assigned)` is the same first index. -/
theorem firstIdx_mem (x : String) (l : List String) (j : Nat)
    (h : firstIdx x l = some j) : ∃ hj : j < l.length, l[j] = x := by
  induction l generalizing j with
  | nil => exact absurd h (by rw [firstIdx]; exact Option.noConfusion)
  | cons y ys ih =>
    rw [firstIdx] at h
    by_cases hy : y = x
    · rw [if_pos hy] at h
      injection h with h
      subst h
      exact ⟨Nat.succ_pos _, hy⟩
    · rw [if_neg hy] at h
      cases hf : firstIdx x ys with
      | none => rw [hf] at h; exact Option.noConfusion h
      | some jj =>
        rw [hf] at h
        injection h with h
        subst h
        rcases ih jj hf with ⟨hjj, heq⟩
        exact ⟨Nat.succ_lt_succ hjj, heq⟩

/-- Looking up a name in a dict built by mapping over the student list. -/
theorem map_alookup (students : List ASN.Student) (f : ASN.Student → β)
    (st : ASN.Student) (hnd : (students.map ASN.Student.name).Nodup)
    (hm : st ∈ students) :
    alookup st.name (students.map (fun s => (s.name, f s))) = some (f st) := by
  refine mem_alookup _ _ _ ?_ (List.mem_map.2 ⟨st, hm, rfl⟩)
  have : keysOf (students.map (fun s => (s.name, f s))) =
      students.map ASN.Student.name := by
    rw [keysOf, List.map_map]
    rfl
  rw [this]
  exact hnd

/-! ### The two scorers compute the reference score -/

theorem bump_cons_zero (x : Int) (t : List Int) : bump (x :: t) 0 = (x + 1) :: t := rfl

theorem bump_cons_succ (x : Int) (t : List Int) (j : Nat) :
    bump (x :: t) (j + 1) = x :: bump t j := rfl

theorem bumpDown_cons_zero (x : Int) (t : List Int) :
    bumpDown (x :: t) 0 = (x - 1) :: t := rfl

theorem ref_rank_pos (st : ASN.Student) (asg : String → Option String) (i : Nat)
    (h : ref_rank st asg = some i) : ∃ j, i = j + 1 := by
  unfold ref_rank at h
  split at h
  · exact Option.noConfusion h
  · rename_i o _
    cases hf : firstIdx o st.choices with
    | none => rw [hf] at h; exact Option.noConfusion h
    | some j =>
      rw [hf] at h
      injection h with h
      exact ⟨j, h.symm⟩

theorem happyCnt_nil (asg : String → Option String) : happyCnt [] asg = 0 := rfl

theorem unhappyCnt_nil (asg : String → Option String) : unhappyCnt [] asg = 0 := rfl

theorem happyCnt_cons_some (st : ASN.Student) (rest : List ASN.Student)
    (asg : String → Option String) (i : Nat) (h : ref_rank st asg = some i) :
    happyCnt (st :: rest) asg = happyCnt rest asg + 1 := by
  rw [happyCnt, List.filter_cons_of_pos (by rw [h]; rfl), List.length_cons, happyCnt]

theorem happyCnt_cons_none (st : ASN.Student) (rest : List ASN.Student)
    (asg : String → Option String) (h : ref_rank st asg = none) :
    happyCnt (st :: rest) asg = happyCnt rest asg := by
  rw [happyCnt, List.filter_cons_of_neg (by rw [h]; simp), happyCnt]

theorem unhappyCnt_cons_some (st : ASN.Student) (rest : List ASN.Student)
    (asg : String → Option String) (i : Nat) (h : ref_rank st asg = some i) :
    unhappyCnt (st :: rest) asg = unhappyCnt rest asg := by
  rw [unhappyCnt, List.filter_cons_of_neg (by rw [h]; simp), unhappyCnt]

theorem unhappyCnt_cons_none (st : ASN.Student) (rest : List ASN.Student)
    (asg : String → Option String) (h : ref_rank st asg = none) :
    unhappyCnt (st :: rest) asg = unhappyCnt rest asg + 1 := by
  rw [unhappyCnt, List.filter_cons_of_pos (by rw [h]; rfl), List.length_cons, unhappyCnt]

theorem happy_add_unhappy (asg : String → Option String) :
    ∀ studs : List ASN.Student,
    happyCnt studs asg + unhappyCnt studs asg = studs.length := by
  intro studs
  induction studs with
  | nil => rfl
  | cons st rest ih =>
    cases hr : ref_rank st asg with
    | none =>
      rw [happyCnt_cons_none st rest asg hr, unhappyCnt_cons_none st rest asg hr,
        List.length_cons, ← ih]
      omega
    | some i =>
      rw [happyCnt_cons_some st rest asg i hr, unhappyCnt_cons_some st rest asg i hr,
        List.length_cons, ← ih]
      omega

/-- One step of `score_aux` on a student whose lookup and scoring succeed. -/
theorem score_aux_cons (mN : ASN.Matching) (K : Nat) (st : ASN.Student)
    (rest : List ASN.Student) (score score1 : List Int) (v : Option String)
    (hg : mN.get_match st.name = .ok v)
    (hs : ASN.score_step K st v score = .ok score1) :
    ASN.score_aux mN K (st :: rest) score = ASN.score_aux mN K rest score1 := by
  simp only [ASN.score_aux, hg, hs]

/-- The per-student score update equals the reference update. -/
theorem ref_fold_cons (K : Nat) (asg : String → Option String)
    (st : ASN.Student) (rest : List ASN.Student) (score : List Int) :
    ref_fold K asg (st :: rest) score =
      ref_fold K asg rest
        (match ref_rank st asg with
         | none => score
         | some i =>
           if st.high_priority then bump (bump (bump score 0) i) (K + i)
           else bump (bump score 0) i) := rfl

/-- The monadic student loop of the new scorer computes the reference fold. -/
theorem score_aux_eq (mN : ASN.Matching) (K : Nat) (asg : String → Option String) :
    ∀ (studs : List ASN.Student) (score : List Int),
    (∀ st ∈ studs, st.choices.length = K) →
    (∀ st ∈ studs, alookup st.name mN.by_student = some (asg st.name)) →
    ASN.score_aux mN K studs score = .ok (ref_fold K asg studs score) := by
  intro studs
  induction studs with
  | nil => intro score _ _; rfl
  | cons st rest ih =>
    intro score hlen hasg
    have hg : mN.get_match st.name = .ok (asg st.name) := by
      rw [ASN.Matching.get_match, hasg st (List.mem_cons_self _ _)]
    have hs : ASN.score_step K st (asg st.name) score =
        .ok (match ref_rank st asg with
             | none => score
             | some i =>
               if st.high_priority then bump (bump (bump score 0) i) (K + i)
               else bump (bump score 0) i) := by
      rw [ASN.score_step, choice_rank_eq st asg K (hlen st (List.mem_cons_self _ _))]
      cases ref_rank st asg with
      | none => rfl
      | some i => rfl
    rw [score_aux_cons mN K st rest score _ _ hg hs, ref_fold_cons]
    exact ih _ (fun s hh => hlen s (List.mem_cons_of_mem _ hh))
      (fun s hh => hasg s (List.mem_cons_of_mem _ hh))

/-- One step of `calc_aux` on a student whose lookups succeed. -/
theorem calc_aux_cons_step (mO : AU.Matching) (hpd : List (String × Bool))
    (K : Nat) (name : String) (picks : List String)
    (rest : List (String × List String)) (score : List Int) (o : String)
    (hpf : Bool) (hl : mO.lookup name = .ok (.inl (some o)))
    (hhp : alookup name hpd = some hpf) :
    AU.calc_aux mO hpd K ((name, picks) :: rest) score =
      (match firstIdx o picks with
       | some rank => AU.calc_aux mO hpd K rest
           (if hpf then bump (bump score (1 + rank)) (1 + K + rank)
            else bump score (1 + rank))
       | none => AU.calc_aux mO hpd K rest (bumpDown score 0)) := by
  simp only [AU.calc_aux, hl, hhp]

/-- One step of `calc_aux` on an unassigned student: a `ValueError`. -/
theorem calc_aux_cons_incomplete (mO : AU.Matching) (hpd : List (String × Bool))
    (K : Nat) (name : String) (picks : List String)
    (rest : List (String × List String)) (score : List Int) (hpf : Bool)
    (hl : mO.lookup name = .ok (.inl none))
    (hhp : alookup name hpd = some hpf) :
    AU.calc_aux mO hpd K ((name, picks) :: rest) score =
      .error "ValueError: scoring an incomplete match" := by
  simp only [AU.calc_aux, hl, hhp]

/-- The monadic student loop of the old scorer computes the old fold (on a
complete assignment). -/
theorem calc_aux_eq (mO : AU.Matching) (K : Nat) (asg : String → Option String)
    (hpd : List (String × Bool)) :
    ∀ (studs : List ASN.Student) (score : List Int),
    (∀ st ∈ studs, alookup st.name mO.by_student = some (asg st.name)) →
    (∀ st ∈ studs, alookup st.name hpd = some st.high_priority) →
    (∀ st ∈ studs, (asg st.name).isSome = true) →
    AU.calc_aux mO hpd K (studs.map (fun st => (st.name, st.choices))) score =
      .ok (old_fold K asg studs score) := by
  intro studs
  induction studs with
  | nil => intro score _ _ _; rfl
  | cons st rest ih =>
    intro score hasg hhp hsome
    obtain ⟨o, ho⟩ := Option.isSome_iff_exists.1 (hsome st (List.mem_cons_self _ _))
    have hl : mO.lookup st.name = .ok (.inl (some o)) := by
      rw [AU.Matching.lookup, hasg st (List.mem_cons_self _ _), ho]
    have hrank : ref_rank st asg = (firstIdx o st.choices).map (· + 1) := by
      unfold ref_rank
      rw [ho]
    rw [List.map_cons,
      calc_aux_cons_step mO hpd K st.name st.choices _ score o st.high_priority hl
        (hhp st (List.mem_cons_self _ _)),
      old_fold, hrank]
    cases hf : firstIdx o st.choices with
    | none =>
      simp only [Option.map_none']
      exact ih _ (fun s hh => hasg s (List.mem_cons_of_mem _ hh))
        (fun s hh => hhp s (List.mem_cons_of_mem _ hh))
        (fun s hh => hsome s (List.mem_cons_of_mem _ hh))
    | some rank =>
      simp only [Option.map_some']
      rw [show (1 : Nat) + rank = rank + 1 from Nat.add_comm 1 rank,
        show (1 : Nat) + K + rank = K + (rank + 1) from by omega]
      exact ih _ (fun s hh => hasg s (List.mem_cons_of_mem _ hh))
        (fun s hh => hhp s (List.mem_cons_of_mem _ hh))
        (fun s hh => hsome s (List.mem_cons_of_mem _ hh))

theorem old_fold_cons (K : Nat) (asg : String → Option String)
    (st : ASN.Student) (rest : List ASN.Student) (score : List Int) :
    old_fold K asg (st :: rest) score =
      old_fold K asg rest
        (match ref_rank st asg with
         | none => bumpDown score 0
         | some i =>
           if st.high_priority then bump (bump score i) (K + i)
           else bump score i) := rfl

theorem ref_fold_cons_none (K : Nat) (asg : String → Option String)
    (st : ASN.Student) (rest : List ASN.Student) (score : List Int)
    (h : ref_rank st asg = none) :
    ref_fold K asg (st :: rest) score = ref_fold K asg rest score := by
  simp only [ref_fold_cons, h]

theorem ref_fold_cons_some (K : Nat) (asg : String → Option String)
    (st : ASN.Student) (rest : List ASN.Student) (score : List Int) (i : Nat)
    (h : ref_rank st asg = some i) :
    ref_fold K asg (st :: rest) score = ref_fold K asg rest
      (if st.high_priority then bump (bump (bump score 0) i) (K + i)
       else bump (bump score 0) i) := by
  simp only [ref_fold_cons, h]

theorem old_fold_cons_none (K : Nat) (asg : String → Option String)
    (st : ASN.Student) (rest : List ASN.Student) (score : List Int)
    (h : ref_rank st asg = none) :
    old_fold K asg (st :: rest) score = old_fold K asg rest (bumpDown score 0) := by
  simp only [old_fold_cons, h]

theorem old_fold_cons_some (K : Nat) (asg : String → Option String)
    (st : ASN.Student) (rest : List ASN.Student) (score : List Int) (i : Nat)
    (h : ref_rank st asg = some i) :
    old_fold K asg (st :: rest) score = old_fold K asg rest
      (if st.high_priority then bump (bump score i) (K + i) else bump score i) := by
  simp only [old_fold_cons, h]

/-- The reference fold and the old fold transform the score tail identically;
the heads differ by counting happy students up versus unhappy students down. -/
theorem fold_rel (K : Nat) (asg : String → Option String) :
    ∀ (studs : List ASN.Student) (a b : Int) (t : List Int),
    ∃ t', ref_fold K asg studs (b :: t) = (b + (happyCnt studs asg : Int)) :: t' ∧
          old_fold K asg studs (a :: t) = (a - (unhappyCnt studs asg : Int)) :: t' := by
  intro studs
  induction studs with
  | nil =>
    intro a b t
    refine ⟨t, ?_, ?_⟩
    · rw [ref_fold, happyCnt_nil]
      norm_num
    · rw [old_fold, unhappyCnt_nil]
      norm_num
  | cons st rest ih =>
    intro a b t
    cases hr : ref_rank st asg with
    | none =>
      rw [ref_fold_cons_none K asg st rest _ hr, old_fold_cons_none K asg st rest _ hr,
        bumpDown_cons_zero]
      rcases ih (a - 1) b t with ⟨t', h1, h2⟩
      refine ⟨t', ?_, ?_⟩
      · rw [h1, happyCnt_cons_none st rest asg hr]
      · rw [h2, unhappyCnt_cons_none st rest asg hr]
        have heq : a - 1 - (unhappyCnt rest asg : Int) =
            a - ((unhappyCnt rest asg + 1 : Nat) : Int) := by
          push_cast
          ring
        rw [heq]
    | some i =>
      obtain ⟨j, rfl⟩ := ref_rank_pos st asg i hr
      rw [ref_fold_cons_some K asg st rest _ _ hr, old_fold_cons_some K asg st rest _ _ hr]
      by_cases hhp : st.high_priority
      · rw [if_pos hhp, if_pos hhp, bump_cons_zero, bump_cons_succ,
          show K + (j + 1) = (K + j) + 1 from rfl, bump_cons_succ, bump_cons_succ,
          bump_cons_succ]
        rcases ih a (b + 1) (bump (bump t j) (K + j)) with ⟨t', h1, h2⟩
        refine ⟨t', ?_, ?_⟩
        · rw [h1, happyCnt_cons_some st rest asg _ hr]
          have heq : b + 1 + (happyCnt rest asg : Int) =
              b + ((happyCnt rest asg + 1 : Nat) : Int) := by
            push_cast
            ring
          rw [heq]
        · rw [h2, unhappyCnt_cons_some st rest asg _ hr]
      · rw [if_neg hhp, if_neg hhp, bump_cons_zero, bump_cons_succ, bump_cons_succ]
        rcases ih a (b + 1) (bump t j) with ⟨t', h1, h2⟩
        refine ⟨t', ?_, ?_⟩
        · rw [h1, happyCnt_cons_some st rest asg _ hr]
          have heq : b + 1 + (happyCnt rest asg : Int) =
              b + ((happyCnt rest asg + 1 : Nat) : Int) := by
            push_cast
            ring
          rw [heq]
        · rw [h2, unhappyCnt_cons_some st rest asg _ hr]

/-! ### Primitive operation lemmas for the staged engine -/

theorem mem_aupdate (k : String) (v : β) (l : List (String × β)) (q : String × β)
    (h : q ∈ aupdate k v l) : q ∈ l ∨ (q.1 = k ∧ q.2 = v) := by
  induction l with
  | nil => rw [aupdate] at h; exact absurd h (List.not_mem_nil q)
  | cons p ps ih =>
    by_cases hp : p.1 = k
    · rw [aupdate, if_pos hp] at h
      rcases List.mem_cons.1 h with h' | h'
      · right
        rw [h']
        exact ⟨hp, rfl⟩
      · rcases ih h' with h'' | h''
        · exact Or.inl (List.mem_cons_of_mem _ h'')
        · exact Or.inr h''
    · rw [aupdate, if_neg hp] at h
      rcases List.mem_cons.1 h with h' | h'
      · exact Or.inl (h' ▸ List.mem_cons_self _ _)
      · rcases ih h' with h'' | h''
        · exact Or.inl (List.mem_cons_of_mem _ h'')
        · exact Or.inr h''

theorem valid_bs_nodup (students : List ASN.Student) (options : List String)
    (K : Nat) (m : ASN.Matching) (hv : ASN.Valid students options K m) :
    (keysOf m.by_student).Nodup := by
  rw [hv.1]
  exact hv.2.2.2.1

theorem valid_bo_nodup (students : List ASN.Student) (options : List String)
    (K : Nat) (m : ASN.Matching) (hv : ASN.Valid students options K m) :
    (keysOf m.by_option).Nodup := by
  rw [hv.2.1]
  exact hv.2.2.2.2.1

theorem valid_lock_nodup (students : List ASN.Student) (options : List String)
    (K : Nat) (m : ASN.Matching) (hv : ASN.Valid students options K m) :
    (keysOf m.student_locked).Nodup := by
  rw [hv.2.2.1]
  exact hv.2.2.2.1

theorem matchedTo_isSome (bs : List (String × Option String)) (x : String) :
    (matchedTo bs x).isSome = true ↔ ∃ o, alookup x bs = some (some o) := by
  unfold matchedTo
  split
  · rename_i o h
    constructor
    · intro _
      exact ⟨o, h⟩
    · intro _
      rfl
  · rename_i h
    constructor
    · intro hc
      exact Bool.noConfusion hc
    · rintro ⟨o, ho⟩
      exact (h o ho).elim

/-- `assign` preserves validity and leaves the lock map untouched. -/
theorem assign_valid (students : List ASN.Student) (options : List String)
    (K : Nat) (m m' : ASN.Matching) (s o : String)
    (hv : ASN.Valid students options K m) (h : m.assign s o = .ok m') :
    ASN.Valid students options K m' ∧ m'.student_locked = m.student_locked := by
  obtain ⟨hk1, hk2, hk3, hnd, hond, hch, hcm, hsort, hcons, hlm⟩ := hv
  have hnd1 : (keysOf m.by_student).Nodup := by rw [hk1]; exact hnd
  have hnd2 : (keysOf m.by_option).Nodup := by rw [hk2]; exact hond
  rcases assign_ok m m' s o h with ⟨hbs, _, l, hbo, rfl⟩
  have hskey : s ∈ keysOf m.by_student :=
    (mem_keysOf _ _).2 ⟨_, alookup_mem _ _ _ hbs⟩
  refine ⟨⟨?_, ?_, hk3, hnd, hond, hch, hcm, ?_, ?_, ?_⟩, rfl⟩
  · show keysOf (aupdate s (some o) m.by_student) = _
    rw [keysOf_aupdate]
    exact hk1
  · show keysOf (aupdate o (insertSorted s l) m.by_option) = _
    rw [keysOf_aupdate]
    exact hk2
  · intro q hq
    rcases mem_aupdate o (insertSorted s l) m.by_option q hq with hold | ⟨_, hq2⟩
    · exact hsort q hold
    · rw [hq2]
      exact sorted_insertSorted s l (hsort (o, l) (alookup_mem _ _ _ hbo))
  · exact consistentMaps_add m.by_student m.by_option s o l hnd1 hnd2 hcons hbs hbo
  · intro p hp htrue
    rw [matchedTo_isSome]
    by_cases hps : p.1 = s
    · rw [hps, alookup_aupdate_self s _ _ hskey]
      exact ⟨o, rfl⟩
    · rcases (matchedTo_isSome m.by_student p.1).1 (hlm p hp htrue) with ⟨o', ho'⟩
      rw [alookup_aupdate_of_ne _ _ _ _ (fun he => hps he.symm)]
      exact ⟨o', ho'⟩

/-- `erase` preserves validity and leaves the lock map untouched. -/
theorem erase_valid (students : List ASN.Student) (options : List String)
    (K : Nat) (m m' : ASN.Matching) (s : String)
    (hv : ASN.Valid students options K m) (h : m.erase s = .ok m') :
    ASN.Valid students options K m' ∧ m'.student_locked = m.student_locked := by
  obtain ⟨hk1, hk2, hk3, hnd, hond, hch, hcm, hsort, hcons, hlm⟩ := hv
  have hnd1 : (keysOf m.by_student).Nodup := by rw [hk1]; exact hnd
  have hnd2 : (keysOf m.by_option).Nodup := by rw [hk2]; exact hond
  have hndl : (keysOf m.student_locked).Nodup := by rw [hk3]; exact hnd
  rcases erase_ok m m' s h with ⟨o, hbs, hlkf, l, hbo, _, rfl⟩
  refine ⟨⟨?_, ?_, hk3, hnd, hond, hch, hcm, ?_, ?_, ?_⟩, rfl⟩
  · show keysOf (aupdate s none m.by_student) = _
    rw [keysOf_aupdate]
    exact hk1
  · show keysOf (aupdate o (removeStr s l) m.by_option) = _
    rw [keysOf_aupdate]
    exact hk2
  · intro q hq
    rcases mem_aupdate o (removeStr s l) m.by_option q hq with hold | ⟨_, hq2⟩
    · exact hsort q hold
    · rw [hq2]
      exact sorted_removeStr s l (hsort (o, l) (alookup_mem _ _ _ hbo))
  · exact consistentMaps_del m.by_student m.by_option s o l hnd1 hnd2 hcons hbs hbo
  · intro p hp htrue
    rw [matchedTo_isSome]
    have hps : p.1 ≠ s := by
      intro he
      have hx := mem_alookup p.1 m.student_locked p.2 hndl hp
      rw [he, hlkf] at hx
      rw [htrue] at hx
      exact Bool.noConfusion (Option.some.inj hx)
    rcases (matchedTo_isSome m.by_student p.1).1 (hlm p hp htrue) with ⟨o', ho'⟩
    rw [alookup_aupdate_of_ne _ _ _ _ (fun he => hps he.symm)]
    exact ⟨o', ho'⟩

/-- `lock` on a matched student preserves validity; the two matching maps are
untouched. -/
theorem lock_valid (students : List ASN.Student) (options : List String)
    (K : Nat) (m m' : ASN.Matching) (s : String)
    (hv : ASN.Valid students options K m)
    (hmat : ∃ o, alookup s m.by_student = some (some o))
    (h : m.lock s = .ok m') :
    ASN.Valid students options K m' ∧ m'.by_student = m.by_student ∧
      m'.by_option = m.by_option := by
  obtain ⟨hk1, hk2, hk3, hnd, hond, hch, hcm, hsort, hcons, hlm⟩ := hv
  rcases lock_ok m m' s h with ⟨hlkf, rfl⟩
  refine ⟨⟨hk1, hk2, ?_, hnd, hond, hch, hcm, hsort, hcons, ?_⟩, rfl, rfl⟩
  · show keysOf (aupdate s true m.student_locked) = _
    rw [keysOf_aupdate]
    exact hk3
  · intro p hp htrue
    rw [matchedTo_isSome]
    by_cases hps : p.1 = s
    · rw [hps]
      exact hmat
    · rcases mem_aupdate s true m.student_locked p hp with hold | ⟨hq1, _⟩
      · exact (matchedTo_isSome m.by_student p.1).1 (hlm p hold htrue)
      · exact absurd hq1 hps

/-- `unlock` preserves validity; the two matching maps are untouched. -/
theorem unlock_valid (students : List ASN.Student) (options : List String)
    (K : Nat) (m m' : ASN.Matching) (s : String)
    (hv : ASN.Valid students options K m) (h : m.unlock s = .ok m') :
    ASN.Valid students options K m' ∧ m'.by_student = m.by_student ∧
      m'.by_option = m.by_option := by
  obtain ⟨hk1, hk2, hk3, hnd, hond, hch, hcm, hsort, hcons, hlm⟩ := hv
  rcases unlock_ok m m' s h with ⟨hlkt, rfl⟩
  refine ⟨⟨hk1, hk2, ?_, hnd, hond, hch, hcm, hsort, hcons, ?_⟩, rfl, rfl⟩
  · show keysOf (aupdate s false m.student_locked) = _
    rw [keysOf_aupdate]
    exact hk3
  · intro p hp htrue
    rw [matchedTo_isSome]
    rcases mem_aupdate s false m.student_locked p hp with hold | ⟨_, hq2⟩
    · exact (matchedTo_isSome m.by_student p.1).1 (hlm p hold htrue)
    · rw [htrue] at hq2
      exact Bool.noConfusion hq2

/-- Erasing a freshly assigned student restores the state exactly. -/
theorem erase_assign_undo (m m' : ASN.Matching) (s o : String)
    (hnd1 : (keysOf m.by_student).Nodup) (hnd2 : (keysOf m.by_option).Nodup)
    (hsort : ∀ q ∈ m.by_option, List.Sorted (· < ·) q.2)
    (hcons : consistentMaps m.by_student m.by_option)
    (h : m.assign s o = .ok m') : m'.erase s = .ok m := by
  rcases assign_ok m m' s o h with ⟨hbs, hlk, l, hbo, rfl⟩
  have hskey : s ∈ keysOf m.by_student :=
    (mem_keysOf _ _).2 ⟨_, alookup_mem _ _ _ hbs⟩
  have hokey : o ∈ keysOf m.by_option :=
    (mem_keysOf _ _).2 ⟨_, alookup_mem _ _ _ hbo⟩
  have hsl : s ∉ l := by
    intro hmem
    have hx := consistent_set_mem _ _ hcons o l hbo s hmem
    rw [hbs] at hx
    exact Option.noConfusion (Option.some.inj hx)
  have hsorted : List.Sorted (· < ·) l := hsort (o, l) (alookup_mem _ _ _ hbo)
  have hmem : s ∈ insertSorted s l := (mem_insertSorted s s l).2 (Or.inl rfl)
  simp only [ASN.Matching.erase, alookup_aupdate_self s (some o) m.by_student hskey,
    hlk, alookup_aupdate_self o (insertSorted s l) m.by_option hokey, hmem, if_true,
    aupdate_aupdate, removeStr_insertSorted s l hsorted hsl,
    aupdate_self_eq o l m.by_option hnd2 hbo,
    aupdate_self_eq s none m.by_student hnd1 hbs]

/-- Re-assigning a freshly erased student to their old option restores the
state exactly. -/
theorem assign_erase_undo (m m' : ASN.Matching) (s o : String)
    (hnd1 : (keysOf m.by_student).Nodup) (hnd2 : (keysOf m.by_option).Nodup)
    (hsort : ∀ q ∈ m.by_option, List.Sorted (· < ·) q.2)
    (hbs : alookup s m.by_student = some (some o))
    (h : m.erase s = .ok m') : m'.assign s o = .ok m := by
  rcases erase_ok m m' s h with ⟨o', hbs', hlk, l, hbo, hmem, rfl⟩
  have hoo : o' = o := by
    rw [hbs] at hbs'
    exact (Option.some.inj (Option.some.inj hbs')).symm
  subst hoo
  have hskey : s ∈ keysOf m.by_student :=
    (mem_keysOf _ _).2 ⟨_, alookup_mem _ _ _ hbs⟩
  have hokey : o' ∈ keysOf m.by_option :=
    (mem_keysOf _ _).2 ⟨_, alookup_mem _ _ _ hbo⟩
  have hsorted : List.Sorted (· < ·) l := hsort (o', l) (alookup_mem _ _ _ hbo)
  simp only [ASN.Matching.assign, alookup_aupdate_self s none m.by_student hskey,
    hlk, alookup_aupdate_self o' (removeStr s l) m.by_option hokey,
    aupdate_aupdate, insertSorted_removeStr s l hsorted hmem,
    aupdate_self_eq o' l m.by_option hnd2 hbo,
    aupdate_self_eq s (some o') m.by_student hnd1 hbs]

theorem aupdate_comm (k k' : String) (v v' : β) (l : List (String × β))
    (h : k ≠ k') : aupdate k v (aupdate k' v' l) = aupdate k' v' (aupdate k v l) := by
  induction l with
  | nil => rfl
  | cons p ps ih =>
    by_cases hp : p.1 = k
    · have hp' : ¬ p.1 = k' := fun he => h (hp.symm.trans he)
      simp only [aupdate, if_pos hp, if_neg hp', ih]
    · by_cases hp' : p.1 = k'
      · simp only [aupdate, if_pos hp', if_neg hp, ih]
      · simp only [aupdate, if_neg hp, if_neg hp', ih]

theorem removeStr_insertSorted_comm (s s' : String) (l : List String)
    (hsort : List.Sorted (· < ·) l) (h : s ≠ s') :
    removeStr s (insertSorted s' l) = insertSorted s' (removeStr s l) := by
  refine sorted_eq_of_mem _ _
    (sorted_removeStr s _ (sorted_insertSorted s' l hsort))
    (sorted_insertSorted s' _ (sorted_removeStr s l hsort)) fun x => ?_
  rw [mem_removeStr, mem_insertSorted, mem_insertSorted, mem_removeStr]
  constructor
  · rintro ⟨rfl | hx, hxs⟩
    · exact Or.inl rfl
    · exact Or.inr ⟨hx, hxs⟩
  · rintro (rfl | ⟨hx, hxs⟩)
    · exact ⟨Or.inl rfl, Ne.symm h⟩
    · exact ⟨Or.inr hx, hxs⟩

/-- An `erase` of one student commutes backwards over an `assign` of a
different student. -/
theorem erase_assign_comm (m mA mB : ASN.Matching) (s s' o' : String)
    (hne : s ≠ s') (hnd2 : (keysOf m.by_option).Nodup)
    (hsort : ∀ q ∈ m.by_option, List.Sorted (· < ·) q.2)
    (h1 : m.assign s' o' = .ok mA) (h2 : mA.erase s = .ok mB) :
    ∃ mC, m.erase s = .ok mC ∧ mC.assign s' o' = .ok mB := by
  rcases assign_ok m mA s' o' h1 with ⟨hbs', hlk', l', hbo', rfl⟩
  rcases erase_ok _ mB s h2 with ⟨o, hbsA, hlkA, lA, hboA, hmemA, rfl⟩
  have hbs : alookup s m.by_student = some (some o) := by
    rwa [alookup_aupdate_of_ne _ _ _ _ (fun he => hne (he.symm))] at hbsA
  by_cases hoo : o = o'
  · subst hoo
    have hlA : lA = insertSorted s' l' := by
      rw [alookup_aupdate_self o _ _ ((mem_keysOf _ _).2 ⟨_, alookup_mem _ _ _ hbo'⟩)] at hboA
      exact (Option.some.inj hboA).symm
    subst hlA
    have hmem : s ∈ l' := by
      rcases (mem_insertSorted s' s l').1 hmemA with he | hmem
      · exact absurd he hne
      · exact hmem
    have hlk : alookup s m.student_locked = some false := hlkA
    have hokey : o ∈ keysOf m.by_option :=
      (mem_keysOf _ _).2 ⟨_, alookup_mem _ _ _ hbo'⟩
    have hsl' : List.Sorted (· < ·) l' := hsort (o, l') (alookup_mem _ _ _ hbo')
    refine ⟨{ m with by_option := aupdate o (removeStr s l') m.by_option,
                     by_student := aupdate s none m.by_student }, ?_, ?_⟩
    · simp only [ASN.Matching.erase, hbs, hlk, hbo', hmem, if_true]
    · simp only [ASN.Matching.assign,
        alookup_aupdate_of_ne s' s none m.by_student hne, hbs', hlk',
        alookup_aupdate_self o (removeStr s l') m.by_option hokey,
        aupdate_aupdate, removeStr_insertSorted_comm s s' l' hsl' hne,
        aupdate_comm s s' none (some o) m.by_student hne]
  · have hbo : alookup o m.by_option = some lA := by
      rwa [alookup_aupdate_of_ne _ _ _ _ (fun he => hoo he.symm)] at hboA
    have hlk : alookup s m.student_locked = some false := hlkA
    refine ⟨{ m with by_option := aupdate o (removeStr s lA) m.by_option,
                     by_student := aupdate s none m.by_student }, ?_, ?_⟩
    · simp only [ASN.Matching.erase, hbs, hlk, hbo, hmemA, if_true]
    · simp only [ASN.Matching.assign,
        alookup_aupdate_of_ne s' s none m.by_student hne, hbs', hlk',
        alookup_aupdate_of_ne o' o (removeStr s lA) m.by_option hoo, hbo',
        aupdate_comm o o' (removeStr s lA) (insertSorted s' l') m.by_option hoo,
        aupdate_comm s s' none (some o') m.by_student hne]

/-- An `assign` of one student commutes backwards over an `erase` of a
different student. -/
theorem assign_erase_comm (m mA mB : ASN.Matching) (s s' o : String)
    (hne : s ≠ s') (hnd2 : (keysOf m.by_option).Nodup)
    (hsort : ∀ q ∈ m.by_option, List.Sorted (· < ·) q.2)
    (h1 : m.erase s' = .ok mA) (h2 : mA.assign s o = .ok mB) :
    ∃ mC, m.assign s o = .ok mC ∧ mC.erase s' = .ok mB := by
  rcases erase_ok m mA s' h1 with ⟨o', hbs', hlk', l', hbo', hmem', rfl⟩
  rcases assign_ok _ mB s o h2 with ⟨hbsA, hlkA, lA, hboA, rfl⟩
  have hbs : alookup s m.by_student = some none := by
    rwa [alookup_aupdate_of_ne _ _ _ _ (fun he => hne (he.symm))] at hbsA
  by_cases hoo : o = o'
  · subst hoo
    have hlA : lA = removeStr s' l' := by
      rw [alookup_aupdate_self o _ _ ((mem_keysOf _ _).2 ⟨_, alookup_mem _ _ _ hbo'⟩)] at hboA
      exact (Option.some.inj hboA).symm
    subst hlA
    have hlk : alookup s m.student_locked = some false := hlkA
    have hokey : o ∈ keysOf m.by_option :=
      (mem_keysOf _ _).2 ⟨_, alookup_mem _ _ _ hbo'⟩
    have hsl' : List.Sorted (· < ·) l' := hsort (o, l') (alookup_mem _ _ _ hbo')
    have hmem2 : s' ∈ insertSorted s l' := (mem_insertSorted s s' l').2 (Or.inr hmem')
    refine ⟨{ m with by_option := aupdate o (insertSorted s l') m.by_option,
                     by_student := aupdate s (some o) m.by_student }, ?_, ?_⟩
    · simp only [ASN.Matching.assign, hbs, hlk, hbo']
    · simp only [ASN.Matching.erase,
        alookup_aupdate_of_ne s' s (some o) m.by_student hne, hbs', hlk',
        alookup_aupdate_self o (insertSorted s l') m.by_option hokey,
        hmem2, if_true, aupdate_aupdate,
        removeStr_insertSorted_comm s' s l' hsl' (fun he => hne he.symm),
        aupdate_comm s s' (some o) none m.by_student hne]
  · have hbo : alookup o m.by_option = some lA := by
      rwa [alookup_aupdate_of_ne _ _ _ _ (fun he => hoo he.symm)] at hboA
    have hlk : alookup s m.student_locked = some false := hlkA
    refine ⟨{ m with by_option := aupdate o (insertSorted s lA) m.by_option,
                     by_student := aupdate s (some o) m.by_student }, ?_, ?_⟩
    · simp only [ASN.Matching.assign, hbs, hlk, hbo]
    · simp only [ASN.Matching.erase,
        alookup_aupdate_of_ne s' s (some o) m.by_student hne, hbs', hlk',
        alookup_aupdate_of_ne o' o (insertSorted s lA) m.by_option hoo, hbo',
        hmem', if_true,
        aupdate_comm o o' (insertSorted s lA) (removeStr s' l') m.by_option hoo,
        aupdate_comm s s' (some o) none m.by_student hne]

/-- Success characterization of a sequence of `assign` calls: validity is
preserved, locks untouched, the assigned students were unmatched and distinct,
each pair is recorded in the result, untouched students keep their match, and
each option set grows by the multiplicity of that option in the pair list. -/
theorem assign_seq_spec (students : List ASN.Student) (options : List String)
    (K : Nat) (qs : List (String × String)) :
    ∀ m m' : ASN.Matching, ASN.Valid students options K m →
      assign_seq m qs = .ok m' →
      ASN.Valid students options K m' ∧
      m'.student_locked = m.student_locked ∧
      (∀ x ∈ qs.map Prod.fst, alookup x m.by_student = some none) ∧
      (qs.map Prod.fst).Nodup ∧
      (∀ p ∈ qs, alookup p.1 m'.by_student = some (some p.2)) ∧
      (∀ x, x ∉ qs.map Prod.fst →
        alookup x m'.by_student = alookup x m.by_student) ∧
      (∀ o lo lo', alookup o m.by_option = some lo →
        alookup o m'.by_option = some lo' →
        lo'.length = lo.length + (qs.map Prod.snd).count o) := by
  induction qs with
  | nil =>
    intro m m' hv h
    have hm : m' = m := (Except.ok.inj h).symm
    subst hm
    refine ⟨hv, rfl, by simp, by simp, by simp, fun x _ => rfl, ?_⟩
    intro o lo lo' h1 h2
    rw [h1] at h2
    simp [Option.some.inj h2]
  | cons q rest ih =>
    obtain ⟨s, o⟩ := q
    intro m m' hv h
    simp only [assign_seq] at h
    cases has : m.assign s o with
    | error e => rw [has] at h; exact Except.noConfusion h
    | ok m1 =>
      rw [has] at h
      have hv1 := (assign_valid students options K m m1 s o hv has).1
      obtain ⟨hvr, hlock', hunm', hnd', hrec', hunt', hcnt'⟩ := ih m1 m' hv1 h
      obtain ⟨hk1, hk2, hk3, hnd, hond, hch, hcm, hsort, hcons, hlm⟩ := hv
      rcases assign_ok m m1 s o has with ⟨hbs, hlkf, l, hbo, hm1⟩
      have hskey : s ∈ keysOf m.by_student :=
        (mem_keysOf _ _).2 ⟨_, alookup_mem _ _ _ hbs⟩
      have hbs1 : alookup s m1.by_student = some (some o) := by
        rw [hm1]
        exact alookup_aupdate_self s (some o) m.by_student hskey
      have hsnot : s ∉ rest.map Prod.fst := by
        intro hin
        have := hunm' s hin
        rw [hbs1] at this
        exact Option.noConfusion (Option.some.inj this)
      have hbs1_ne : ∀ x, x ≠ s →
          alookup x m1.by_student = alookup x m.by_student := by
        intro x hx
        rw [hm1]
        exact alookup_aupdate_of_ne x s (some o) m.by_student (fun he => hx he.symm)
      refine ⟨hvr, by rw [hlock', hm1], ?_, ?_, ?_, ?_, ?_⟩
      · intro x hx
        simp only [List.map_cons, List.mem_cons] at hx
        rcases hx with rfl | hx'
        · exact hbs
        · by_cases hxs : x = s
          · subst hxs; exact hbs
          · rw [← hbs1_ne x hxs]
            exact hunm' x hx'
      · rw [List.map_cons]
        exact List.nodup_cons.2 ⟨hsnot, hnd'⟩
      · intro p hp
        rcases List.mem_cons.1 hp with rfl | hp'
        · rw [hunt' s hsnot]
          exact hbs1
        · exact hrec' p hp'
      · intro x hx
        simp only [List.map_cons, List.mem_cons, not_or] at hx
        rw [hunt' x hx.2]
        exact hbs1_ne x hx.1
      · intro o₀ lo lo' hlo hlo'
        by_cases hoo : o₀ = o
        · subst hoo
          have hlol : lo = l := by
            rw [hlo] at hbo
            exact Option.some.inj hbo
          subst hlol
          have hsl : s ∉ lo := by
            intro hmem
            have hx := consistent_set_mem _ _ hcons o₀ lo hlo s hmem
            rw [hbs] at hx
            exact Option.noConfusion (Option.some.inj hx)
          have hokey : o₀ ∈ keysOf m.by_option :=
            (mem_keysOf _ _).2 ⟨_, alookup_mem _ _ _ hlo⟩
          have hbo1 : alookup o₀ m1.by_option = some (insertSorted s lo) := by
            rw [hm1]
            exact alookup_aupdate_self o₀ (insertSorted s lo) m.by_option hokey
          have hlen := hcnt' o₀ (insertSorted s lo) lo' hbo1 hlo'
          rw [length_insertSorted_of_not_mem s lo hsl] at hlen
          have hmapc : ((s, o₀) :: rest).map Prod.snd = o₀ :: rest.map Prod.snd := rfl
          rw [hmapc, List.count_cons, if_pos (by simp)]
          omega
        · have hbo1 : alookup o₀ m1.by_option = some lo := by
            rw [hm1]
            rw [alookup_aupdate_of_ne o₀ o (insertSorted s l) m.by_option
              (fun he => hoo he.symm)]
            exact hlo
          have hlen := hcnt' o₀ lo lo' hbo1 hlo'
          have hmapc : ((s, o) :: rest).map Prod.snd = o :: rest.map Prod.snd := rfl
          rw [hmapc, List.count_cons,
            if_neg (fun hbeq => hoo (beq_iff_eq.1 hbeq).symm)]
          omega

/-- An `erase` of a student not named in the pair list commutes backwards over
a sequence of assigns. -/
theorem erase_assign_seq_comm (students : List ASN.Student)
    (options : List String) (K : Nat) (qs : List (String × String)) :
    ∀ m mA mB : ASN.Matching, ∀ s : String,
      s ∉ qs.map Prod.fst → ASN.Valid students options K m →
      assign_seq m qs = .ok mA → mA.erase s = .ok mB →
      ∃ mC, m.erase s = .ok mC ∧ assign_seq mC qs = .ok mB := by
  induction qs with
  | nil =>
    intro m mA mB s _ _ h1 h2
    have hm : mA = m := (Except.ok.inj h1).symm
    subst hm
    exact ⟨mB, h2, rfl⟩
  | cons q rest ih =>
    obtain ⟨s1, o1⟩ := q
    intro m mA mB s hs hv h1 h2
    simp only [List.map_cons, List.mem_cons, not_or] at hs
    simp only [assign_seq] at h1
    cases has : m.assign s1 o1 with
    | error e => rw [has] at h1; exact Except.noConfusion h1
    | ok m1 =>
      rw [has] at h1
      have hv1 := (assign_valid students options K m m1 s1 o1 hv has).1
      obtain ⟨mC1, hC1e, hC1a⟩ := ih m1 mA mB s hs.2 hv1 h1 h2
      obtain ⟨hk1, hk2, hk3, hnd, hond, hch, hcm, hsort, hcons, hlm⟩ := hv
      have hnd2 : (keysOf m.by_option).Nodup := by rw [hk2]; exact hond
      obtain ⟨mC, hCe, hCa⟩ :=
        erase_assign_comm m m1 mC1 s s1 o1 hs.1 hnd2 hsort has hC1e
      refine ⟨mC, hCe, ?_⟩
      simp only [assign_seq, hCa]
      exact hC1a

/-- A matched, unlocked student can always be erased in a valid state. -/
theorem erase_total (students : List ASN.Student) (options : List String)
    (K : Nat) (m : ASN.Matching) (s o : String)
    (hv : ASN.Valid students options K m)
    (hbs : alookup s m.by_student = some (some o))
    (hlk : alookup s m.student_locked = some false) :
    ∃ m', m.erase s = .ok m' := by
  obtain ⟨hk1, hk2, hk3, hnd, hond, hch, hcm, hsort, hcons, hlm⟩ := hv
  obtain ⟨l, hbo, hmem⟩ := consistent_alookup_fwd _ _ hcons s o hbs
  refine ⟨{ m with by_option := aupdate o (removeStr s l) m.by_option,
                   by_student := aupdate s none m.by_student }, ?_⟩
  simp only [ASN.Matching.erase, hbs, hlk, hbo, hmem, if_true]

/-- Erasing the assigned students, in assignment order, undoes a sequence of
assigns exactly. -/
theorem assign_seq_undo (students : List ASN.Student) (options : List String)
    (K : Nat) (qs : List (String × String)) :
    ∀ m m' : ASN.Matching, ASN.Valid students options K m →
      assign_seq m qs = .ok m' →
      ASN.Matching.erase_many m' (qs.map Prod.fst) = .ok m := by
  induction qs with
  | nil =>
    intro m m' _ h
    rw [← Except.ok.inj h]
    rfl
  | cons q rest ih =>
    obtain ⟨s, o⟩ := q
    intro m m' hv h
    simp only [assign_seq] at h
    cases has : m.assign s o with
    | error e => rw [has] at h; exact Except.noConfusion h
    | ok m1 =>
      rw [has] at h
      have hv1 := (assign_valid students options K m m1 s o hv has).1
      obtain ⟨hvr, hlock', hunm', hnd', hrec', hunt', hcnt'⟩ :=
        assign_seq_spec students options K rest m1 m' hv1 h
      rcases assign_ok m m1 s o has with ⟨hbs, hlkf, l, hbo, hm1⟩
      have hskey : s ∈ keysOf m.by_student :=
        (mem_keysOf _ _).2 ⟨_, alookup_mem _ _ _ hbs⟩
      have hbs1 : alookup s m1.by_student = some (some o) := by
        rw [hm1]
        exact alookup_aupdate_self s (some o) m.by_student hskey
      have hsnot : s ∉ rest.map Prod.fst := by
        intro hin
        have h0 := hunm' s hin
        rw [hbs1] at h0
        exact Option.noConfusion (Option.some.inj h0)
      have hbs' : alookup s m'.by_student = some (some o) := by
        rw [hunt' s hsnot]
        exact hbs1
      have hlk' : alookup s m'.student_locked = some false := by
        rw [hlock', hm1]
        exact hlkf
      obtain ⟨mB, hmB⟩ := erase_total students options K m' s o hvr hbs' hlk'
      obtain ⟨mC, hCe, hCa⟩ :=
        erase_assign_seq_comm students options K rest m1 m' mB s hsnot hv1 h hmB
      obtain ⟨hk1, hk2, hk3, hnd, hond, hch, hcm, hsort, hcons, hlm⟩ := hv
      have hnd1 : (keysOf m.by_student).Nodup := by rw [hk1]; exact hnd
      have hnd2 : (keysOf m.by_option).Nodup := by rw [hk2]; exact hond
      have hundo : m1.erase s = .ok m :=
        erase_assign_undo m m1 s o hnd1 hnd2 hsort hcons has
      rw [hCe] at hundo
      have hmC : mC = m := Except.ok.inj hundo
      rw [hmC] at hCa
      show ASN.Matching.erase_many m' (s :: rest.map Prod.fst) = .ok m
      simp only [ASN.Matching.erase_many, hmB]
      exact ih m mB ⟨hk1, hk2, hk3, hnd, hond, hch, hcm, hsort, hcons, hlm⟩ hCa

/-- An unmatched, unlocked student can always be assigned to a known option in
a valid state. -/
theorem assign_total (students : List ASN.Student) (options : List String)
    (K : Nat) (m : ASN.Matching) (s o : String)
    (hv : ASN.Valid students options K m)
    (hbs : alookup s m.by_student = some none)
    (hlk : alookup s m.student_locked = some false)
    (ho : o ∈ options) :
    ∃ m', m.assign s o = .ok m' := by
  obtain ⟨hk1, hk2, hk3, hnd, hond, hch, hcm, hsort, hcons, hlm⟩ := hv
  have hkey : o ∈ keysOf m.by_option := by rw [hk2]; exact ho
  obtain ⟨l, hbo⟩ :=
    Option.isSome_iff_exists.1 ((alookup_isSome o m.by_option).2 hkey)
  refine ⟨{ m with by_option := aupdate o (insertSorted s l) m.by_option,
                   by_student := aupdate s (some o) m.by_student }, ?_⟩
  simp only [ASN.Matching.assign, hbs, hlk, hbo]

/-- An `assign` of a student not named in the list commutes backwards over a
sequence of erases. -/
theorem assign_erase_seq_comm (students : List ASN.Student)
    (options : List String) (K : Nat) (names : List String) :
    ∀ m mA mB : ASN.Matching, ∀ s o : String,
      s ∉ names → ASN.Valid students options K m →
      ASN.Matching.erase_many m names = .ok mA → mA.assign s o = .ok mB →
      ∃ mC, m.assign s o = .ok mC ∧ ASN.Matching.erase_many mC names = .ok mB := by
  induction names with
  | nil =>
    intro m mA mB s o _ _ h1 h2
    have hm : mA = m := (Except.ok.inj h1).symm
    subst hm
    exact ⟨mB, h2, rfl⟩
  | cons s1 rest ih =>
    intro m mA mB s o hs hv h1 h2
    simp only [List.mem_cons, not_or] at hs
    simp only [ASN.Matching.erase_many] at h1
    cases hes : m.erase s1 with
    | error e => rw [hes] at h1; exact Except.noConfusion h1
    | ok m1 =>
      rw [hes] at h1
      have hv1 := (erase_valid students options K m m1 s1 hv hes).1
      obtain ⟨mC1, hC1a, hC1e⟩ := ih m1 mA mB s o hs.2 hv1 h1 h2
      obtain ⟨hk1, hk2, hk3, hnd, hond, hch, hcm, hsort, hcons, hlm⟩ := hv
      have hnd2 : (keysOf m.by_option).Nodup := by rw [hk2]; exact hond
      obtain ⟨mC, hCa, hCe⟩ :=
        assign_erase_comm m m1 mC1 s s1 o hs.1 hnd2 hsort hes hC1a
      refine ⟨mC, hCa, ?_⟩
      simp only [ASN.Matching.erase_many, hCe]
      exact hC1e

/-- Success characterization of `erase_many`: validity is preserved, locks
untouched, the erased students were matched and distinct, they end unmatched,
untouched students keep their match, and each option set shrinks by the number
of erased students matched to it. -/
theorem erase_many_spec (students : List ASN.Student) (options : List String)
    (K : Nat) (names : List String) :
    ∀ m m' : ASN.Matching, ASN.Valid students options K m →
      ASN.Matching.erase_many m names = .ok m' →
      ASN.Valid students options K m' ∧
      m'.student_locked = m.student_locked ∧
      (∀ x ∈ names, ∃ o, alookup x m.by_student = some (some o)) ∧
      names.Nodup ∧
      (∀ x ∈ names, alookup x m'.by_student = some none) ∧
      (∀ x, x ∉ names → alookup x m'.by_student = alookup x m.by_student) ∧
      (∀ o lo lo', alookup o m.by_option = some lo →
        alookup o m'.by_option = some lo' →
        lo.length = lo'.length +
          names.countP (fun x => decide (alookup x m.by_student = some (some o)))) := by
  induction names with
  | nil =>
    intro m m' hv h
    have hm : m' = m := (Except.ok.inj h).symm
    subst hm
    refine ⟨hv, rfl, by simp, by simp, by simp, fun x _ => rfl, ?_⟩
    intro o lo lo' h1 h2
    rw [h1] at h2
    simp [Option.some.inj h2]
  | cons s rest ih =>
    intro m m' hv h
    simp only [ASN.Matching.erase_many] at h
    cases hes : m.erase s with
    | error e => rw [hes] at h; exact Except.noConfusion h
    | ok m1 =>
      rw [hes] at h
      have hv1 := (erase_valid students options K m m1 s hv hes).1
      obtain ⟨hvr, hlock', hmat', hnd', hgone', hunt', hcnt'⟩ := ih m1 m' hv1 h
      obtain ⟨hk1, hk2, hk3, hnd, hond, hch, hcm, hsort, hcons, hlm⟩ := hv
      rcases erase_ok m m1 s hes with ⟨o₀, hbs, hlkf, l, hbo, hmeml, hm1⟩
      have hskey : s ∈ keysOf m.by_student :=
        (mem_keysOf _ _).2 ⟨_, alookup_mem _ _ _ hbs⟩
      have hbs1 : alookup s m1.by_student = some none := by
        rw [hm1]
        exact alookup_aupdate_self s none m.by_student hskey
      have hsnot : s ∉ rest := by
        intro hin
        obtain ⟨o, h0⟩ := hmat' s hin
        rw [hbs1] at h0
        exact Option.noConfusion (Option.some.inj h0)
      have hbs1_ne : ∀ x, x ≠ s →
          alookup x m1.by_student = alookup x m.by_student := by
        intro x hx
        rw [hm1]
        exact alookup_aupdate_of_ne x s none m.by_student (fun he => hx he.symm)
      refine ⟨hvr, by rw [hlock', hm1], ?_, ?_, ?_, ?_, ?_⟩
      · intro x hx
        rcases List.mem_cons.1 hx with rfl | hx'
        · exact ⟨o₀, hbs⟩
        · by_cases hxs : x = s
          · subst hxs; exact ⟨o₀, hbs⟩
          · obtain ⟨o, h0⟩ := hmat' x hx'
            exact ⟨o, by rw [← hbs1_ne x hxs]; exact h0⟩
      · exact List.nodup_cons.2 ⟨hsnot, hnd'⟩
      · intro x hx
        rcases List.mem_cons.1 hx with rfl | hx'
        · rw [hunt' x hsnot]
          exact hbs1
        · exact hgone' x hx'
      · intro x hx
        simp only [List.mem_cons, not_or] at hx
        rw [hunt' x hx.2]
        exact hbs1_ne x hx.1
      · intro o lo lo' hlo hlo'
        have hcongr : rest.countP
              (fun x => decide (alookup x m1.by_student = some (some o))) =
            rest.countP
              (fun x => decide (alookup x m.by_student = some (some o))) := by
          refine List.countP_congr fun x hx => ?_
          have hxs : x ≠ s := fun he => hsnot (he ▸ hx)
          rw [hbs1_ne x hxs]
        by_cases hoo : o = o₀
        · subst hoo
          have hlol : lo = l := by
            rw [hlo] at hbo
            exact Option.some.inj hbo
          subst hlol
          have hokey : o ∈ keysOf m.by_option :=
            (mem_keysOf _ _).2 ⟨_, alookup_mem _ _ _ hlo⟩
          have hbo1 : alookup o m1.by_option = some (removeStr s lo) := by
            rw [hm1]
            exact alookup_aupdate_self o (removeStr s lo) m.by_option hokey
          have hlen := hcnt' o (removeStr s lo) lo' hbo1 hlo'
          rw [hcongr] at hlen
          have hnds : lo.Nodup := (hsort (o, lo) (alookup_mem _ _ _ hlo)).nodup
          have hrl := length_removeStr_of_mem s lo hnds hmeml
          have hps : (decide (alookup s m.by_student = some (some o))) = true := by
            simp [hbs]
          rw [List.countP_cons_of_pos
            (fun x => decide (alookup x m.by_student = some (some o))) rest hps]
          omega
        · have hbo1 : alookup o m1.by_option = some lo := by
            rw [hm1]
            rw [alookup_aupdate_of_ne o o₀ (removeStr s l) m.by_option
              (fun he => hoo he.symm)]
            exact hlo
          have hlen := hcnt' o lo lo' hbo1 hlo'
          rw [hcongr] at hlen
          have hps : ¬ (decide (alookup s m.by_student = some (some o))) = true := by
            simp only [hbs, decide_eq_true_eq]
            intro he
            exact hoo (Option.some.inj (Option.some.inj he)).symm
          rw [List.countP_cons_of_neg
            (fun x => decide (alookup x m.by_student = some (some o))) rest hps]
          omega

/-- Re-assigning the erased students to their saved matches, in erase order,
undoes an `erase_many` exactly. This is the shape of the engine's
save-and-restore of trim groups. -/
theorem erase_many_undo (students : List ASN.Student) (options : List String)
    (K : Nat) (names : List String) :
    ∀ m m' : ASN.Matching, ASN.Valid students options K m →
      ASN.Matching.erase_many m names = .ok m' →
      ASN.Matching.assign_pairs m'
        (names.map (fun s => (s, matchedTo m.by_student s))) = .ok m := by
  induction names with
  | nil =>
    intro m m' _ h
    rw [← Except.ok.inj h]
    rfl
  | cons s rest ih =>
    intro m m' hv h
    simp only [ASN.Matching.erase_many] at h
    cases hes : m.erase s with
    | error e => rw [hes] at h; exact Except.noConfusion h
    | ok m1 =>
      rw [hes] at h
      have hv1 := (erase_valid students options K m m1 s hv hes).1
      obtain ⟨hvr, hlock', hmat', hnd', hgone', hunt', hcnt'⟩ :=
        erase_many_spec students options K rest m1 m' hv1 h
      rcases erase_ok m m1 s hes with ⟨o₀, hbs, hlkf, l, hbo, hmeml, hm1⟩
      have hskey : s ∈ keysOf m.by_student :=
        (mem_keysOf _ _).2 ⟨_, alookup_mem _ _ _ hbs⟩
      have hbs1 : alookup s m1.by_student = some none := by
        rw [hm1]
        exact alookup_aupdate_self s none m.by_student hskey
      have hsnot : s ∉ rest := by
        intro hin
        obtain ⟨o, h0⟩ := hmat' s hin
        rw [hbs1] at h0
        exact Option.noConfusion (Option.some.inj h0)
      have hbs' : alookup s m'.by_student = some none := by
        rw [hunt' s hsnot]
        exact hbs1
      have hlk' : alookup s m'.student_locked = some false := by
        rw [hlock', hm1]
        exact hlkf
      have ho₀ : o₀ ∈ options := by
        obtain ⟨hk1, hk2, hk3, hnd, hond, hch, hcm, hsort, hcons, hlm⟩ := hv
        rw [← hk2]
        exact (mem_keysOf _ _).2 ⟨_, alookup_mem _ _ _ hbo⟩
      obtain ⟨mB, hmB⟩ := assign_total students options K m' s o₀ hvr hbs' hlk' ho₀
      obtain ⟨mC, hCa, hCe⟩ :=
        assign_erase_seq_comm students options K rest m1 m' mB s o₀ hsnot hv1 h hmB
      obtain ⟨hk1, hk2, hk3, hnd, hond, hch, hcm, hsort, hcons, hlm⟩ := hv
      have hnd1 : (keysOf m.by_student).Nodup := by rw [hk1]; exact hnd
      have hnd2 : (keysOf m.by_option).Nodup := by rw [hk2]; exact hond
      have hundo : m1.assign s o₀ = .ok m :=
        assign_erase_undo m m1 s o₀ hnd1 hnd2 hsort hbs hes
      rw [hCa] at hundo
      have hmC : mC = m := Except.ok.inj hundo
      rw [hmC] at hCe
      have hmt : matchedTo m.by_student s = some o₀ := by
        simp [matchedTo, hbs]
      show ASN.Matching.assign_pairs m'
        ((s, matchedTo m.by_student s) ::
          rest.map (fun x => (x, matchedTo m.by_student x))) = .ok m
      rw [hmt]
      simp only [ASN.Matching.assign_pairs, ASN.Matching.assign_opt, hmB]
      exact ih m mB ⟨hk1, hk2, hk3, hnd, hond, hch, hcm, hsort, hcons, hlm⟩ hCe

theorem assign_seq_append (a b : List (String × String)) :
    ∀ m m1 m2 : ASN.Matching, assign_seq m a = .ok m1 →
      assign_seq m1 b = .ok m2 → assign_seq m (a ++ b) = .ok m2 := by
  induction a with
  | nil =>
    intro m m1 m2 h1 h2
    rw [← Except.ok.inj h1] at h2
    exact h2
  | cons q rest ih =>
    intro m m1 m2 h1 h2
    obtain ⟨s, o⟩ := q
    rw [List.cons_append]
    simp only [assign_seq] at h1 ⊢
    cases has : m.assign s o with
    | error e => rw [has] at h1; exact Except.noConfusion h1
    | ok mm =>
      rw [has] at h1
      exact ih mm m1 m2 h1 h2

theorem erase_many_append (a b : List String) :
    ∀ m m1 m2 : ASN.Matching, ASN.Matching.erase_many m a = .ok m1 →
      ASN.Matching.erase_many m1 b = .ok m2 →
      ASN.Matching.erase_many m (a ++ b) = .ok m2 := by
  induction a with
  | nil =>
    intro m m1 m2 h1 h2
    rw [← Except.ok.inj h1] at h2
    exact h2
  | cons s rest ih =>
    intro m m1 m2 h1 h2
    rw [List.cons_append]
    simp only [ASN.Matching.erase_many] at h1 ⊢
    cases hes : m.erase s with
    | error e => rw [hes] at h1; exact Except.noConfusion h1
    | ok mm =>
      rw [hes] at h1
      exact ih mm m1 m2 h1 h2

/-- Unlocking a freshly locked student restores the state exactly. -/
theorem lock_unlock_undo (m m' : ASN.Matching) (s : String)
    (hnd : (keysOf m.student_locked).Nodup) (h : m.lock s = .ok m') :
    m'.unlock s = .ok m := by
  rcases lock_ok m m' s h with ⟨hlkf, rfl⟩
  have hkey : s ∈ keysOf m.student_locked :=
    (mem_keysOf _ _).2 ⟨_, alookup_mem _ _ _ hlkf⟩
  simp only [ASN.Matching.unlock, alookup_aupdate_self s true m.student_locked hkey,
    aupdate_aupdate, aupdate_self_eq s false m.student_locked hnd hlkf]

/-- Pointwise restoration: unlocking the recorded list of students restores
the lock map exactly when the other two maps are untouched. -/
theorem unlock_many_restore (ws : List String) :
    ∀ m2 m : ASN.Matching,
      (keysOf m.student_locked).Nodup →
      m2.by_student = m.by_student →
      m2.by_option = m.by_option →
      keysOf m2.student_locked = keysOf m.student_locked →
      ws.Nodup →
      (∀ s ∈ ws, alookup s m.student_locked = some false ∧
        alookup s m2.student_locked = some true) →
      (∀ x, x ∉ ws → alookup x m2.student_locked = alookup x m.student_locked) →
      ASN.Matching.unlock_many m2 ws = .ok m := by
  induction ws with
  | nil =>
    intro m2 m hnd hbs hbo hk _ _ hunt
    have hlk : m2.student_locked = m.student_locked := by
      refine assoc_ext _ _ hk (by rw [hk]; exact hnd) fun k =>
        hunt k (List.not_mem_nil k)
    have hm : m2 = m := by
      calc m2 = ⟨m2.by_student, m2.by_option, m2.student_locked⟩ := rfl
        _ = ⟨m.by_student, m.by_option, m.student_locked⟩ := by rw [hbs, hbo, hlk]
        _ = m := rfl
    rw [hm]
    rfl
  | cons s ws ih =>
    intro m2 m hnd hbs hbo hk hndw hws hunt
    have hs2 : alookup s m2.student_locked = some true := (hws s (by simp)).2
    have hs1 : alookup s m.student_locked = some false := (hws s (by simp)).1
    rw [List.nodup_cons] at hndw
    simp only [ASN.Matching.unlock_many, ASN.Matching.unlock, hs2]
    refine ih _ m hnd hbs hbo ?_ hndw.2 ?_ ?_
    · show keysOf (aupdate s false m2.student_locked) = _
      rw [keysOf_aupdate]
      exact hk
    · intro x hx
      have hxs : x ≠ s := fun he => hndw.1 (he ▸ hx)
      refine ⟨(hws x (List.mem_cons_of_mem _ hx)).1, ?_⟩
      show alookup x (aupdate s false m2.student_locked) = some true
      rw [alookup_aupdate_of_ne x s false m2.student_locked (fun he => hxs he.symm)]
      exact (hws x (List.mem_cons_of_mem _ hx)).2
    · intro x hx
      by_cases hxs : x = s
      · subst hxs
        show alookup x (aupdate x false m2.student_locked) = _
        have hkey : x ∈ keysOf m2.student_locked :=
          (mem_keysOf _ _).2 ⟨_, alookup_mem _ _ _ hs2⟩
        rw [alookup_aupdate_self x false m2.student_locked hkey, hs1]
      · show alookup x (aupdate s false m2.student_locked) = _
        rw [alookup_aupdate_of_ne x s false m2.student_locked (fun he => hxs he.symm)]
        refine hunt x ?_
        intro hin
        rcases List.mem_cons.1 hin with he | hin'
        · exact hxs he
        · exact hx hin'

/-- Success characterization of the `lock_all_matched` loop: the returned list
extends the accumulator with a duplicate-free list of students that were
matched and unlocked and are now locked; nothing else changes. -/
theorem lock_all_aux_spec (items : List (String × Option String)) :
    ∀ (cur m2 : ASN.Matching) (acc out : List String),
      (keysOf cur.student_locked).Nodup →
      ASN.lock_all_aux cur items acc = .ok (m2, out) →
      ∃ ws, out = acc ++ ws ∧ ws.Nodup ∧
        m2.by_student = cur.by_student ∧
        m2.by_option = cur.by_option ∧
        keysOf m2.student_locked = keysOf cur.student_locked ∧
        (∀ s ∈ ws, alookup s cur.student_locked = some false ∧
          alookup s m2.student_locked = some true ∧
          ∃ o, alookup s cur.by_student = some (some o)) ∧
        (∀ x, x ∉ ws → alookup x m2.student_locked = alookup x cur.student_locked) := by
  induction items with
  | nil =>
    intro cur m2 acc out _ h
    have hp := Except.ok.inj h
    injection hp with h1 h2
    subst h1
    subst h2
    exact ⟨[], by simp, by simp, rfl, rfl, rfl, by simp, fun x _ => rfl⟩
  | cons p rest ih =>
    intro cur m2 acc out hnd h
    simp only [ASN.lock_all_aux] at h
    cases hbm : alookup p.1 cur.by_student with
    | none =>
      rw [ASN.Matching.is_matched, hbm] at h
      exact Except.noConfusion h
    | some v =>
      rw [ASN.Matching.is_matched, hbm] at h
      cases v with
      | none =>
        exact ih cur m2 acc out hnd h
      | some o =>
        cases hbl : alookup p.1 cur.student_locked with
        | none =>
          rw [ASN.Matching.is_locked, hbl] at h
          exact Except.noConfusion h
        | some b =>
          rw [ASN.Matching.is_locked, hbl] at h
          cases b with
          | true =>
            exact ih cur m2 acc out hnd h
          | false =>
            rw [ASN.Matching.lock, hbl] at h
            have hkey : p.1 ∈ keysOf cur.student_locked :=
              (mem_keysOf _ _).2 ⟨_, alookup_mem _ _ _ hbl⟩
            have hnd' : (keysOf (aupdate p.1 true cur.student_locked)).Nodup := by
              rw [keysOf_aupdate]
              exact hnd
            obtain ⟨ws', hout, hndw, hbs2, hbo2, hk2, hws, hunt⟩ :=
              ih _ m2 (acc ++ [p.1]) out hnd' h
            have hlkc : alookup p.1 (aupdate p.1 true cur.student_locked) =
                some true := alookup_aupdate_self p.1 true cur.student_locked hkey
            have hpnot : p.1 ∉ ws' := by
              intro hin
              have h0 := (hws p.1 hin).1
              rw [hlkc] at h0
              exact Bool.noConfusion (Option.some.inj h0)
            refine ⟨p.1 :: ws', ?_, List.nodup_cons.2 ⟨hpnot, hndw⟩,
              hbs2, hbo2, by rw [hk2]; exact keysOf_aupdate _ _ _, ?_, ?_⟩
            · rw [hout, List.append_assoc, List.singleton_append]
            · intro s hs
              rcases List.mem_cons.1 hs with rfl | hs'
              · exact ⟨hbl, by rw [hunt p.1 hpnot]; exact hlkc, ⟨o, hbm⟩⟩
              · have hsp : s ≠ p.1 := by
                  intro he
                  exact hpnot (he ▸ hs')
                refine ⟨?_, (hws s hs').2.1, ?_⟩
                · have h0 := (hws s hs').1
                  rwa [alookup_aupdate_of_ne s p.1 true cur.student_locked
                    (fun he => hsp he.symm)] at h0
                · exact (hws s hs').2.2
            · intro x hx
              simp only [List.mem_cons, not_or] at hx
              rw [hunt x hx.2]
              exact alookup_aupdate_of_ne x p.1 true cur.student_locked
                (fun he => hx.1 he.symm)

/-- `lock_all_matched` locks exactly a duplicate-free list of matched,
previously unlocked students, changes nothing else, preserves validity, and
is undone exactly by `unlock_many` of the returned list. -/
theorem lock_all_matched_spec (students : List ASN.Student)
    (options : List String) (K : Nat) (m m2 : ASN.Matching) (ws : List String)
    (hv : ASN.Valid students options K m)
    (h : m.lock_all_matched = .ok (m2, ws)) :
    ASN.Valid students options K m2 ∧
    m2.by_student = m.by_student ∧ m2.by_option = m.by_option ∧
    ws.Nodup ∧
    (∀ s ∈ ws, alookup s m.student_locked = some false ∧
      alookup s m2.student_locked = some true ∧
      ∃ o, alookup s m.by_student = some (some o)) ∧
    (∀ x, x ∉ ws → alookup x m2.student_locked = alookup x m.student_locked) ∧
    ASN.Matching.unlock_many m2 ws = .ok m := by
  obtain ⟨hk1, hk2, hk3, hnd, hond, hch, hcm, hsort, hcons, hlm⟩ := hv
  have hndl : (keysOf m.student_locked).Nodup := by rw [hk3]; exact hnd
  obtain ⟨ws', hout, hndw, hbs2, hbo2, hklk, hws, hunt⟩ :=
    lock_all_aux_spec m.by_student m m2 [] ws hndl h
  have hws0 : ws = ws' := by rw [hout]; rfl
  subst hws0
  have hvalid : ASN.Valid students options K m2 := by
    refine ⟨by rw [hbs2]; exact hk1, by rw [hbo2]; exact hk2,
      by rw [hklk]; exact hk3, hnd, hond, hch, hcm,
      by rw [hbo2]; exact hsort, ?_, ?_⟩
    · show consistentMaps m2.by_student m2.by_option
      rw [hbs2, hbo2]
      exact hcons
    · intro p hp hpt
      have hlk2 : alookup p.1 m2.student_locked = some p.2 := by
        refine mem_alookup p.1 m2.student_locked p.2 ?_ hp
        rw [hklk, hk3]
        exact hnd
      by_cases hin : p.1 ∈ ws
      · obtain ⟨o, ho⟩ := (hws p.1 hin).2.2
        rw [hbs2]
        simp [matchedTo, ho]
      · rw [hunt p.1 hin, hpt] at hlk2
        have hpm : (p.1, true) ∈ m.student_locked := alookup_mem _ _ _ hlk2
        have := hlm (p.1, true) hpm rfl
        rw [hbs2]
        exact this
  refine ⟨hvalid, hbs2, hbo2, hndw, ?_, hunt, ?_⟩
  · intro s hs
    exact ⟨(hws s hs).1, (hws s hs).2.1, (hws s hs).2.2⟩
  · exact unlock_many_restore ws m2 m hndl hbs2 hbo2
      (by rw [hklk]) hndw
      (fun s hs => ⟨(hws s hs).1, (hws s hs).2.1⟩) hunt

/-- The trim saving loop for one group equals `erase_many` on the group and
saves exactly the pre-state matches of the erased students. -/
theorem erase_group_spec (students : List ASN.Student) (options : List String)
    (K : Nat) (g : List String) :
    ∀ (m m' : ASN.Matching) (saved : List (String × Option String)),
      ASN.Valid students options K m →
      ASN.erase_group m g = .ok (m', saved) →
      ASN.Matching.erase_many m g = .ok m' ∧
      saved = g.map (fun s => (s, matchedTo m.by_student s)) := by
  induction g with
  | nil =>
    intro m m' saved _ h
    have hp := Except.ok.inj h
    injection hp with h1 h2
    subst h1
    subst h2
    exact ⟨rfl, rfl⟩
  | cons s g ih =>
    intro m m' saved hv h
    simp only [ASN.erase_group] at h
    cases hgm : m.get_match s with
    | error e => rw [hgm] at h; exact Except.noConfusion h
    | ok v =>
      rw [hgm] at h
      cases hes : m.erase s with
      | error e => rw [hes] at h; exact Except.noConfusion h
      | ok m1 =>
        rw [hes] at h
        have hred : (match ASN.erase_group m1 g with
            | Except.error e => Except.error e
            | Except.ok (m2, sv) => Except.ok (m2, (s, v) :: sv)) =
            Except.ok (m', saved) := h
        cases heg : ASN.erase_group m1 g with
        | error e => rw [heg] at hred; exact Except.noConfusion hred
        | ok pr =>
          rw [heg] at hred
          obtain ⟨m2, saved'⟩ := pr
          have hp := Except.ok.inj hred
          injection hp with h1 h2
          subst h1
          subst h2
          have hv1 := (erase_valid students options K m m1 s hv hes).1
          obtain ⟨hem, hsv⟩ := ih m1 m2 saved' hv1 heg
          obtain ⟨_, _, hmat', _, _, hunt', _⟩ :=
            erase_many_spec students options K g m1 m2 hv1 hem
          rcases erase_ok m m1 s hes with ⟨o₀, hbs, hlkf, l, hbo, hmeml, hm1⟩
          have hskey : s ∈ keysOf m.by_student :=
            (mem_keysOf _ _).2 ⟨_, alookup_mem _ _ _ hbs⟩
          have hbs1 : alookup s m1.by_student = some none := by
            rw [hm1]
            exact alookup_aupdate_self s none m.by_student hskey
          have hsnot : s ∉ g := by
            intro hin
            obtain ⟨o, h0⟩ := hmat' s hin
            rw [hbs1] at h0
            exact Option.noConfusion (Option.some.inj h0)
          have hvv : v = some o₀ := by
            rw [ASN.Matching.get_match, hbs] at hgm
            exact (Except.ok.inj hgm).symm
          refine ⟨?_, ?_⟩
          · show ASN.Matching.erase_many m (s :: g) = .ok m2
            simp only [ASN.Matching.erase_many, hes]
            exact hem
          · rw [List.map_cons]
            have hmt : matchedTo m.by_student s = some o₀ := by
              simp [matchedTo, hbs]
            rw [hmt, ← hvv]
            congr 1
            rw [hsv]
            refine List.map_congr_left fun x hx => ?_
            have hxs : x ≠ s := fun he => hsnot (he ▸ hx)
            have hlk : alookup x m1.by_student = alookup x m.by_student := by
              rw [hm1]
              exact alookup_aupdate_of_ne x s none m.by_student
                (fun he => hxs he.symm)
            rw [matchedTo, matchedTo, hlk]

/-- The full trim saving loop equals `erase_many` on the flattened groups and
saves exactly the pre-state matches of the erased students, in order. -/
theorem erase_trim_spec (students : List ASN.Student) (options : List String)
    (K : Nat) (gs : List (List String)) :
    ∀ (m m' : ASN.Matching) (saved : List (String × Option String)),
      ASN.Valid students options K m →
      ASN.erase_trim m gs = .ok (m', saved) →
      ASN.Matching.erase_many m gs.flatten = .ok m' ∧
      saved = gs.flatten.map (fun s => (s, matchedTo m.by_student s)) := by
  induction gs with
  | nil =>
    intro m m' saved _ h
    have hp := Except.ok.inj h
    injection hp with h1 h2
    subst h1
    subst h2
    exact ⟨rfl, rfl⟩
  | cons g gs ih =>
    intro m m' saved hv h
    simp only [ASN.erase_trim] at h
    cases heg : ASN.erase_group m g with
    | error e => rw [heg] at h; exact Except.noConfusion h
    | ok pr1 =>
      rw [heg] at h
      obtain ⟨m1, saved1⟩ := pr1
      have hred : (match ASN.erase_trim m1 gs with
          | Except.error e => Except.error e
          | Except.ok (m2, sv2) => Except.ok (m2, saved1 ++ sv2)) =
          Except.ok (m', saved) := h
      cases het : ASN.erase_trim m1 gs with
      | error e => rw [het] at hred; exact Except.noConfusion hred
      | ok pr2 =>
        rw [het] at hred
        obtain ⟨m2, saved2⟩ := pr2
        have hp := Except.ok.inj hred
        injection hp with h1 h2
        subst h1
        subst h2
        obtain ⟨hem1, hsv1⟩ := erase_group_spec students options K g m m1 saved1 hv heg
        obtain ⟨_, _, _, _, hgone1, hunt1, _⟩ :=
          erase_many_spec students options K g m m1 hv hem1
        have hv1 : ASN.Valid students options K m1 :=
          (erase_many_spec students options K g m m1 hv hem1).1
        obtain ⟨hem2, hsv2⟩ := ih m1 m2 saved2 hv1 het
        obtain ⟨_, _, hmat2, _, _, _, _⟩ :=
          erase_many_spec students options K gs.flatten m1 m2 hv1 hem2
        refine ⟨?_, ?_⟩
        · rw [List.flatten_cons]
          exact erase_many_append g gs.flatten m m1 m2 hem1 hem2
        · rw [List.flatten_cons, List.map_append, hsv1, hsv2]
          congr 1
          refine List.map_congr_left fun x hx => ?_
          have hxg : x ∉ g := by
            intro hin
            obtain ⟨o, h0⟩ := hmat2 x hx
            rw [hgone1 x hin] at h0
            exact Option.noConfusion (Option.some.inj h0)
          rw [matchedTo, matchedTo, hunt1 x hxg]

theorem combinations_mem (l : List α) : ∀ (k : Nat) (g : List α),
    g ∈ combinations l k → g.length = k ∧ g.Sublist l := by
  induction l with
  | nil =>
    intro k g h
    cases k with
    | zero =>
      rw [List.mem_singleton.1 h]
      exact ⟨rfl, List.Sublist.refl []⟩
    | succ k => exact absurd h (List.not_mem_nil g)
  | cons a l ih =>
    intro k g h
    cases k with
    | zero =>
      rw [List.mem_singleton.1 h]
      exact ⟨rfl, List.nil_sublist _⟩
    | succ k =>
      simp only [combinations, List.mem_append, List.mem_map] at h
      rcases h with ⟨c, hc, rfl⟩ | h
      · obtain ⟨hl, hs⟩ := ih k c hc
        exact ⟨by simp [hl], List.Sublist.cons₂ a hs⟩
      · obtain ⟨hl, hs⟩ := ih (k + 1) g h
        exact ⟨hl, hs.cons a⟩

theorem mem_productList (ls : List (List α)) : ∀ t ∈ productList ls,
    List.Forall₂ (fun x l => x ∈ l) t ls := by
  induction ls with
  | nil =>
    intro t ht
    rw [List.mem_singleton.1 ht]
    exact List.Forall₂.nil
  | cons xs rest ih =>
    intro t ht
    simp only [productList, List.mem_flatten, List.mem_map] at ht
    obtain ⟨L, ⟨x, hx, rfl⟩, hL⟩ := ht
    rcases List.mem_map.1 hL with ⟨t', ht', rfl⟩
    exact List.Forall₂.cons hx (ih t' ht')

/-- The `make_trim_iterable` filter keeps an ordered sublist of unlocked
students. -/
theorem removable_aux_spec (m : ASN.Matching) (l : List String) :
    ∀ r, ASN.removable_aux m l = .ok r →
      r.Sublist l ∧ ∀ s ∈ r, alookup s m.student_locked = some false := by
  induction l with
  | nil =>
    intro r h
    rw [← Except.ok.inj h]
    exact ⟨List.nil_sublist _, by simp⟩
  | cons s l ih =>
    intro r h
    simp only [ASN.removable_aux] at h
    cases hbl : alookup s m.student_locked with
    | none =>
      rw [ASN.Matching.is_locked, hbl] at h
      exact Except.noConfusion h
    | some b =>
      rw [ASN.Matching.is_locked, hbl] at h
      cases b with
      | true =>
        obtain ⟨hs, hlk⟩ := ih r h
        exact ⟨hs.cons s, hlk⟩
      | false =>
        cases hra : ASN.removable_aux m l with
        | error e => rw [hra] at h; exact Except.noConfusion h
        | ok r' =>
          rw [hra] at h
          rw [← Except.ok.inj h]
          obtain ⟨hs, hlk⟩ := ih r' hra
          refine ⟨List.Sublist.cons₂ s hs, ?_⟩
          intro x hx
          rcases List.mem_cons.1 hx with rfl | hx'
          · exact hbl
          · exact hlk x hx'

/-- Success characterization of `make_trim_iterable`. -/
theorem make_trim_iterable_spec (m : ASN.Matching) (o : String) (thr : Nat)
    (tis : List (List String)) (h : m.make_trim_iterable o thr = .ok tis) :
    ∃ l r, alookup o m.by_option = some l ∧ thr < l.length ∧
      ASN.removable_aux m l = .ok r ∧ tis = combinations r (l.length - thr) := by
  unfold ASN.Matching.make_trim_iterable at h
  cases hbo : alookup o m.by_option with
  | none => rw [hbo] at h; exact Except.noConfusion h
  | some l =>
    rw [hbo] at h
    have hred : (if l.length ≤ thr then
        (.error "AssertionError: make_trim_iterable" :
          Except String (List (List String)))
      else
        match ASN.removable_aux m l with
        | .error e => .error e
        | .ok removable => .ok (combinations removable (l.length - thr))) =
        .ok tis := h
    by_cases hlen : l.length ≤ thr
    · rw [if_pos hlen] at hred
      exact Except.noConfusion hred
    · rw [if_neg hlen] at hred
      cases hra : ASN.removable_aux m l with
      | error e => rw [hra] at hred; exact Except.noConfusion hred
      | ok r =>
        rw [hra] at hred
        exact ⟨l, r, rfl, Nat.lt_of_not_le hlen, hra, (Except.ok.inj hred).symm⟩

/-- Every element of the Cartesian product of the trim iterables is, option by
option, a combination produced by `make_trim_iterable`. -/
theorem trim_iterables_spec (m : ASN.Matching) (thr : Nat) (ovf : List String) :
    ∀ tis, ASN.trim_iterables m ovf thr = .ok tis →
      tis.length = ovf.length ∧
      ∀ t ∈ productList tis,
        List.Forall₂ (fun g o => ∃ ti, m.make_trim_iterable o thr = .ok ti ∧
          g ∈ ti) t ovf := by
  induction ovf with
  | nil =>
    intro tis h
    rw [← Except.ok.inj h]
    refine ⟨rfl, fun t ht => ?_⟩
    rw [List.mem_singleton.1 ht]
    exact List.Forall₂.nil
  | cons o os ih =>
    intro tis h
    simp only [ASN.trim_iterables] at h
    cases hmk : m.make_trim_iterable o thr with
    | error e => rw [hmk] at h; exact Except.noConfusion h
    | ok ti =>
      rw [hmk] at h
      cases hrec : ASN.trim_iterables m os thr with
      | error e => rw [hrec] at h; exact Except.noConfusion h
      | ok tis' =>
        rw [hrec] at h
        rw [← Except.ok.inj h]
        obtain ⟨hlen, hall⟩ := ih tis' hrec
        refine ⟨by simp [hlen], fun t ht => ?_⟩
        simp only [productList, List.mem_flatten, List.mem_map] at ht
        obtain ⟨L, ⟨x, hx, rfl⟩, hL⟩ := ht
        rcases List.mem_map.1 hL with ⟨t', ht', rfl⟩
        exact List.Forall₂.cons ⟨ti, hmk, hx⟩ (hall t' ht')

/-- An option absent from `list_overfilled_options` holds at most the
threshold. -/
theorem overfilled_not_mem (m : ASN.Matching) (thr : Nat) (o : String)
    (l : List String) (hbo : alookup o m.by_option = some l)
    (h : o ∉ m.list_overfilled_options thr) : l.length ≤ thr := by
  by_contra hgt
  refine h ?_
  unfold ASN.Matching.list_overfilled_options
  refine List.mem_map.2 ⟨(o, l), List.mem_filter.2 ⟨alookup_mem _ _ _ hbo, ?_⟩, rfl⟩
  simpa using Nat.lt_of_not_le hgt

/-- Over one product element, the number of to-be-erased students matched to
an option is `0` for non-overfilled options and exactly the option's excess
over the threshold for overfilled ones. -/
theorem trim_flatten_countP (m : ASN.Matching) (maxpo : Nat) :
    ∀ (t : List (List String)) (ovf : List String), ovf.Nodup →
      List.Forall₂ (fun g o =>
        (∀ s ∈ g, alookup s m.by_student = some (some o)) ∧
        (∀ lo, alookup o m.by_option = some lo →
          maxpo + g.length = lo.length)) t ovf →
      ∀ o lo, alookup o m.by_option = some lo →
        (o ∉ ovf →
          (t.flatten).countP
            (fun x => decide (alookup x m.by_student = some (some o))) = 0) ∧
        (o ∈ ovf →
          maxpo + (t.flatten).countP
            (fun x => decide (alookup x m.by_student = some (some o))) =
            lo.length) := by
  intro t ovf hnd hf
  induction hf with
  | nil =>
    intro o lo _
    exact ⟨fun _ => rfl, fun h => absurd h (List.not_mem_nil o)⟩
  | @cons g o₀ t' ovf' hgood hf' ih =>
    rw [List.nodup_cons] at hnd
    intro o lo hlo
    have hcntg : ∀ o', o' ≠ o₀ →
        g.countP (fun x => decide (alookup x m.by_student = some (some o'))) = 0 := by
      intro o' hne
      rw [List.countP_eq_zero]
      intro s hs
      simp only [decide_eq_true_eq]
      rw [hgood.1 s hs]
      intro he
      exact hne (Option.some.inj (Option.some.inj he)).symm
    have hcnt0 : g.countP
        (fun x => decide (alookup x m.by_student = some (some o₀))) = g.length := by
      rw [List.countP_eq_length]
      intro s hs
      simp [hgood.1 s hs]
    refine ⟨?_, ?_⟩
    · intro hout
      simp only [List.mem_cons, not_or] at hout
      rw [List.flatten_cons, List.countP_append,
        hcntg o (fun he => hout.1 he), ((ih hnd.2) o lo hlo).1 hout.2]
    · intro hin
      rcases List.mem_cons.1 hin with rfl | hin'
      · rw [List.flatten_cons, List.countP_append, hcnt0,
          ((ih hnd.2) o lo hlo).1 hnd.1]
        rw [Nat.add_zero]
        exact hgood.2 lo hlo
      · have hne : o ≠ o₀ := by
          intro he
          exact hnd.1 (he ▸ hin')
        rw [List.flatten_cons, List.countP_append, hcntg o hne,
          Nat.zero_add]
        exact ((ih hnd.2) o lo hlo).2 hin'

/-- After successfully erasing one product element of the trim iterables,
every option's set size is at most the cap `maxpo`. -/
theorem trim_counts_le (students : List ASN.Student) (options : List String)
    (K maxpo : Nat) (m mE : ASN.Matching)
    (tis : List (List (List String))) (t : List (List String))
    (hv : ASN.Valid students options K m)
    (hti : ASN.trim_iterables m (m.list_overfilled_options maxpo) maxpo = .ok tis)
    (hmem : t ∈ (if 0 < tis.length then productList tis else [[]]))
    (hem : ASN.Matching.erase_many m t.flatten = .ok mE) :
    ASN.CountsLe mE maxpo := by
  obtain ⟨hlenti, hallti⟩ :=
    trim_iterables_spec m maxpo (m.list_overfilled_options maxpo) tis hti
  obtain ⟨hvE, _, _, _, _, _, hcnt⟩ :=
    erase_many_spec students options K t.flatten m mE hv hem
  obtain ⟨hk1, hk2, hk3, hnd, hond, hch, hcm, hsort, hcons, hlm⟩ := hv
  have hnd2 : (keysOf m.by_option).Nodup := by rw [hk2]; exact hond
  have hnd2E : (keysOf mE.by_option).Nodup := by
    rw [hvE.2.1]
    exact hond
  intro q hq
  have hlo' : alookup q.1 mE.by_option = some q.2 :=
    mem_alookup q.1 mE.by_option q.2 hnd2E hq
  have hkeym : q.1 ∈ keysOf m.by_option := by
    rw [hk2, ← hvE.2.1]
    exact (mem_keysOf _ _).2 ⟨_, hq⟩
  obtain ⟨lo, hlo⟩ :=
    Option.isSome_iff_exists.1 ((alookup_isSome q.1 m.by_option).2 hkeym)
  have hcount := hcnt q.1 lo q.2 hlo hlo'
  by_cases hpos : 0 < tis.length
  · rw [if_pos hpos] at hmem
    have hfti := hallti t hmem
    have hgood : List.Forall₂ (fun g o =>
        (∀ s ∈ g, alookup s m.by_student = some (some o)) ∧
        (∀ lo₀, alookup o m.by_option = some lo₀ →
          maxpo + g.length = lo₀.length)) t (m.list_overfilled_options maxpo) := by
      refine hfti.imp fun g o hgo => ?_
      obtain ⟨ti, hmk, hgti⟩ := hgo
      obtain ⟨l, r, hbo, hlt, hra, rfl⟩ := make_trim_iterable_spec m o maxpo ti hmk
      obtain ⟨hglen, hgsub⟩ := combinations_mem r _ g hgti
      obtain ⟨hrsub, _⟩ := removable_aux_spec m l r hra
      have hsubl : ∀ s ∈ g, s ∈ l := fun s hs =>
        (hrsub.subset) ((hgsub.subset) hs)
      refine ⟨fun s hs => consistent_set_mem _ _ hcons o l hbo s (hsubl s hs), ?_⟩
      intro lo₀ hlo₀
      rw [hlo₀] at hbo
      rw [Option.some.inj hbo]
      omega
    have hndovf : (m.list_overfilled_options maxpo).Nodup := by
      unfold ASN.Matching.list_overfilled_options
      exact List.Nodup.sublist
        (List.Sublist.map Prod.fst (List.filter_sublist m.by_option)) hnd2
    have hT := trim_flatten_countP m maxpo t (m.list_overfilled_options maxpo)
      hndovf hgood q.1 lo hlo
    by_cases hovf : q.1 ∈ m.list_overfilled_options maxpo
    · have := hT.2 hovf
      omega
    · have hz := hT.1 hovf
      have hle := overfilled_not_mem m maxpo q.1 lo hlo hovf
      omega
  · rw [if_neg hpos] at hmem
    have ht0 : t = [] := List.mem_singleton.1 hmem
    subst ht0
    have hovf0 : m.list_overfilled_options maxpo = [] := by
      have : tis.length = 0 := Nat.eq_zero_of_not_pos hpos
      rw [this] at hlenti
      exact List.length_eq_zero.1 hlenti.symm
    have hle := overfilled_not_mem m maxpo q.1 lo hlo (by rw [hovf0]; simp)
    have hflat : ([] : List (List String)).flatten = [] := rfl
    rw [hflat] at hcount
    simp only [List.countP_nil] at hcount
    omega

/-- Inversion of the error-propagating `match` used by every loop of the
engine. -/
theorem except_match_ok {α β : Type} (e : Except String α)
    (f : α → Except String β) (b : β)
    (h : (match e with
          | Except.error s => Except.error s
          | Except.ok a => f a : Except String β) = Except.ok b) :
    ∃ a, e = .ok a ∧ f a = .ok b := by
  cases e with
  | error s => exact Except.noConfusion h
  | ok a => exact ⟨a, rfl, h⟩

/-- Inversion of `update_best`: the kept result is the old best or the new
result. -/
theorem update_best_cases (best new best' :
    Option (List (String × String) × List Int))
    (h : ASN.update_best best new = .ok best') :
    best' = best ∨ best' = new := by
  unfold ASN.update_best at h
  cases best with
  | none => exact Or.inr (Except.ok.inj h).symm
  | some b =>
    cases new with
    | none => exact Except.noConfusion h
    | some n =>
      have hb := (Except.ok.inj h).symm
      by_cases hc : tupleLt b.2 n.2 = true
      · rw [if_pos hc] at hb
        exact Or.inr hb
      · rw [if_neg hc] at hb
        exact Or.inl hb

/-- The trim loop: when the recursive call restores its argument state exactly
and returns only results satisfying `P`, and each trim's erase keeps every
option at or below the cap, the loop restores the state exactly and its best
result satisfies `P`. -/
theorem trim_loop_spec (students : List ASN.Student) (options : List String)
    (K maxpo : Nat) (P : List (String × String) × List Int → Prop)
    (next : ASN.Matching → Nat →
      Except String (ASN.Matching × Nat ×
        Option (List (String × String) × List Int)))
    (hnext : ∀ mm cc mo co ro, ASN.Valid students options K mm →
      ASN.CountsLe mm maxpo → next mm cc = .ok (mo, co, ro) →
      mo = mm ∧ ∀ r, ro = some r → P r)
    (trims : List (List (List String))) :
    ∀ (m : ASN.Matching) (ctr : Nat)
      (best : Option (List (String × String) × List Int))
      (m' : ASN.Matching) (ctr' : Nat)
      (best' : Option (List (String × String) × List Int)),
      ASN.Valid students options K m →
      (∀ t ∈ trims, ∀ mE, ASN.Matching.erase_many m t.flatten = .ok mE →
        ASN.CountsLe mE maxpo) →
      (∀ r, best = some r → P r) →
      ASN.trim_loop next m ctr trims best = .ok (m', ctr', best') →
      m' = m ∧ (∀ r, best' = some r → P r) := by
  induction trims with
  | nil =>
    intro m ctr best m' ctr' best' _ _ hbest h
    have hp := Except.ok.inj h
    injection hp with h1 h2
    injection h2 with h2 h3
    subst h1
    subst h3
    exact ⟨rfl, hbest⟩
  | cons trim rest ih =>
    intro m ctr best m' ctr' best' hv htr hbest h
    simp only [ASN.trim_loop] at h
    split at h
    · exact Except.noConfusion h
    rename_i m1 saved hET
    split at h
    · exact Except.noConfusion h
    rename_i m2 locked hLA
    split at h
    · exact Except.noConfusion h
    rename_i m3 ctr1 res hNX
    split at h
    · exact Except.noConfusion h
    rename_i m4 hUL
    split at h
    · exact Except.noConfusion h
    rename_i best1 hUB
    split at h
    · exact Except.noConfusion h
    rename_i m5 hAP
    obtain ⟨hemflat, hsaved⟩ :=
      erase_trim_spec students options K trim m m1 saved hv hET
    have hv1 := (erase_many_spec students options K trim.flatten m m1 hv hemflat).1
    have hcle : ASN.CountsLe m1 maxpo :=
      htr trim (List.mem_cons_self _ _) m1 hemflat
    obtain ⟨hv2, hbs2, hbo2, hndw, hws, hunt, hUM⟩ :=
      lock_all_matched_spec students options K m1 m2 locked hv1 hLA
    have hcle2 : ASN.CountsLe m2 maxpo := by
      intro q hq
      rw [hbo2] at hq
      exact hcle q hq
    obtain ⟨hm3, hres⟩ := hnext m2 ctr m3 ctr1 res hv2 hcle2 hNX
    subst hm3
    rw [hUM] at hUL
    have hm4 : m1 = m4 := Except.ok.inj hUL
    have hbest1 : ∀ r, best1 = some r → P r := by
      intro r hr
      rcases update_best_cases best res best1 hUB with he | he
      · exact hbest r (he ▸ hr)
      · exact hres r (he ▸ hr)
    rw [hsaved, ← hm4] at hAP
    have hAPm := erase_many_undo students options K trim.flatten m m1 hv hemflat
    rw [hAPm] at hAP
    have hm5 : m5 = m := (Except.ok.inj hAP).symm
    rw [hm5] at h
    exact ih m ctr1 best1 m' ctr' best' hv
      (fun t ht mE hE => htr t (List.mem_cons_of_mem _ ht) mE hE) hbest1 h

/-- The stage-entry loop is a sequence of single assigns whose student names
are exactly the names appended to the accumulator. -/
theorem stage_assign_aux_spec (students0 : List ASN.Student)
    (options : List String) (K stage : Nat) (sts : List ASN.Student) :
    ∀ (m m2 : ASN.Matching) (acc out : List String),
      ASN.Valid students0 options K m →
      ASN.stage_assign_aux m sts stage acc = .ok (m2, out) →
      ∃ qs : List (String × String), out = acc ++ qs.map Prod.fst ∧
        assign_seq m qs = .ok m2 := by
  induction sts with
  | nil =>
    intro m m2 acc out _ h
    have hp := Except.ok.inj h
    injection hp with h1 h2
    subst h1
    subst h2
    exact ⟨[], by simp, rfl⟩
  | cons st rest ih =>
    intro m m2 acc out hv h
    simp only [ASN.stage_assign_aux] at h
    cases hbm : alookup st.name m.by_student with
    | none =>
      rw [ASN.Matching.is_matched, hbm] at h
      exact Except.noConfusion h
    | some v =>
      rw [ASN.Matching.is_matched, hbm] at h
      cases v with
      | some o => exact ih m m2 acc out hv h
      | none =>
        cases hgc : st.get_choice stage with
        | none => rw [hgc] at h; exact Except.noConfusion h
        | some c =>
          rw [hgc] at h
          have hred : (match m.assign st.name c with
              | Except.error e => Except.error e
              | Except.ok m1 =>
                ASN.stage_assign_aux m1 rest stage (acc ++ [st.name])) =
              Except.ok (m2, out) := h
          cases has : m.assign st.name c with
          | error e => rw [has] at hred; exact Except.noConfusion hred
          | ok m1 =>
            rw [has] at hred
            have hv1 := (assign_valid students0 options K m m1 st.name c hv has).1
            obtain ⟨qs', hout, hseq⟩ := ih m1 m2 (acc ++ [st.name]) out hv1 hred
            refine ⟨(st.name, c) :: qs', ?_, ?_⟩
            · rw [hout, List.append_assoc, List.singleton_append, List.map_cons]
            · simp only [assign_seq, has]
              exact hseq

/-- The fill loop is a sequence of assigns pairing consecutive unhappy
students with the option list. -/
theorem assign_indexed_spec (os : List String) :
    ∀ (m m' : ASN.Matching) (unhappy : List String) (i : Nat),
      ASN.assign_indexed m unhappy os i = .ok m' →
      ∃ qs : List (String × String), assign_seq m qs = .ok m' ∧
        qs.map Prod.snd = os ∧
        qs.map Prod.fst = (unhappy.drop i).take os.length := by
  induction os with
  | nil =>
    intro m m' unhappy i h
    rw [← Except.ok.inj h]
    exact ⟨[], rfl, rfl, by simp⟩
  | cons o os ih =>
    intro m m' unhappy i h
    simp only [ASN.assign_indexed] at h
    cases hgu : unhappy[i]? with
    | none => rw [hgu] at h; exact Except.noConfusion h
    | some s =>
      rw [hgu] at h
      have hred : (match m.assign s o with
          | Except.error e => Except.error e
          | Except.ok m1 => ASN.assign_indexed m1 unhappy os (i + 1)) =
          Except.ok m' := h
      cases has : m.assign s o with
      | error e => rw [has] at hred; exact Except.noConfusion hred
      | ok m1 =>
        rw [has] at hred
        obtain ⟨qs', hseq, hsnd, hfst⟩ := ih m1 m' unhappy (i + 1) hred
        refine ⟨(s, o) :: qs', ?_, ?_, ?_⟩
        · simp only [assign_seq, has]
          exact hseq
        · rw [List.map_cons, hsnd]
        · rw [List.map_cons, hfst]
          obtain ⟨hi, he⟩ := List.getElem?_eq_some.1 hgu
          rw [List.drop_eq_getElem_cons hi, he, List.length_cons,
            List.take_succ_cons]

/-- The excess loop is a sequence of assigns pairing the remaining unhappy
students with the first spots of the shuffled spot list. -/
theorem assign_excess_spec (ss : List String) :
    ∀ (os : List String) (m m' : ASN.Matching),
      ASN.assign_excess m ss os = .ok m' →
      ∃ qs : List (String × String), assign_seq m qs = .ok m' ∧
        qs.map Prod.fst = ss ∧ qs.map Prod.snd = os.take ss.length := by
  induction ss with
  | nil =>
    intro os m m' h
    rw [← Except.ok.inj h]
    exact ⟨[], rfl, rfl, by simp⟩
  | cons s ss ih =>
    intro os m m' h
    cases os with
    | nil => exact Except.noConfusion h
    | cons o os =>
      simp only [ASN.assign_excess] at h
      cases has : m.assign s o with
      | error e => rw [has] at h; exact Except.noConfusion h
      | ok m1 =>
        rw [has] at h
        obtain ⟨qs', hseq, hfst, hsnd⟩ := ih os m1 m' h
        refine ⟨(s, o) :: qs', ?_, ?_, ?_⟩
        · simp only [assign_seq, has]
          exact hseq
        · rw [List.map_cons, hfst]
        · rw [List.map_cons, hsnd, List.length_cons, List.take_succ_cons]

/-- Success characterization of the snapshot loop: the pair list names every
student in dict order, and its per-option multiplicities match the
`by_student` map. -/
theorem reduce_pairs_aux_spec (bs : List (String × Option String)) :
    ∀ pairs, ASN.reduce_pairs_aux bs = .ok pairs →
      pairs.map Prod.fst = keysOf bs ∧
      ∀ o : String, pairs.countP (fun q => decide (q.2 = o)) =
        bs.countP (fun p => decide (p.2 = some o)) := by
  induction bs with
  | nil =>
    intro pairs h
    rw [← Except.ok.inj h]
    exact ⟨rfl, fun o => rfl⟩
  | cons p rest ih =>
    intro pairs h
    obtain ⟨s, vo⟩ := p
    cases vo with
    | none => exact Except.noConfusion h
    | some o₀ =>
      simp only [ASN.reduce_pairs_aux] at h
      cases hrp : ASN.reduce_pairs_aux rest with
      | error e => rw [hrp] at h; exact Except.noConfusion h
      | ok ps =>
        rw [hrp] at h
        rw [← Except.ok.inj h]
        obtain ⟨hfst, hcnt⟩ := ih ps hrp
        refine ⟨by rw [List.map_cons, hfst]; rfl, fun o => ?_⟩
        by_cases ho : o₀ = o
        · subst ho
          rw [List.countP_cons_of_pos (fun q => decide (q.2 = o₀)) ps
              (by simp),
            List.countP_cons_of_pos (fun p => decide (p.2 = some o₀)) rest
              (by simp), hcnt o₀]
        · rw [List.countP_cons_of_neg (fun q => decide (q.2 = o)) ps
              (by simp; exact fun he => ho he),
            List.countP_cons_of_neg (fun p => decide (p.2 = some o)) rest
              (by simp; exact fun he => ho he), hcnt o]

/-- Under the standing invariants, an option's set size equals the number of
students recorded as matched to it. -/
theorem set_size_eq_countP (students : List ASN.Student)
    (options : List String) (K : Nat) (m : ASN.Matching) (o : String)
    (l : List String) (hv : ASN.Valid students options K m)
    (hbo : alookup o m.by_option = some l) :
    l.length = m.by_student.countP (fun p => decide (p.2 = some o)) := by
  obtain ⟨hk1, hk2, hk3, hnd, hond, hch, hcm, hsort, hcons, hlm⟩ := hv
  have hnd1 : (keysOf m.by_student).Nodup := by rw [hk1]; exact hnd
  have hndl : l.Nodup := (hsort (o, l) (alookup_mem _ _ _ hbo)).nodup
  have hLnd : ((m.by_student.filter
      (fun p => decide (p.2 = some o))).map Prod.fst).Nodup :=
    List.Nodup.sublist
      (List.Sublist.map Prod.fst (List.filter_sublist m.by_student)) hnd1
  have hmemL : ∀ x, x ∈ (m.by_student.filter
      (fun p => decide (p.2 = some o))).map Prod.fst ↔
      alookup x m.by_student = some (some o) := by
    intro x
    constructor
    · intro hx
      rcases List.mem_map.1 hx with ⟨q, hq, rfl⟩
      have hq1 := List.mem_of_mem_filter hq
      have hq2 := List.of_mem_filter hq
      simp only [decide_eq_true_eq] at hq2
      rw [← hq2]
      exact mem_alookup q.1 m.by_student q.2 hnd1 hq1
    · intro hx
      exact List.mem_map.2 ⟨(x, some o),
        List.mem_filter.2 ⟨alookup_mem _ _ _ hx, by simp⟩, rfl⟩
  have hsub1 : (m.by_student.filter
      (fun p => decide (p.2 = some o))).map Prod.fst ⊆ l := by
    intro x hx
    obtain ⟨l', hl', hm'⟩ :=
      consistent_alookup_fwd _ _ hcons x o ((hmemL x).1 hx)
    rw [hbo] at hl'
    rw [Option.some.inj hl']
    exact hm'
  have hsub2 : l ⊆ (m.by_student.filter
      (fun p => decide (p.2 = some o))).map Prod.fst := by
    intro x hx
    exact (hmemL x).2 (consistent_set_mem _ _ hcons o l hbo x hx)
  have hperm := (hLnd.subperm hsub1).antisymm (hndl.subperm hsub2)
  calc l.length
      = ((m.by_student.filter
          (fun p => decide (p.2 = some o))).map Prod.fst).length :=
        hperm.length_eq.symm
    _ = (m.by_student.filter (fun p => decide (p.2 = some o))).length :=
        List.length_map _ _
    _ = m.by_student.countP (fun p => decide (p.2 = some o)) :=
        (List.countP_eq_length_filter _ _).symm

theorem count_list_empty_spots (m : ASN.Matching) (low high : Nat) (o : String)
    (l : List String) (hnd : (keysOf m.by_option).Nodup)
    (h : alookup o m.by_option = some l) :
    (m.list_empty_spots low high).count o =
      if low ≤ l.length ∧ l.length < high then high - l.length else 0 := by
  have key := count_flatten_replicate m.by_option
    (fun p => if low ≤ p.2.length ∧ p.2.length < high
      then high - p.2.length else 0) o l hnd h
  have heq : (m.by_option.map (fun p =>
      List.replicate (if low ≤ p.2.length ∧ p.2.length < high
        then high - p.2.length else 0) p.1)) =
      (m.by_option.map (fun p =>
      if low ≤ p.2.length ∧ p.2.length < high
        then List.replicate (high - p.2.length) p.1 else [])) := by
    refine List.map_congr_left fun p _ => ?_
    by_cases hc : low ≤ p.2.length ∧ p.2.length < high <;> simp [hc]
  rw [heq] at key
  rw [ASN.Matching.list_empty_spots, key]

/-- With any non-empty option list, the resolver can never return normally:
the tier loop's attribute error (or an earlier error) always fires. -/
theorem find_more_never_ok (m : ASN.Matching) (students : List ASN.Student)
    (options : List String) (K minpo maxpo : Nat) (res : List String)
    (hne : options ≠ [])
    (h : ASN.find_more_unhappy_students m students options K minpo maxpo =
      .ok res) : False := by
  unfold ASN.find_more_unhappy_students at h
  cases hh : ASN.happiness_aux m K students with
  | error e => rw [hh] at h; exact Except.noConfusion h
  | ok happiness =>
    rw [hh] at h
    cases options with
    | nil => exact hne rfl
    | cons o os => exact Except.noConfusion h

theorem underfilled_mem_keys (m : ASN.Matching) (t : Nat) (o : String)
    (h : o ∈ m.list_underfilled_options t) : o ∈ keysOf m.by_option := by
  unfold ASN.Matching.list_underfilled_options at h
  rcases List.mem_flatten.1 h with ⟨L, hL, hoL⟩
  rcases List.mem_map.1 hL with ⟨p, hp, rfl⟩
  by_cases hc : p.2.length < t
  · rw [if_pos hc] at hoL
    rw [List.eq_of_mem_replicate hoL]
    exact List.mem_map.2 ⟨p, hp, rfl⟩
  · rw [if_neg hc] at hoL
    exact absurd hoL (List.not_mem_nil o)

/-- Full characterization of a successful base case: the state is restored
exactly, the returned pairs name every student exactly once, and each option's
multiplicity in the pairs lies within `[minpo, maxpo]`. -/
theorem base_case_spec (shuffle : Nat → List String → List String)
    (hsh : ∀ c l, List.Perm (shuffle c l) l)
    (students : List ASN.Student) (options : List String)
    (K minpo maxpo ctr : Nat) (m : ASN.Matching)
    (hv : ASN.Valid students options K m)
    (hcle : ASN.CountsLe m maxpo) (hmm : minpo ≤ maxpo)
    (m5 : ASN.Matching) (ctr2 : Nat) (pairs : List (String × String))
    (score : List Int)
    (h : ASN.assignment_algorithm_base_case shuffle ctr m students options
      K minpo maxpo = .ok (m5, ctr2, (pairs, score))) :
    m5 = m ∧
    pairs.map Prod.fst = students.map ASN.Student.name ∧
    ∀ o ∈ options, minpo ≤ pairs.countP (fun q => decide (q.2 = o)) ∧
      pairs.countP (fun q => decide (q.2 = o)) ≤ maxpo := by
  simp only [ASN.assignment_algorithm_base_case] at h
  split at h
  · exact Except.noConfusion h
  rename_i m1 restore hBR
  have hcond : ¬ (m.get_n_unmatched <
      (m.list_underfilled_options minpo).length) := by
    intro hlt
    have hopt : options ≠ [] := by
      cases hu : m.list_underfilled_options minpo with
      | nil => rw [hu] at hlt; exact (Nat.not_lt_zero _ hlt).elim
      | cons o os =>
        have hok : o ∈ keysOf m.by_option :=
          underfilled_mem_keys m minpo o (hu ▸ List.mem_cons_self o os)
        intro h0
        rw [hv.2.1, h0] at hok
        exact List.not_mem_nil o hok
    rw [if_pos hlt] at hBR
    split at hBR
    · exact Except.noConfusion hBR
    rename_i queue hFM
    exact find_more_never_ok m students options K minpo maxpo queue hopt hFM
  rw [if_neg hcond] at hBR
  have hp := Except.ok.inj hBR
  injection hp with h1 h2
  subst h1
  subst h2
  split at h
  · exact Except.noConfusion h
  rename_i m2 hAI
  split at h
  · exact Except.noConfusion h
  rename_i m3 ctr2x hEX
  split at h
  · exact Except.noConfusion h
  rename_i score' hSC
  split at h
  · exact Except.noConfusion h
  rename_i pairs' hRP
  split at h
  · exact Except.noConfusion h
  rename_i m4 hEM
  split at h
  · exact Except.noConfusion h
  rename_i m5' hRS
  rw [if_neg hcond] at hRS
  have hm5' : m4 = m5' := Except.ok.inj hRS
  have hfin := Except.ok.inj h
  injection hfin with hf1 hf2
  injection hf2 with hf2 hf3
  injection hf3 with hf3 hf4
  obtain ⟨qs1, hseq1, hsnd1, hfst1⟩ :=
    assign_indexed_spec (m.list_underfilled_options minpo) m m2
      (shuffle ctr m.list_unmatched_students) 0 hAI
  rw [List.drop_zero] at hfst1
  obtain ⟨hv2, _, _, _, _, _, hcnt1⟩ :=
    assign_seq_spec students options K qs1 m m2 hv hseq1
  have hexC : ∃ qs2 : List (String × String),
      assign_seq m2 qs2 = .ok m3 ∧
      (qs1 ++ qs2).map Prod.fst = shuffle ctr m.list_unmatched_students ∧
      ∀ o l2, alookup o m2.by_option = some l2 →
        (qs2.map Prod.snd).count o ≤
          (if minpo ≤ l2.length ∧ l2.length < maxpo
            then maxpo - l2.length else 0) := by
    by_cases hex : (m.list_underfilled_options minpo).length <
        (shuffle ctr m.list_unmatched_students).length
    · rw [if_pos hex] at hEX
      split at hEX
      · exact Except.noConfusion hEX
      rename_i mm hAE
      have hpEX := Except.ok.inj hEX
      injection hpEX with he1 he2
      obtain ⟨qs2, hseq2, hfst2, hsnd2⟩ :=
        assign_excess_spec
          ((shuffle ctr m.list_unmatched_students).drop
            (m.list_underfilled_options minpo).length)
          (shuffle (ctr + 1) (m2.list_empty_spots minpo maxpo)) m2 mm hAE
      rw [he1] at hseq2
      refine ⟨qs2, hseq2, ?_, ?_⟩
      · rw [List.map_append, hfst1, hfst2]
        exact List.take_append_drop _ _
      · intro o l2 hl2
        rw [hsnd2]
        calc ((shuffle (ctr + 1)
              (m2.list_empty_spots minpo maxpo)).take _).count o
            ≤ (shuffle (ctr + 1) (m2.list_empty_spots minpo maxpo)).count o :=
              (List.take_sublist _ _).count_le o
          _ = (m2.list_empty_spots minpo maxpo).count o :=
              (hsh (ctr + 1) _).count_eq o
          _ = _ := count_list_empty_spots m2 minpo maxpo o l2
              (by rw [hv2.2.1]; exact hv2.2.2.2.2.1) hl2
    · rw [if_neg hex] at hEX
      have hpEX := Except.ok.inj hEX
      injection hpEX with he1 he2
      refine ⟨[], by cases he1; rfl, ?_, ?_⟩
      · rw [List.append_nil, hfst1]
        exact List.take_of_length_le (Nat.le_of_not_lt hex)
      · intro o l2 _
        simp
  obtain ⟨qs2, hseq2, hfstC, hcnt2bound⟩ := hexC
  have hseqC : assign_seq m (qs1 ++ qs2) = .ok m3 :=
    assign_seq_append qs1 qs2 m m2 m3 hseq1 hseq2
  obtain ⟨hv3, _, _, _, _, _, _⟩ :=
    assign_seq_spec students options K (qs1 ++ qs2) m m3 hv hseqC
  obtain ⟨_, _, _, _, _, _, hcnt2⟩ :=
    assign_seq_spec students options K qs2 m2 m3 hv2 hseq2
  have hundo := assign_seq_undo students options K (qs1 ++ qs2) m m3 hv hseqC
  rw [hfstC] at hundo
  rw [hEM] at hundo
  have hm4 : m4 = m := Except.ok.inj hundo
  obtain ⟨hpfst, hpcnt⟩ := reduce_pairs_aux_spec m3.by_student pairs' hRP
  refine ⟨?_, ?_, ?_⟩
  · rw [← hf1, ← hm5', hm4]
  · rw [← hf3, hpfst, hv3.1]
  · intro o ho
    have hkeym : o ∈ keysOf m.by_option := by rw [hv.2.1]; exact ho
    obtain ⟨lo, hlo⟩ :=
      Option.isSome_iff_exists.1 ((alookup_isSome o m.by_option).2 hkeym)
    have hkeym2 : o ∈ keysOf m2.by_option := by rw [hv2.2.1]; exact ho
    obtain ⟨l2, hl2⟩ :=
      Option.isSome_iff_exists.1 ((alookup_isSome o m2.by_option).2 hkeym2)
    have hkeym3 : o ∈ keysOf m3.by_option := by rw [hv3.2.1]; exact ho
    obtain ⟨l3, hl3⟩ :=
      Option.isSome_iff_exists.1 ((alookup_isSome o m3.by_option).2 hkeym3)
    have hloub : lo.length ≤ maxpo := hcle (o, lo) (alookup_mem _ _ _ hlo)
    have hstep1 := hcnt1 o lo l2 hlo hl2
    rw [hsnd1, count_list_underfilled m minpo o lo
      (by rw [hv.2.1]; exact hv.2.2.2.2.1) hlo] at hstep1
    have hstep2 := hcnt2 o l2 l3 hl2 hl3
    have hbound2 := hcnt2bound o l2 hl2
    have hl2lb : minpo ≤ l2.length := by omega
    have hl2ub : l2.length ≤ maxpo := by omega
    have hl3b : minpo ≤ l3.length ∧ l3.length ≤ maxpo := by
      by_cases hc : minpo ≤ l2.length ∧ l2.length < maxpo
      · rw [if_pos hc] at hbound2
        omega
      · rw [if_neg hc] at hbound2
        omega
    have hsize := set_size_eq_countP students options K m3 o l3 hv3 hl3
    rw [← hf3, hpcnt o, ← hsize]
    exact hl3b

/-- Master invariant of the staged engine: every successful call restores its
argument state exactly, and any `some` result it returns names every student
exactly once with per-option multiplicities in `[minpo, maxpo]`. -/
theorem engine_main (shuffle : Nat → List String → List String)
    (hsh : ∀ c l, List.Perm (shuffle c l) l)
    (students : List ASN.Student) (options : List String)
    (K minpo maxpo : Nat) (hmm : minpo ≤ maxpo) (fuel : Nat) :
    ∀ (stage : Nat) (m : ASN.Matching) (ctr : Nat) (m' : ASN.Matching)
      (ctr' : Nat) (res : Option (List (String × String) × List Int)),
      ASN.Valid students options K m → ASN.CountsLe m maxpo →
      ASN.recursive_assignment_algorithm shuffle students options K minpo maxpo
        fuel stage m ctr = .ok (m', ctr', res) →
      m' = m ∧ ∀ r, res = some r →
        r.1.map Prod.fst = students.map ASN.Student.name ∧
        ∀ o ∈ options, minpo ≤ r.1.countP (fun q => decide (q.2 = o)) ∧
          r.1.countP (fun q => decide (q.2 = o)) ≤ maxpo := by
  induction fuel with
  | zero =>
    intro stage m ctr m' ctr' res _ _ h
    exact Except.noConfusion h
  | succ fuel ih =>
    intro stage m ctr m' ctr' res hv hcle h
    simp only [ASN.recursive_assignment_algorithm] at h
    by_cases hst : K < stage
    · rw [if_pos hst] at h
      split at h
      · exact Except.noConfusion h
      rename_i mB ctrB r hBC
      have hp := Except.ok.inj h
      injection hp with h1 h2
      injection h2 with h2 h3
      obtain ⟨pr, sc⟩ := r
      obtain ⟨hm5, hfst, hcnt⟩ := base_case_spec shuffle hsh students options K
        minpo maxpo ctr m hv hcle hmm mB ctrB pr sc hBC
      subst h1
      subst h3
      exact ⟨hm5, fun r' hr' => by
        rw [← Option.some.inj hr']
        exact ⟨hfst, hcnt⟩⟩
    · rw [if_neg hst] at h
      split at h
      · exact Except.noConfusion h
      rename_i m1 assigned hSA
      split at h
      · exact Except.noConfusion h
      rename_i tis hTI
      by_cases hlen : 0 < tis.length
      case neg =>
        rw [if_neg hlen] at h
        exact Except.noConfusion h
      rw [if_pos hlen] at h
      split at h
      · exact Except.noConfusion h
      rename_i m2L ctr2L best hTL
      split at h
      · exact Except.noConfusion h
      rename_i m3 hEMa
      have hp := Except.ok.inj h
      injection hp with h1 h2
      injection h2 with h2 h3
      obtain ⟨qs, hout, hseq⟩ := stage_assign_aux_spec students options K stage
        students m m1 [] assigned hv hSA
      rw [List.nil_append] at hout
      have hv1 := (assign_seq_spec students options K qs m m1 hv hseq).1
      have htr : ∀ t ∈ productList tis,
          ∀ mE, ASN.Matching.erase_many m1 t.flatten = .ok mE →
          ASN.CountsLe mE maxpo :=
        fun t ht mE hE =>
          trim_counts_le students options K maxpo m1 mE tis t hv1 hTI
            (by rw [if_pos hlen]; exact ht) hE
      obtain ⟨hm2L, hbest⟩ := trim_loop_spec students options K maxpo
        (fun r => r.1.map Prod.fst = students.map ASN.Student.name ∧
          ∀ o ∈ options, minpo ≤ r.1.countP (fun q => decide (q.2 = o)) ∧
            r.1.countP (fun q => decide (q.2 = o)) ≤ maxpo)
        (fun mm cc => ASN.recursive_assignment_algorithm shuffle students
          options K minpo maxpo fuel (stage + 1) mm cc)
        (fun mm cc mo co ro hvm hcm hr => ih (stage + 1) mm cc mo co ro hvm hcm hr)
        (productList tis)
        m1 ctr none m2L ctr2L best hv1 htr
        (fun r hr => Option.noConfusion hr) hTL
      rw [hm2L, hout] at hEMa
      have hundo := assign_seq_undo students options K qs m m1 hv hseq
      rw [hundo] at hEMa
      have hm3 : m3 = m := (Except.ok.inj hEMa).symm
      subst h1
      subst h3
      exact ⟨hm3, hbest⟩

/-- `Matching.__init__` yields a valid state with empty option sets. -/
theorem init_valid (students : List ASN.Student) (options : List String)
    (K : Nat) (m0 : ASN.Matching)
    (hch : ∀ st ∈ students, st.choices.length = K)
    (hcm : ∀ st ∈ students, ∀ c ∈ st.choices, c ∈ options)
    (h : ASN.Matching.init students options = .ok m0) :
    ASN.Valid students options K m0 ∧ ∀ n, ASN.CountsLe m0 n := by
  unfold ASN.Matching.init at h
  by_cases h1 : (students.map ASN.Student.name).Nodup
  · rw [if_pos h1] at h
    by_cases h2 : options.Nodup
    · rw [if_pos h2] at h
      rw [← Except.ok.inj h]
      refine ⟨⟨?_, ?_, ?_, h1, h2, hch, hcm, ?_, ⟨?_, ?_⟩, ?_⟩, ?_⟩
      · show keysOf (students.map fun st =>
          (st.name, (none : Option String))) = _
        rw [keysOf, List.map_map]
        rfl
      · show keysOf (options.map fun o => (o, ([] : List String))) = _
        rw [keysOf, List.map_map]
        exact List.map_id options
      · show keysOf (students.map fun st => (st.name, false)) = _
        rw [keysOf, List.map_map]
        rfl
      · intro q hq
        rcases List.mem_map.1 hq with ⟨o, _, rfl⟩
        exact List.sorted_nil
      · intro p hp o ho
        rcases List.mem_map.1 hp with ⟨st, _, rfl⟩
        simp at ho
      · intro q hq s hs
        rcases List.mem_map.1 hq with ⟨o, _, rfl⟩
        simp at hs
      · intro p hp hpt
        rcases List.mem_map.1 hp with ⟨st, _, rfl⟩
        exact Bool.noConfusion hpt
      · intro n q hq
        rcases List.mem_map.1 hq with ⟨o, _, rfl⟩
        exact Nat.zero_le n
    · rw [if_neg h2] at h
      exact Except.noConfusion h
  · rw [if_neg h1] at h
    exact Except.noConfusion h

/-! ### Claims C2 and C3 — the staged engine -/

/-- Inserting `"y"` into the sorted set `["x"]` appends it. -/
theorem insertSorted_yx : insertSorted "y" ["x"] = ["x", "y"] := by
  rw [insertSorted, if_neg (by simp; decide), if_neg (by decide), insertSorted]

/-- Inserting `"x"` into the sorted set `["y"]` prepends it. -/
theorem insertSorted_xy : insertSorted "x" ["y"] = ["x", "y"] := by
  rw [insertSorted, if_pos (by simp; decide)]

/-- Stage 1 of the `w3students` run assigns both students to `A`. -/
theorem w3_stage : ASN.stage_assign w3m0 w3students 1 =
    .ok (w3m1, ["x", "y"]) := by
  have h0 : ASN.stage_assign w3m0 w3students 1 =
      .ok ({ by_student := [("x", some "A"), ("y", some "A")],
             by_option := [("A", insertSorted "y" ["x"]), ("B", [])],
             student_locked := [("x", false), ("y", false)] }, ["x", "y"]) := rfl
  rw [h0, insertSorted_yx]
  rfl

/-- The `w3students` run reduces to its stage-exit continuation at the
stage-1 state, with the second sorted-set insertion still symbolic. -/
theorem w3_run_step1 : ASN.recursive_assignment_algorithm (fun _ l => l)
    w3students w3options 1 1 1 2 1 w3m0 0 =
    w3F (insertSorted "y" ["x"]) := rfl

/-- The first trim branch of the `w3students` run evaluates and restores. -/
theorem w3_run_step2 : w3F ["x", "y"] = w3G (insertSorted "x" ["y"]) := rfl

/-- The second trim branch of the `w3students` run evaluates and restores. -/
theorem w3_run_step3 : w3G ["x", "y"] = w3H (insertSorted "y" ["x"]) := rfl

/-- The `w3students` run exits the trim loop, undoes its stage-entry
assignments, and returns the better branch. -/
theorem w3_run_step4 : w3H ["x", "y"] =
    .ok (w3m0, 2, some ([("x", "B"), ("y", "A")], [1, 1, 0])) := rfl

/-- The full `w3students` run: the engine restores the initial state and
returns the first branch, in which `y` keeps `A` and `x` falls back to `B`. -/
theorem w3_run : ASN.recursive_assignment_algorithm (fun _ l => l) w3students
    w3options 1 1 1 2 1 w3m0 0 =
    .ok (w3m0, 2, some ([("x", "B"), ("y", "A")], [1, 1, 0])) := by
  rw [w3_run_step1, insertSorted_yx, w3_run_step2, insertSorted_xy,
    w3_run_step3, insertSorted_yx, w3_run_step4]

/-- The `w3students` run as `main` performs it, from `Matching.init`. -/
theorem w3_run_staged : ASN.run_staged (fun _ l => l) w3students w3options
    1 1 1 = .ok (w3m0, 2, some ([("x", "B"), ("y", "A")], [1, 1, 0])) := by
  have h0 : ASN.run_staged (fun _ l => l) w3students w3options 1 1 1 =
      ASN.recursive_assignment_algorithm (fun _ l => l) w3students w3options
        1 1 1 2 1 w3m0 0 := rfl
  rw [h0, w3_run]

/-- C3: every successful call to `recursive_assignment_algorithm` — at any
stage, including the base case — leaves the matching's `by_student`,
`by_option` and `student_locked` maps exactly as they were before the call;
only the returned `(pairs, score)` carries information out. -/
theorem claim_C3_state_restoration (shuffle : Nat → List String → List String)
    (hsh : ∀ c l, List.Perm (shuffle c l) l)
    (students : List ASN.Student) (options : List String)
    (K minpo maxpo : Nat) (hmm : minpo ≤ maxpo) (fuel stage : Nat)
    (m : ASN.Matching) (ctr : Nat) (m' : ASN.Matching) (ctr' : Nat)
    (res : Option (List (String × String) × List Int))
    (hv : ASN.Valid students options K m)
    (hcle : ASN.CountsLe m maxpo)
    (h : ASN.recursive_assignment_algorithm shuffle students options K minpo
      maxpo fuel stage m ctr = .ok (m', ctr', res)) :
    m'.by_student = m.by_student ∧ m'.by_option = m.by_option ∧
      m'.student_locked = m.student_locked := by
  have hm := (engine_main shuffle hsh students options K minpo maxpo hmm fuel
    stage m ctr m' ctr' res hv hcle h).1
  rw [hm]
  exact ⟨rfl, rfl, rfl⟩

theorem claim_C3_witness :
    (1 ≤ 1 ∧ ASN.Valid w3students w3options 1 w3m0 ∧
      ASN.CountsLe w3m0 1) ∧
    w3m0.by_student = w3m0.by_student ∧ w3m0.by_option = w3m0.by_option ∧
      w3m0.student_locked = w3m0.student_locked :=
  ⟨⟨Nat.le_refl 1, by decide, by decide⟩,
    claim_C3_state_restoration (fun _ l => l) (fun _ l => List.Perm.refl l)
      w3students w3options 1 1 1 (Nat.le_refl 1) 2 1 w3m0 0 w3m0 2
      (some ([("x", "B"), ("y", "A")], [1, 1, 0]))
      (by decide) (by decide) w3_run⟩

/-- C2: in every successful full run of the staged engine that produces a
result, the returned pair list names every student exactly once (in student
order), and for each option the number of pairs naming it lies within
`[min_per_option, max_per_option]`. -/
theorem claim_C2_output_complete_and_capped
    (shuffle : Nat → List String → List String)
    (hsh : ∀ c l, List.Perm (shuffle c l) l)
    (students : List ASN.Student) (options : List String)
    (K minpo maxpo : Nat) (hmm : minpo ≤ maxpo)
    (hch : ∀ st ∈ students, st.choices.length = K)
    (hcm : ∀ st ∈ students, ∀ c ∈ st.choices, c ∈ options)
    (mf : ASN.Matching) (ctrf : Nat) (pairs : List (String × String))
    (score : List Int)
    (h : ASN.run_staged shuffle students options K minpo maxpo =
      .ok (mf, ctrf, some (pairs, score))) :
    pairs.map Prod.fst = students.map ASN.Student.name ∧
    ∀ o ∈ options, minpo ≤ pairs.countP (fun q => decide (q.2 = o)) ∧
      pairs.countP (fun q => decide (q.2 = o)) ≤ maxpo := by
  unfold ASN.run_staged at h
  cases hin : ASN.Matching.init students options with
  | error e => rw [hin] at h; exact Except.noConfusion h
  | ok m0 =>
    rw [hin] at h
    obtain ⟨hv0, hcle0⟩ := init_valid students options K m0 hch hcm hin
    exact (engine_main shuffle hsh students options K minpo maxpo hmm (K + 1)
      1 m0 0 mf ctrf (some (pairs, score)) hv0 (hcle0 maxpo) h).2
      (pairs, score) rfl

theorem claim_C2_witness :
    (1 ≤ 1 ∧ (∀ st ∈ w3students, st.choices.length = 1) ∧
      (∀ st ∈ w3students, ∀ c ∈ st.choices, c ∈ w3options)) ∧
    ([("x", "B"), ("y", "A")].map Prod.fst =
      w3students.map ASN.Student.name ∧
    ∀ o ∈ w3options,
      1 ≤ [("x", "B"), ("y", "A")].countP (fun q => decide (q.2 = o)) ∧
      [("x", "B"), ("y", "A")].countP (fun q => decide (q.2 = o)) ≤ 1) :=
  ⟨⟨Nat.le_refl 1, by decide, by decide⟩,
    claim_C2_output_complete_and_capped (fun _ l => l)
      (fun _ l => List.Perm.refl l) w3students w3options 1 1 1
      (Nat.le_refl 1) (by decide) (by decide) w3m0 2
      [("x", "B"), ("y", "A")] [1, 1, 0] w3_run_staged⟩

/-- C10: the lock invariant of the staged engine.  The initial state locks
nobody; `assign`, `erase` and `unlock` preserve "every locked student is
matched"; a locked student can never be erased (the erase assert fires); and
`lock_all_matched` — the only operation that sets lock flags — locks only
currently matched students and preserves the invariant.  Hence every state
reachable by the engine's operations from the initial state satisfies it. -/
theorem claim_C10_lock_invariant :
    (∀ (students : List ASN.Student) (options : List String)
      (m0 : ASN.Matching), ASN.Matching.init students options = .ok m0 →
      ASN.LockedMatched m0) ∧
    (∀ (m m' : ASN.Matching) (s o : String), ASN.LockedMatched m →
      m.assign s o = .ok m' → ASN.LockedMatched m') ∧
    (∀ (m m' : ASN.Matching) (s : String), m.erase s = .ok m' →
      alookup s m.student_locked = some false) ∧
    (∀ (m m' : ASN.Matching) (s : String),
      (keysOf m.student_locked).Nodup → ASN.LockedMatched m →
      m.erase s = .ok m' → ASN.LockedMatched m') ∧
    (∀ (m m' : ASN.Matching) (s : String), ASN.LockedMatched m →
      m.unlock s = .ok m' → ASN.LockedMatched m') ∧
    (∀ (m m2 : ASN.Matching) (ws : List String),
      (keysOf m.student_locked).Nodup →
      m.lock_all_matched = .ok (m2, ws) →
      (∀ s ∈ ws, ∃ o, alookup s m.by_student = some (some o)) ∧
      (ASN.LockedMatched m → ASN.LockedMatched m2)) := by
  refine ⟨?_, ?_, ?_, ?_, ?_, ?_⟩
  · intro students options m0 h
    unfold ASN.Matching.init at h
    by_cases h1 : (students.map ASN.Student.name).Nodup
    · rw [if_pos h1] at h
      by_cases h2 : options.Nodup
      · rw [if_pos h2] at h
        rw [← Except.ok.inj h]
        intro p hp hpt
        rcases List.mem_map.1 hp with ⟨st, _, rfl⟩
        exact Bool.noConfusion hpt
      · rw [if_neg h2] at h
        exact Except.noConfusion h
    · rw [if_neg h1] at h
      exact Except.noConfusion h
  · intro m m' s o hlm h
    rcases assign_ok m m' s o h with ⟨hbs, hlk, l, hbo, rfl⟩
    intro p hp hpt
    have hold := hlm p hp hpt
    show (matchedTo (aupdate s (some o) m.by_student) p.1).isSome = true
    by_cases hps : p.1 = s
    · have hskey : s ∈ keysOf m.by_student :=
        (mem_keysOf _ _).2 ⟨_, alookup_mem _ _ _ hbs⟩
      rw [hps]
      simp [matchedTo, alookup_aupdate_self s (some o) m.by_student hskey]
    · rw [matchedTo,
        alookup_aupdate_of_ne p.1 s (some o) m.by_student (fun he => hps he.symm)]
      exact hold
  · intro m m' s h
    rcases erase_ok m m' s h with ⟨o, _, hlk, _⟩
    exact hlk
  · intro m m' s hnd hlm h
    rcases erase_ok m m' s h with ⟨o, hbs, hlk, l, hbo, hmem, rfl⟩
    intro p hp hpt
    have hplk : alookup p.1 m.student_locked = some p.2 :=
      mem_alookup p.1 m.student_locked p.2 hnd hp
    have hps : p.1 ≠ s := by
      intro he
      rw [he, hlk] at hplk
      rw [(Option.some.inj hplk).symm] at hpt
      exact Bool.noConfusion hpt
    have hold := hlm p hp hpt
    show (matchedTo (aupdate s none m.by_student) p.1).isSome = true
    rw [matchedTo,
      alookup_aupdate_of_ne p.1 s none m.by_student (fun he => hps he.symm)]
    exact hold
  · intro m m' s hlm h
    rcases unlock_ok m m' s h with ⟨hlk, rfl⟩
    intro p hp hpt
    rcases mem_aupdate s false m.student_locked p hp with hin | ⟨_, hv⟩
    · exact hlm p hin hpt
    · rw [hv] at hpt
      exact Bool.noConfusion hpt
  · intro m m2 ws hnd h
    obtain ⟨ws', hout, hndw, hbs2, hbo2, hk2, hws, hunt⟩ :=
      lock_all_aux_spec m.by_student m m2 [] ws hnd h
    have hws0 : ws = ws' := by rw [hout]; rfl
    subst hws0
    refine ⟨fun s hs => (hws s hs).2.2, ?_⟩
    intro hlm p hp hpt
    have hnd2 : (keysOf m2.student_locked).Nodup := by
      rw [hk2]
      exact hnd
    have hplk : alookup p.1 m2.student_locked = some p.2 :=
      mem_alookup p.1 m2.student_locked p.2 hnd2 hp
    by_cases hin : p.1 ∈ ws
    · obtain ⟨o, ho⟩ := (hws p.1 hin).2.2
      rw [hbs2]
      simp [matchedTo, ho]
    · rw [hunt p.1 hin, hpt] at hplk
      have hpm : (p.1, true) ∈ m.student_locked := alookup_mem _ _ _ hplk
      rw [hbs2]
      exact hlm (p.1, true) hpm rfl

theorem claim_C10_witness :
    ASN.LockedMatched w2m0 ∧
    alookup "x" cexIncomplete.student_locked = some false :=
  ⟨claim_C10_lock_invariant.1 w2students w2options w2m0 rfl,
    claim_C10_lock_invariant.2.2.1 cexIncomplete
      { by_student := [("x", none), ("y", none)],
        by_option := [("A", []), ("B", [])],
        student_locked := [("x", false), ("y", false)] } "x" rfl⟩

theorem tupleLt_irrefl : ∀ l : List Int, tupleLt l l = false := by
  intro l
  induction l with
  | nil => rfl
  | cons a as ih => simp [tupleLt, lt_irrefl, ih]

theorem tupleLt_trans : ∀ a b c : List Int, tupleLt a b = true →
    tupleLt b c = true → tupleLt a c = true := by
  intro a
  induction a with
  | nil =>
    intro b c hab hbc
    cases b with
    | nil => exact absurd hab (by simp [tupleLt])
    | cons y ys =>
      cases c with
      | nil => exact absurd hbc (by simp [tupleLt])
      | cons z zs => rfl
  | cons x xs ih =>
    intro b c hab hbc
    cases b with
    | nil => exact absurd hab (by simp [tupleLt])
    | cons y ys =>
      cases c with
      | nil => exact absurd hbc (by simp [tupleLt])
      | cons z zs =>
        simp only [tupleLt] at hab hbc ⊢
        by_cases h1 : x < y
        · by_cases h2 : y < z
          · rw [if_pos (lt_trans h1 h2)]
          · by_cases h3 : z < y
            · rw [if_neg h2, if_pos h3] at hbc
              exact absurd hbc (by simp)
            · rw [if_pos (lt_of_lt_of_le h1 (le_of_not_lt h3))]
        · by_cases h1' : y < x
          · rw [if_neg h1, if_pos h1'] at hab
            exact absurd hab (by simp)
          · rw [if_neg h1, if_neg h1'] at hab
            have hxy : x = y := le_antisymm (le_of_not_lt h1') (le_of_not_lt h1)
            subst hxy
            by_cases h2 : x < z
            · rw [if_pos h2]
            · by_cases h3 : z < x
              · rw [if_neg h2, if_pos h3] at hbc
                exact absurd hbc (by simp)
              · rw [if_neg h2, if_neg h3] at hbc
                rw [if_neg h2, if_neg h3]
                exact ih ys zs hab hbc

theorem tupleLt_asymm (a b : List Int) (h : tupleLt a b = true) :
    tupleLt b a = false := by
  by_contra hc
  have hb : tupleLt b a = true := by
    cases hba : tupleLt b a with
    | false => exact absurd hba hc
    | true => rfl
  have := tupleLt_trans a b a h hb
  rw [tupleLt_irrefl a] at this
  exact Bool.noConfusion this

theorem tupleLt_false_trans : ∀ a b c : List Int, tupleLt a b = false →
    tupleLt b c = false → tupleLt a c = false := by
  intro a
  induction a with
  | nil =>
    intro b c hab hbc
    cases b with
    | nil =>
      cases c with
      | nil => rfl
      | cons z zs => exact absurd hbc (by simp [tupleLt])
    | cons y ys => exact absurd hab (by simp [tupleLt])
  | cons x xs ih =>
    intro b c hab hbc
    cases c with
    | nil => rfl
    | cons z zs =>
      cases b with
      | nil => exact absurd hbc (by simp [tupleLt])
      | cons y ys =>
        simp only [tupleLt] at hab hbc ⊢
        by_cases h1 : x < y
        · rw [if_pos h1] at hab
          exact absurd hab (by simp)
        · by_cases h2 : y < z
          · rw [if_pos h2] at hbc
            exact absurd hbc (by simp)
          · have hzy : z ≤ y := le_of_not_lt h2
            have hyx : y ≤ x := le_of_not_lt h1
            have hnz : ¬ x < z := not_lt_of_le (le_trans hzy hyx)
            rw [if_neg hnz]
            by_cases h3 : z < x
            · rw [if_pos h3]
            · rw [if_neg h3]
              have hxz : x = z := le_antisymm (le_of_not_lt h3)
                (le_trans hzy hyx)
              have hyx2 : y = x := le_antisymm hyx (by rw [hxz]; exact hzy)
              subst hyx2
              subst hxz
              rw [if_neg h1, if_neg h1] at hab
              rw [if_neg h2, if_neg h2] at hbc
              exact ih ys zs hab hbc

/-- The accumulator facts of one `update_best` step: the kept result is at
least the old best and at least the new result, and it is `None` only when
both inputs were. -/
theorem update_best_facts (best new best' :
    Option (List (String × String) × List Int))
    (h : ASN.update_best best new = .ok best') :
    (∀ r, best' = some r → ∀ x, best = some x → tupleLt r.2 x.2 = false) ∧
    (∀ r, best' = some r → ∀ n, new = some n → tupleLt r.2 n.2 = false) ∧
    (best' = none → best = none ∧ new = none) := by
  unfold ASN.update_best at h
  cases best with
  | none =>
    have hb : best' = new := (Except.ok.inj h).symm
    subst hb
    refine ⟨fun r _ x hx => Option.noConfusion hx, ?_, ?_⟩
    · intro r hr n hn
      rw [hr] at hn
      rw [Option.some.inj hn]
      exact tupleLt_irrefl _
    · intro hn
      exact ⟨rfl, hn⟩
  | some b =>
    cases new with
    | none => exact Except.noConfusion h
    | some n =>
      have hb := (Except.ok.inj h).symm
      by_cases hc : tupleLt b.2 n.2 = true
      · rw [if_pos hc] at hb
        subst hb
        refine ⟨?_, ?_, fun hn => Option.noConfusion hn⟩
        · intro r hr x hx
          rw [← Option.some.inj hr, ← Option.some.inj hx]
          exact tupleLt_asymm _ _ hc
        · intro r hr n' hn'
          rw [← Option.some.inj hr, ← Option.some.inj hn']
          exact tupleLt_irrefl _
      · rw [if_neg hc] at hb
        subst hb
        refine ⟨?_, ?_, fun hn => Option.noConfusion hn⟩
        · intro r hr x hx
          rw [← Option.some.inj hr, ← Option.some.inj hx]
          exact tupleLt_irrefl _
        · intro r hr n' hn'
          rw [← Option.some.inj hr, ← Option.some.inj hn']
          cases hcc : tupleLt b.2 n.2 with
          | false => rfl
          | true => exact absurd hcc hc

/-- The trim loop's state and counter trajectory does not depend on the best
accumulator; starting from a "smaller" accumulator can only succeed as well. -/
theorem trim_loop_acc
    (next : ASN.Matching → Nat →
      Except String (ASN.Matching × Nat ×
        Option (List (String × String) × List Int)))
    (trims : List (List (List String))) :
    ∀ (m : ASN.Matching) (ctr : Nat)
      (b1 b2 : Option (List (String × String) × List Int))
      (mD : ASN.Matching) (ctrD : Nat)
      (bD1 : Option (List (String × String) × List Int)),
      ASN.trim_loop next m ctr trims b1 = .ok (mD, ctrD, bD1) →
      (b2 = none ∨ ∃ x, b1 = some x) →
      ∃ bD2, ASN.trim_loop next m ctr trims b2 = .ok (mD, ctrD, bD2) ∧
        (bD2 = none ∨ ∃ x, bD1 = some x) := by
  induction trims with
  | nil =>
    intro m ctr b1 b2 mD ctrD bD1 h hdom
    have hp := Except.ok.inj h
    injection hp with h1 h2
    injection h2 with h2 h3
    subst h1
    subst h2
    subst h3
    exact ⟨b2, rfl, hdom⟩
  | cons trim rest ih =>
    intro m ctr b1 b2 mD ctrD bD1 h hdom
    simp only [ASN.trim_loop] at h ⊢
    split at h
    · exact Except.noConfusion h
    rename_i m1 saved hET
    split at h
    · exact Except.noConfusion h
    rename_i m2 locked hLA
    split at h
    · exact Except.noConfusion h
    rename_i m3 ctr1 res hNX
    split at h
    · exact Except.noConfusion h
    rename_i m4 hUL
    split at h
    · exact Except.noConfusion h
    rename_i best1 hUB
    split at h
    · exact Except.noConfusion h
    rename_i m5 hAP
    -- the b2 update step
    have hub2 : ∃ b2', ASN.update_best b2 res = .ok b2' ∧
        (b2' = none ∨ ∃ x, best1 = some x) := by
      cases hb2 : b2 with
      | none =>
        refine ⟨res, rfl, ?_⟩
        cases hres : res with
        | none => exact Or.inl rfl
        | some rn =>
          right
          unfold ASN.update_best at hUB
          cases hbb : b1 with
          | none =>
            rw [hbb] at hUB
            rw [hres] at hUB
            exact ⟨rn, (Except.ok.inj hUB).symm⟩
          | some x =>
            rw [hbb, hres] at hUB
            have hUB' : (Except.ok (if tupleLt x.2 rn.2 = true
                then some rn else some x) :
                Except String (Option (List (String × String) × List Int))) =
                Except.ok best1 := hUB
            by_cases hc : tupleLt x.2 rn.2 = true
            · rw [if_pos hc] at hUB'
              exact ⟨rn, (Except.ok.inj hUB').symm⟩
            · rw [if_neg hc] at hUB'
              exact ⟨x, (Except.ok.inj hUB').symm⟩
      | some x2 =>
        rcases hdom with hd | ⟨x1, hd⟩
        · rw [hb2] at hd
          exact Option.noConfusion hd
        · cases hres : res with
          | none =>
            rw [hd, hres] at hUB
            exact Except.noConfusion hUB
          | some rn =>
            refine ⟨(if tupleLt x2.2 rn.2 = true then some rn else some x2),
              ?_, ?_⟩
            · unfold ASN.update_best
              rfl
            · right
              rw [hd, hres] at hUB
              have hUB' : (Except.ok (if tupleLt x1.2 rn.2 = true
                  then some rn else some x1) :
                  Except String (Option (List (String × String) × List Int))) =
                  Except.ok best1 := hUB
              by_cases hc : tupleLt x1.2 rn.2 = true
              · rw [if_pos hc] at hUB'
                exact ⟨rn, (Except.ok.inj hUB').symm⟩
              · rw [if_neg hc] at hUB'
                exact ⟨x1, (Except.ok.inj hUB').symm⟩
    obtain ⟨b2', hub2e, hdom'⟩ := hub2
    rw [hub2e]
    exact ih m5 ctr1 best1 b2' mD ctrD bD1 h hdom'

/-- `update_best` with a `some` result always keeps a `some` accumulator. -/
theorem update_best_some (b : Option (List (String × String) × List Int))
    (n : List (String × String) × List Int)
    (b' : Option (List (String × String) × List Int))
    (h : ASN.update_best b (some n) = .ok b') : ∃ x, b' = some x := by
  unfold ASN.update_best at h
  cases b with
  | none => exact ⟨n, (Except.ok.inj h).symm⟩
  | some x =>
    have h' : (Except.ok (if tupleLt x.2 n.2 = true then some n else some x) :
        Except String (Option (List (String × String) × List Int))) =
        .ok b' := h
    by_cases hc : tupleLt x.2 n.2 = true
    · rw [if_pos hc] at h'
      exact ⟨n, (Except.ok.inj h').symm⟩
    · rw [if_neg hc] at h'
      exact ⟨x, (Except.ok.inj h').symm⟩

/-- Optimality fold of the trim loop: with a recursive call that restores its
state and whose results dominate everything reachable below it, the final best
dominates the initial accumulator and everything reachable below every branch
of this loop; a `none` final best means nothing was there to dominate. -/
theorem trim_loop_opt (students : List ASN.Student) (options : List String)
    (K maxpo : Nat)
    (RN : ASN.Matching → Nat → (List (String × String) × List Int) → Prop)
    (next : ASN.Matching → Nat →
      Except String (ASN.Matching × Nat ×
        Option (List (String × String) × List Int)))
    (hnext : ∀ mm cc mo co ro, ASN.Valid students options K mm →
      ASN.CountsLe mm maxpo → next mm cc = .ok (mo, co, ro) →
      mo = mm ∧
      (∀ r, ro = some r → ∀ s, RN mm cc s → tupleLt r.2 s.2 = false) ∧
      (ro = none → ∀ s, ¬ RN mm cc s))
    (trims : List (List (List String))) :
    ∀ (m : ASN.Matching) (ctr : Nat)
      (best0 : Option (List (String × String) × List Int))
      (mF : ASN.Matching) (ctrF : Nat)
      (bestF : Option (List (String × String) × List Int)),
      ASN.Valid students options K m →
      (∀ t ∈ trims, ∀ mE, ASN.Matching.erase_many m t.flatten = .ok mE →
        ASN.CountsLe mE maxpo) →
      ASN.trim_loop next m ctr trims best0 = .ok (mF, ctrF, bestF) →
      (∀ r, bestF = some r →
        (∀ x, best0 = some x → tupleLt r.2 x.2 = false) ∧
        (∀ m2 ctrD s, ASN.branch_entry next m ctr trims m2 ctrD →
          RN m2 ctrD s → tupleLt r.2 s.2 = false)) ∧
      (bestF = none → best0 = none ∧
        (∀ m2 ctrD s, ASN.branch_entry next m ctr trims m2 ctrD →
          ¬ RN m2 ctrD s)) := by
  induction trims with
  | nil =>
    intro m ctr best0 mF ctrF bestF _ _ h
    have hp := Except.ok.inj h
    injection hp with h1 h2
    injection h2 with h2 h3
    subst h3
    have hbrF : ∀ m2 ctrD, ¬ ASN.branch_entry next m ctr [] m2 ctrD := by
      intro m2 ctrD hbr
      obtain ⟨done, trimx, restx, _, _, _, _, _, hdec, _⟩ := hbr
      cases done with
      | nil => exact List.noConfusion hdec
      | cons d ds => exact List.noConfusion hdec
    refine ⟨?_, ?_⟩
    · intro r hr
      refine ⟨?_, fun m2 ctrD s hbr _ => absurd hbr (hbrF m2 ctrD)⟩
      intro x hx
      rw [hr] at hx
      rw [Option.some.inj hx]
      exact tupleLt_irrefl _
    · intro hr
      exact ⟨hr, fun m2 ctrD s hbr _ => absurd hbr (hbrF m2 ctrD)⟩
  | cons trim0 rest0 ih =>
    intro m ctr best0 mF ctrF bestF hv htr h
    simp only [ASN.trim_loop] at h
    split at h
    · exact Except.noConfusion h
    rename_i m1 saved hET
    split at h
    · exact Except.noConfusion h
    rename_i m2 locked hLA
    split at h
    · exact Except.noConfusion h
    rename_i m3 ctr1 res hNX
    split at h
    · exact Except.noConfusion h
    rename_i m4 hUL
    split at h
    · exact Except.noConfusion h
    rename_i best1 hUB
    split at h
    · exact Except.noConfusion h
    rename_i m5 hAP
    obtain ⟨hemflat, hsaved⟩ :=
      erase_trim_spec students options K trim0 m m1 saved hv hET
    have hv1 := (erase_many_spec students options K trim0.flatten m m1 hv hemflat).1
    have hcle1 : ASN.CountsLe m1 maxpo :=
      htr trim0 (List.mem_cons_self _ _) m1 hemflat
    obtain ⟨hv2, hbs2, hbo2, hndw, hws, hunt, hUM⟩ :=
      lock_all_matched_spec students options K m1 m2 locked hv1 hLA
    have hcle2 : ASN.CountsLe m2 maxpo := by
      intro q hq
      rw [hbo2] at hq
      exact hcle1 q hq
    obtain ⟨hm3, hresS, hresN⟩ := hnext m2 ctr m3 ctr1 res hv2 hcle2 hNX
    have hUL2 : ASN.Matching.unlock_many m2 locked = .ok m4 := by
      rw [← hm3]
      exact hUL
    have hm4 : m1 = m4 := by
      rw [hUM] at hUL2
      exact Except.ok.inj hUL2
    rw [hsaved, ← hm4] at hAP
    have hAPm := erase_many_undo students options K trim0.flatten m m1 hv hemflat
    rw [hAPm] at hAP
    have hm5 : m5 = m := (Except.ok.inj hAP).symm
    rw [hm5] at h
    have hUBf := update_best_facts best0 res best1 hUB
    obtain ⟨ihS, ihN⟩ := ih m ctr1 best1 mF ctrF bestF hv
      (fun t ht mE hE => htr t (List.mem_cons_of_mem _ ht) mE hE) h
    have hinv : ∀ m2' ctrD, ASN.branch_entry next m ctr (trim0 :: rest0) m2' ctrD →
        (m2' = m2 ∧ ctrD = ctr) ∨ ASN.branch_entry next m ctr1 rest0 m2' ctrD := by
      intro m2' ctrD hbr
      obtain ⟨done, trimx, restx, mD, bestD, m1x, savedx, lockedx,
        hdec, hDrun, hETx, hLAx⟩ := hbr
      cases done with
      | nil =>
        rw [List.nil_append] at hdec
        injection hdec with hdec1 hdec2
        subst hdec1
        have hp := Except.ok.inj hDrun
        injection hp with hq1 hq2
        injection hq2 with hq2 hq3
        subst hq1
        subst hq2
        rw [hET] at hETx
        have hpx := Except.ok.inj hETx
        injection hpx with hx1 hx2
        subst hx1
        rw [hLA] at hLAx
        have hpy := Except.ok.inj hLAx
        injection hpy with hy1 hy2
        exact Or.inl ⟨hy1.symm, rfl⟩
      | cons d0 done' =>
        rw [List.cons_append] at hdec
        injection hdec with hdec1 hdec2
        subst hdec1
        simp only [ASN.trim_loop] at hDrun
        split at hDrun
        · exact Except.noConfusion hDrun
        rename_i m1y savedy hETy
        rw [hET] at hETy
        have hz := Except.ok.inj hETy
        injection hz with hz1 hz2
        subst hz1
        subst hz2
        split at hDrun
        · exact Except.noConfusion hDrun
        rename_i m2y lockedy hLAy
        rw [hLA] at hLAy
        have hw := Except.ok.inj hLAy
        injection hw with hw1 hw2
        subst hw1
        subst hw2
        split at hDrun
        · exact Except.noConfusion hDrun
        rename_i m3y ctr1y resy hNXy
        rw [hNX] at hNXy
        have hu := Except.ok.inj hNXy
        injection hu with hu1 hu2
        injection hu2 with hu2 hu3
        subst hu1
        subst hu2
        subst hu3
        split at hDrun
        · exact Except.noConfusion hDrun
        rename_i m4y hULy
        rw [hUL] at hULy
        have hv4 := Except.ok.inj hULy
        subst hv4
        split at hDrun
        · exact Except.noConfusion hDrun
        rename_i bestDy hUBy
        have hbDy : bestDy = res := by
          have : (Except.ok res :
              Except String (Option (List (String × String) × List Int))) =
              .ok bestDy := hUBy
          exact (Except.ok.inj this).symm
        rw [hbDy] at hDrun
        split at hDrun
        · exact Except.noConfusion hDrun
        rename_i m5y hAPy
        rw [hsaved, ← hm4, hAPm] at hAPy
        have hm5y : m5y = m := (Except.ok.inj hAPy).symm
        rw [hm5y] at hDrun
        obtain ⟨bD', hD', _⟩ := trim_loop_acc next done' m ctr1 res none
          mD ctrD bestD hDrun (Or.inl rfl)
        exact Or.inr ⟨done', trimx, restx, mD, bD', m1x, savedx, lockedx,
          hdec2, hD', hETx, hLAx⟩
    constructor
    · intro r hr
      obtain ⟨K1, K2⟩ := ihS r hr
      constructor
      · intro x hx
        cases hb1 : best1 with
        | none =>
          obtain ⟨hb0, _⟩ := hUBf.2.2 hb1
          rw [hb0] at hx
          exact Option.noConfusion hx
        | some b1v =>
          exact tupleLt_false_trans _ _ _ (K1 b1v hb1) (hUBf.1 b1v hb1 x hx)
      · intro m2' ctrD s hbr hRN
        rcases hinv m2' ctrD hbr with ⟨he1, he2⟩ | hbr'
        · subst he1
          subst he2
          cases hres : res with
          | none => exact absurd hRN (hresN hres s)
          | some rn =>
            have hA : tupleLt rn.2 s.2 = false := hresS rn hres s hRN
            obtain ⟨b1v, hb1⟩ := update_best_some best0 rn best1 (hres ▸ hUB)
            exact tupleLt_false_trans _ _ _
              (tupleLt_false_trans _ _ _ (K1 b1v hb1) (hUBf.2.1 b1v hb1 rn hres))
              hA
        · exact K2 m2' ctrD s hbr' hRN
    · intro hr
      obtain ⟨hb1, hKn⟩ := ihN hr
      obtain ⟨hb0, hresn⟩ := hUBf.2.2 hb1
      refine ⟨hb0, ?_⟩
      intro m2' ctrD s hbr hRN
      rcases hinv m2' ctrD hbr with ⟨he1, he2⟩ | hbr'
      · subst he1
        subst he2
        exact hresN hresn s hRN
      · exact hKn m2' ctrD s hbr' hRN

/-- Optimality of the staged engine relative to its own search tree: a `some`
result lexicographically dominates every complete scored assignment the
search reaches from the same call state, and a `none` result means the search
reaches none at all. -/
theorem engine_opt (shuffle : Nat → List String → List String)
    (hsh : ∀ c l, List.Perm (shuffle c l) l)
    (students : List ASN.Student) (options : List String)
    (K minpo maxpo : Nat) (hmm : minpo ≤ maxpo) (fuel : Nat) :
    ∀ (stage : Nat) (m : ASN.Matching) (ctr : Nat) (m' : ASN.Matching)
      (ctr' : Nat) (res : Option (List (String × String) × List Int)),
      ASN.Valid students options K m → ASN.CountsLe m maxpo →
      ASN.recursive_assignment_algorithm shuffle students options K minpo maxpo
        fuel stage m ctr = .ok (m', ctr', res) →
      (∀ r, res = some r → ∀ s,
        ASN.Reach shuffle students options K minpo maxpo fuel stage m ctr s →
        tupleLt r.2 s.2 = false) ∧
      (res = none → ∀ s,
        ¬ ASN.Reach shuffle students options K minpo maxpo fuel stage m ctr s) := by
  induction fuel with
  | zero =>
    intro stage m ctr m' ctr' res _ _ h
    exact Except.noConfusion h
  | succ fuel ih =>
    intro stage m ctr m' ctr' res hv hcle h
    simp only [ASN.recursive_assignment_algorithm] at h
    by_cases hst : K < stage
    · rw [if_pos hst] at h
      split at h
      · exact Except.noConfusion h
      rename_i mB ctrB r hBC
      have hp := Except.ok.inj h
      injection hp with h1 h2
      injection h2 with h2 h3
      refine ⟨?_, ?_⟩
      · intro r' hr' s hR
        rw [← h3] at hr'
        have hrr : r = r' := Option.some.inj hr'
        cases hR
        · rename_i mV ctrV hK hBC2
          rw [hBC] at hBC2
          have hq := Except.ok.inj hBC2
          injection hq with q1 q2
          injection q2 with q2 q3
          rw [← hrr, ← q3]
          exact tupleLt_irrefl _
        · rename_i m1x assignedx tisx m2x ctrDx hTIx hlenx hKn hSAx hBEx hRx
          exact absurd hst hKn
      · intro hn s hR
        rw [hn] at h3
        exact Option.noConfusion h3
    · rw [if_neg hst] at h
      split at h
      · exact Except.noConfusion h
      rename_i m1 assigned hSA
      split at h
      · exact Except.noConfusion h
      rename_i tis hTI
      by_cases hlen : 0 < tis.length
      case neg =>
        rw [if_neg hlen] at h
        exact Except.noConfusion h
      rw [if_pos hlen] at h
      split at h
      · exact Except.noConfusion h
      rename_i m2L ctr2L best hTL
      split at h
      · exact Except.noConfusion h
      rename_i m3 hEMa
      have hp := Except.ok.inj h
      injection hp with h1 h2
      injection h2 with h2 h3
      obtain ⟨qs, hout, hseq⟩ := stage_assign_aux_spec students options K stage
        students m m1 [] assigned hv hSA
      have hv1 := (assign_seq_spec students options K qs m m1 hv hseq).1
      have htr : ∀ t ∈ productList tis,
          ∀ mE, ASN.Matching.erase_many m1 t.flatten = .ok mE →
          ASN.CountsLe mE maxpo :=
        fun t ht mE hE =>
          trim_counts_le students options K maxpo m1 mE tis t hv1 hTI
            (by rw [if_pos hlen]; exact ht) hE
      obtain ⟨hS, hN⟩ := trim_loop_opt students options K maxpo
        (fun mm cc s => ASN.Reach shuffle students options K minpo maxpo fuel
          (stage + 1) mm cc s)
        (fun mm cc => ASN.recursive_assignment_algorithm shuffle students
          options K minpo maxpo fuel (stage + 1) mm cc)
        (fun mm cc mo co ro hvm hcm hr =>
          ⟨(engine_main shuffle hsh students options K minpo maxpo hmm fuel
            (stage + 1) mm cc mo co ro hvm hcm hr).1,
           (ih (stage + 1) mm cc mo co ro hvm hcm hr).1,
           (ih (stage + 1) mm cc mo co ro hvm hcm hr).2⟩)
        (productList tis)
        m1 ctr none m2L ctr2L best hv1 htr hTL
      refine ⟨?_, ?_⟩
      · intro r hr s hR
        rw [← h3] at hr
        cases hR
        · rename_i mV ctrV hK hBC2
          exact absurd hK hst
        · rename_i m1x assignedx tisx m2x ctrDx hTIx hlenx hKn hSAx hBEx hRx
          rw [hSA] at hSAx
          have hq := Except.ok.inj hSAx
          injection hq with q1 q2
          rw [← q1] at hTIx hBEx
          rw [hTI] at hTIx
          have q3 := Except.ok.inj hTIx
          rw [← q3] at hBEx
          exact (hS r hr).2 m2x ctrDx s hBEx hRx
      · intro hn s hR
        rw [hn] at h3
        obtain ⟨_, hnone⟩ := hN h3
        cases hR
        · rename_i mV ctrV hK hBC2
          exact absurd hK hst
        · rename_i m1x assignedx tisx m2x ctrDx hTIx hlenx hKn hSAx hBEx hRx
          rw [hSA] at hSAx
          have hq := Except.ok.inj hSAx
          injection hq with q1 q2
          rw [← q1] at hTIx hBEx
          rw [hTI] at hTIx
          have q3 := Except.ok.inj hTIx
          rw [← q3] at hBEx
          exact hnone m2x ctrDx s hBEx hRx

/-! ### Claim C5 — the two scorers agree with the reference -/

/-- C5: on a complete assignment, the new scorer, the old scorer (with its
dicts built from the same student records), and the reference definition of
section 4.3 return the same score tuple. -/
theorem claim_C5_scorers_agree (students : List ASN.Student)
    (options : List String) (K minpo maxpo : Nat)
    (mN : ASN.Matching) (mO : AU.Matching) (asg : String → Option String)
    (hnames : (students.map ASN.Student.name).Nodup)
    (hlen : ∀ st ∈ students, st.choices.length = K)
    (hasgN : ∀ st ∈ students, alookup st.name mN.by_student = some (asg st.name))
    (hasgO : ∀ st ∈ students, alookup st.name mO.by_student = some (asg st.name))
    (hcomp : ∀ st ∈ students, (asg st.name).isSome = true) :
    ASN.score_assignment mN students options K minpo maxpo =
      .ok (ref_score students K asg) ∧
    AU.ScoreCalculator.calculate_score
      { choices := students.map (fun st => (st.name, st.choices)),
        high_priority := students.map (fun st => (st.name, st.high_priority)),
        n_choices := K } mO = .ok (ref_score students K asg) := by
  have hhp : ∀ st ∈ students, alookup st.name
      (students.map (fun s => (s.name, s.high_priority))) = some st.high_priority :=
    fun st hm => map_alookup students _ st hnames hm
  constructor
  · rw [ASN.score_assignment, score_aux_eq mN K asg students _ hlen hasgN, ref_score]
  · rw [AU.ScoreCalculator.calculate_score]
    show AU.calc_aux mO (students.map fun st => (st.name, st.high_priority)) K
        (students.map fun st => (st.name, st.choices))
        ((((students.map fun st => (st.name, st.choices)).length : Nat) : Int) ::
          List.replicate (2 * K) 0) = .ok (ref_score students K asg)
    rw [List.length_map, calc_aux_eq mO K asg _ students _ hasgO hhp hcomp]
    rcases fold_rel K asg students (students.length : Int) 0
      (List.replicate (2 * K) 0) with ⟨t', h1, h2⟩
    rw [h2, ref_score,
      show List.replicate (2 * K + 1) (0 : Int) = (0 : Int) :: List.replicate (2 * K) 0
        from rfl, h1]
    have heads : (students.length : Int) - (unhappyCnt students asg : Int) =
        0 + (happyCnt students asg : Int) := by
      have hhu := happy_add_unhappy asg students
      omega
    rw [heads]

/-- C5 witness: the agreement evaluated on the concrete complete assignment
`w5mN`/`w5mO` of the two students `w5students`. -/
theorem claim_C5_witness :
    ((w5students.map ASN.Student.name).Nodup) ∧
    (∀ st ∈ w5students, st.choices.length = 1) ∧
    (∀ st ∈ w5students, alookup st.name w5mN.by_student = some (w5asg st.name)) ∧
    (∀ st ∈ w5students, alookup st.name w5mO.by_student = some (w5asg st.name)) ∧
    (∀ st ∈ w5students, (w5asg st.name).isSome = true) ∧
    ASN.score_assignment w5mN w5students ["A", "B"] 1 1 1 =
      .ok (ref_score w5students 1 w5asg) :=
  ⟨by decide, by decide, by decide, by decide, by decide,
    (claim_C5_scorers_agree w5students ["A", "B"] 1 1 1 w5mN w5mO w5asg
      (by decide) (by decide) (by decide) (by decide) (by decide)).1⟩

/-! ### Claim C6 (amended) — incomplete assignments and the two scorers -/

/-- The old scorer raises its `ValueError` whenever some student in the dict
is unassigned (and all lookups succeed up to that point). -/
theorem calc_aux_incomplete (mO : AU.Matching) (K : Nat)
    (asg : String → Option String) (hpd : List (String × Bool)) :
    ∀ (studs : List ASN.Student) (score : List Int),
    (∀ st ∈ studs, alookup st.name mO.by_student = some (asg st.name)) →
    (∀ st ∈ studs, alookup st.name hpd = some st.high_priority) →
    (∃ st ∈ studs, asg st.name = none) →
    AU.calc_aux mO hpd K (studs.map (fun st => (st.name, st.choices))) score =
      .error "ValueError: scoring an incomplete match" := by
  intro studs
  induction studs with
  | nil =>
    rintro score _ _ ⟨st, hst, _⟩
    exact absurd hst (List.not_mem_nil st)
  | cons st rest ih =>
    intro score hasg hhp hex
    cases ho : asg st.name with
    | none =>
      have hl : mO.lookup st.name = .ok (.inl none) := by
        rw [AU.Matching.lookup, hasg st (List.mem_cons_self _ _), ho]
      rw [List.map_cons,
        calc_aux_cons_incomplete mO hpd K st.name st.choices _ score
          st.high_priority hl (hhp st (List.mem_cons_self _ _))]
    | some o =>
      have hl : mO.lookup st.name = .ok (.inl (some o)) := by
        rw [AU.Matching.lookup, hasg st (List.mem_cons_self _ _), ho]
      rw [List.map_cons,
        calc_aux_cons_step mO hpd K st.name st.choices _ score o st.high_priority
          hl (hhp st (List.mem_cons_self _ _))]
      have hex' : ∃ s ∈ rest, asg s.name = none := by
        rcases hex with ⟨s, hs, hnone⟩
        rcases List.mem_cons.1 hs with rfl | hs'
        · rw [ho] at hnone
          exact Option.noConfusion hnone
        · exact ⟨s, hs', hnone⟩
      cases hf : firstIdx o st.choices with
      | none =>
        simp only [hf]
        exact ih _ (fun s hh => hasg s (List.mem_cons_of_mem _ hh))
          (fun s hh => hhp s (List.mem_cons_of_mem _ hh)) hex'
      | some rank =>
        simp only [hf]
        exact ih _ (fun s hh => hasg s (List.mem_cons_of_mem _ hh))
          (fun s hh => hhp s (List.mem_cons_of_mem _ hh)) hex'

/-- C6 (amended): with at least one unassigned student, the old scorer fails
with its state-consistency `ValueError`, while the new scorer returns the
reference score, counting every unassigned student as unhappy. -/
theorem claim_C6_incomplete_scoring (students : List ASN.Student)
    (options : List String) (K minpo maxpo : Nat)
    (mN : ASN.Matching) (mO : AU.Matching) (asg : String → Option String)
    (hnames : (students.map ASN.Student.name).Nodup)
    (hlen : ∀ st ∈ students, st.choices.length = K)
    (hasgN : ∀ st ∈ students, alookup st.name mN.by_student = some (asg st.name))
    (hasgO : ∀ st ∈ students, alookup st.name mO.by_student = some (asg st.name))
    (hinc : ∃ st ∈ students, asg st.name = none) :
    ASN.score_assignment mN students options K minpo maxpo =
      .ok (ref_score students K asg) ∧
    AU.ScoreCalculator.calculate_score
      { choices := students.map (fun st => (st.name, st.choices)),
        high_priority := students.map (fun st => (st.name, st.high_priority)),
        n_choices := K } mO = .error "ValueError: scoring an incomplete match" := by
  have hhp : ∀ st ∈ students, alookup st.name
      (students.map (fun s => (s.name, s.high_priority))) = some st.high_priority :=
    fun st hm => map_alookup students _ st hnames hm
  constructor
  · rw [ASN.score_assignment, score_aux_eq mN K asg students _ hlen hasgN, ref_score]
  · rw [AU.ScoreCalculator.calculate_score]
    exact calc_aux_incomplete mO K asg _ students _ hasgO hhp hinc

/-- C6 witness: the amended claim evaluated on `cexIncomplete`/`w6mO`, where
student `y` is unassigned. -/
theorem claim_C6_witness :
    ((w6students.map ASN.Student.name).Nodup) ∧
    (∀ st ∈ w6students, st.choices.length = 1) ∧
    (∀ st ∈ w6students, alookup st.name cexIncomplete.by_student = some (w6asg st.name)) ∧
    (∀ st ∈ w6students, alookup st.name w6mO.by_student = some (w6asg st.name)) ∧
    (∃ st ∈ w6students, w6asg st.name = none) ∧
    AU.ScoreCalculator.calculate_score
      { choices := w6students.map (fun st => (st.name, st.choices)),
        high_priority := w6students.map (fun st => (st.name, st.high_priority)),
        n_choices := 1 } w6mO = .error "ValueError: scoring an incomplete match" :=
  ⟨by decide, by decide, by decide, by decide, by decide,
    (claim_C6_incomplete_scoring w6students ["A", "B"] 1 1 1 cexIncomplete w6mO w6asg
      (by decide) (by decide) (by decide) (by decide) (by decide)).2⟩

/-! ### Claim C1 — score optimality of the staged engine -/

/-- C1: for every valid call state (well-formed matching, per-option counts
within the cap, a permutation shuffle, `min_per_option ≤ max_per_option`),
when `recursive_assignment_algorithm` returns a score, that score is
lexicographically greater than or equal to the score of every other
capacity-feasible complete assignment reachable by the search from that
state: no reachable scored assignment compares strictly greater. -/
theorem claim_C1_score_optimal (shuffle : Nat → List String → List String)
    (hsh : ∀ c l, List.Perm (shuffle c l) l)
    (students : List ASN.Student) (options : List String)
    (K minpo maxpo : Nat) (hmm : minpo ≤ maxpo) (fuel stage : Nat)
    (m : ASN.Matching) (ctr : Nat) (m' : ASN.Matching) (ctr' : Nat)
    (r : List (String × String) × List Int)
    (hv : ASN.Valid students options K m) (hcle : ASN.CountsLe m maxpo)
    (h : ASN.recursive_assignment_algorithm shuffle students options K minpo
      maxpo fuel stage m ctr = .ok (m', ctr', some r)) :
    ∀ s, ASN.Reach shuffle students options K minpo maxpo fuel stage m ctr s →
      tupleLt r.2 s.2 = false :=
  fun s hR =>
    (engine_opt shuffle hsh students options K minpo maxpo hmm fuel stage m ctr
      m' ctr' (some r) hv hcle h).1 r rfl s hR

/-- C1 witness: the two-student run in which both students want `A` first;
the engine returns score `[1, 1, 0]`, the branch it returns is itself
reachable, and the returned score does not compare strictly below it. -/
theorem claim_C1_witness :
    (1 ≤ 1 ∧ ASN.Valid w3students w3options 1 w3m0 ∧ ASN.CountsLe w3m0 1 ∧
      ASN.recursive_assignment_algorithm (fun _ l => l) w3students w3options
        1 1 1 2 1 w3m0 0 =
        .ok (w3m0, 2, some ([("x", "B"), ("y", "A")], [1, 1, 0]))) ∧
    ASN.Reach (fun _ l => l) w3students w3options 1 1 1 2 1 w3m0 0
      ([("x", "B"), ("y", "A")], [1, 1, 0]) ∧
    tupleLt [1, 1, 0] [1, 1, 0] = false := by
  have hreach : ASN.Reach (fun _ l => l) w3students w3options 1 1 1 2 1 w3m0 0
      ([("x", "B"), ("y", "A")], [1, 1, 0]) :=
    ASN.Reach.step 1 1 w3m0 0 w3m1 ["x", "y"] [[["x"], ["y"]]] w3m2 0
      ([("x", "B"), ("y", "A")], [1, 1, 0])
      (by decide) w3_stage rfl (by decide)
      ⟨[], [["x"]], [[["y"]]], w3m1, none, w3m1x, [("x", some "A")], ["y"],
        rfl, rfl, rfl, rfl⟩
      (ASN.Reach.base 0 2 w3m2 0 w3m2 1 ([("x", "B"), ("y", "A")], [1, 1, 0])
        (by decide) rfl)
  exact ⟨⟨Nat.le_refl 1, by decide, by decide, w3_run⟩, hreach,
    claim_C1_score_optimal (fun _ l => l) (fun _ l => List.Perm.refl l)
      w3students w3options 1 1 1 (Nat.le_refl 1) 2 1 w3m0 0 w3m0 2
      ([("x", "B"), ("y", "A")], [1, 1, 0]) (by decide) (by decide) w3_run
      ([("x", "B"), ("y", "A")], [1, 1, 0]) hreach⟩

end GeoPeriods
